import Mathlib

/-!
# Black–Scholes pricing kernel and Greeks estimators (quant_cloud backend)

A shallow embedding, in exact real and complex arithmetic, of
`bs_call_price.hpp`, `bs_templated_cdf_dispatcher.hpp`,
`bs_templated_pricer.hpp`, `bs_greeks.hpp` and the driver loop of `main.cpp`.

Conventions of the embedding:
* `double` is `ℝ`, `std::complex<double>` is `ℂ`; rounding is not modelled.
* The three hard-coded `static constexpr double` constants are the fields of
  a record `Consts` passed to every function that reads one. `literalConsts`
  holds the decimal literals of the source, `exactConsts` the real numbers
  those literals approximate.
* `std::erfc`, `std::log1p`, `std::exp`, `std::log`, `std::sqrt` are library
  functions; they are given their mathematical meaning (principal branches
  for the complex overloads).
-/

open Real Filter Topology

set_option maxHeartbeats 1000000

namespace QuantCloud

/-! ## Library functions of `<cmath>` and `<complex>` -/

/-- Mathematical meaning of `std::erfc`: `erfc x = 1 - erf x`, with the error function given by
its Maclaurin series `erf x = (2/√π) ∑ₙ (-1)ⁿ x²ⁿ⁺¹ / (n! (2n+1))`.  The integral form
`erfc x = 1 - (2/√π) ∫₀ˣ exp (-t²) dt` is the first fact of `erfc_integral_facts`. -/
noncomputable def erfc (x : ℝ) : ℝ :=
  1 - 2 / √π *
    tsum fun n : ℕ => (-1) ^ n * x ^ (2 * n + 1) / ((n.factorial : ℝ) * (2 * n + 1))

/-- Mathematical meaning of `std::log1p`. -/
noncomputable def log1p (x : ℝ) : ℝ := Real.log (1 + x)

/-- Principal square root, the meaning of `std::sqrt` on `std::complex<double>`. -/
noncomputable def csqrt (z : ℂ) : ℂ := z ^ (1 / 2 : ℂ)

/-! ## Constants -/

/-- The `static constexpr double` constants of the source files:
`INV_SQRT_2` (in `Phi_real` and in `csd_gamma_45`), `INV_SQRT_2PI` (in `phi`)
and `LOG_SQRT_2PI` (in `analytic_gamma`). -/
structure Consts where
  INV_SQRT_2 : ℝ
  INV_SQRT_2PI : ℝ
  LOG_SQRT_2PI : ℝ

/-- The decimal literals written in the source. -/
noncomputable def literalConsts : Consts where
  INV_SQRT_2 := 0.70710678118654752440
  INV_SQRT_2PI := 0.39894228040143267794
  LOG_SQRT_2PI := 0.91893853320467274178

/-- The real numbers the literals stand for. -/
noncomputable def exactConsts : Consts where
  INV_SQRT_2 := 1 / √2
  INV_SQRT_2PI := 1 / √(2 * π)
  LOG_SQRT_2PI := Real.log (√(2 * π))

/-! ## bs_call_price.hpp -/

/-- Source: `Phi_real` of `bs_call_price.hpp`. -/
noncomputable def Phi_real (c : Consts) (z : ℝ) : ℝ :=
  0.5 * erfc (-z * c.INV_SQRT_2)

/-- Source: `phi` of `bs_call_price.hpp`. -/
noncomputable def phi (c : Consts) (z : ℝ) : ℝ :=
  c.INV_SQRT_2PI * Real.exp (-0.5 * z * z)

/-- The block that fills the local `ln_F_over_K`; it is the same text in
`bs_price_call`, `analytic_delta` and `analytic_gamma`. -/
noncomputable def ln_F_over_K (F K : ℝ) : ℝ :=
  if K > 0 then
    (if |(F - K) / K| ≤ 1e-12 then log1p ((F - K) / K) else Real.log (F / K))
  else
    Real.log (F / K)

/-- Source: `bs_price_call` of `bs_call_price.hpp`. -/
noncomputable def bs_price_call (c : Consts) (S K r q sigma T : ℝ) : ℝ :=
  let DF := Real.exp (-r * T)
  let F := S * Real.exp ((r - q) * T)
  let sigmaT := sigma * √(max T 0)
  if sigmaT = 0 then DF * max (F - K) 0
  else
    let d1 := (ln_F_over_K F K + 0.5 * sigma * sigma * T) / sigmaT
    let d2 := d1 - sigmaT
    DF * (F * Phi_real c d1 - K * Phi_real c d2)

/-! ## bs_templated_cdf_dispatcher.hpp -/

/-- Source: the specialisation `Phi_t<double>`. -/
noncomputable def Phi_t_double (c : Consts) (z : ℝ) : ℝ :=
  Phi_real c z

/-- Source: the specialisation `Phi_t<std::complex<double>>`. -/
noncomputable def Phi_t_complex (c : Consts) (z : ℂ) : ℂ :=
  let z_r := z.re
  let z_i := z.im
  let cdf_real := Phi_real c z_r
  let pdf_real := phi c z_r
  ⟨cdf_real, z_i * pdf_real⟩

/-! ## bs_templated_pricer.hpp -/

/-- Source: `bs_price_call_t` instantiated at `T = std::complex<double>`. -/
noncomputable def bs_price_call_t (c : Consts) (S K r q sigma Tmat : ℂ) : ℂ :=
  let DF := Complex.exp (-r * Tmat)
  let F := S * Complex.exp ((r - q) * Tmat)
  let sigmaT := sigma * csqrt Tmat
  let d1 := (Complex.log (F / K) + 0.5 * sigma * sigma * Tmat) / sigmaT
  let d2 := d1 - sigmaT
  DF * (F * Phi_t_complex c d1 - K * Phi_t_complex c d2)

/-! ## bs_greeks.hpp -/

/-- Source: `analytic_delta`. -/
noncomputable def analytic_delta (c : Consts) (S K r q sigma T : ℝ) : ℝ :=
  let F := S * Real.exp ((r - q) * T)
  let sigmaT := sigma * √(max T 0)
  if sigmaT = 0 then (if F > K then Real.exp (-q * T) else 0)
  else
    let d1 := (ln_F_over_K F K + 0.5 * sigma * sigma * T) / sigmaT
    Real.exp (-q * T) * Phi_real c d1

/-- Source: `analytic_gamma`. -/
noncomputable def analytic_gamma (c : Consts) (S K r q sigma T : ℝ) : ℝ :=
  let F := S * Real.exp ((r - q) * T)
  let sigmaT := sigma * √(max T 0)
  if sigmaT = 0 then 0
  else
    let d1 := (ln_F_over_K F K + 0.5 * sigma * sigma * T) / sigmaT
    let log_phi_d1 := -0.5 * d1 * d1 - c.LOG_SQRT_2PI
    let phi_d1 := Real.exp log_phi_d1
    Real.exp (-q * T) * phi_d1 / (S * sigmaT)

/-- Source: `ffd_delta`. -/
noncomputable def ffd_delta (c : Consts) (S K r q sigma T h : ℝ) : ℝ :=
  let C_S := bs_price_call c S K r q sigma T
  let C_Sh := bs_price_call c (S + h) K r q sigma T
  (C_Sh - C_S) / h

/-- Source: `ffd_gamma`. -/
noncomputable def ffd_gamma (c : Consts) (S K r q sigma T h : ℝ) : ℝ :=
  let C_S := bs_price_call c S K r q sigma T
  let C_Sh := bs_price_call c (S + h) K r q sigma T
  let C_S2h := bs_price_call c (S + 2 * h) K r q sigma T
  (C_S2h - 2.0 * C_Sh + C_S) / (h * h)

/-- Source: `cplx`, promotion of a real to a complex with zero imaginary part. -/
def cplx (val : ℝ) : ℂ := ⟨val, 0⟩

/-- Source: `csd_delta`. -/
noncomputable def csd_delta (c : Consts) (S K r q sigma T h : ℝ) : ℝ :=
  let S_h : ℂ := ⟨S, h⟩
  let C_Sh := bs_price_call_t c S_h (cplx K) (cplx r) (cplx q) (cplx sigma) (cplx T)
  C_Sh.im / h

/-- Source: `csd_gamma_real`. -/
noncomputable def csd_gamma_real (c : Consts) (S K r q sigma T h : ℝ) : ℝ :=
  let S_h : ℂ := ⟨S, h⟩
  let C_Sh := bs_price_call_t c S_h (cplx K) (cplx r) (cplx q) (cplx sigma) (cplx T)
  let C_S := bs_price_call c S K r q sigma T
  (-2.0 * (C_Sh.re - C_S)) / (h * h)

/-- Source: `csd_gamma_45`. -/
noncomputable def csd_gamma_45 (c : Consts) (S K r q sigma T h : ℝ) : ℝ :=
  let omega : ℂ := ⟨c.INV_SQRT_2, c.INV_SQRT_2⟩
  let h_omega : ℂ := (h : ℂ) * omega
  let C_plus := bs_price_call_t c (cplx S + h_omega) (cplx K) (cplx r) (cplx q)
    (cplx sigma) (cplx T)
  let C_minus := bs_price_call_t c (cplx S - h_omega) (cplx K) (cplx r) (cplx q)
    (cplx sigma) (cplx T)
  (C_plus + C_minus).im / (h * h)

/-! ## Instrumented control flow of `bs_price_call` -/

/-- The operations of `bs_price_call` that are undefined at some real argument,
in program order and by name (`"div"` for a division `/`, `"log"` for a call of
`std::log`, `"log1p"` for a call of `std::log1p`), following the same branches
as `bs_price_call`: none before the early return, then `(F - K) / K` and either
`log1p` or `F / K` with `log` (or `F / K` with `log` alone when `K > 0` fails),
then the division by `sigmaT` in `d1`. -/
noncomputable def bs_price_call_ops (S K r q sigma T : ℝ) : List String :=
  let F := S * Real.exp ((r - q) * T)
  let sigmaT := sigma * √(max T 0)
  if sigmaT = 0 then []
  else
    (if K > 0 then
      "div" :: (if |(F - K) / K| ≤ 1e-12 then ["log1p"] else ["div", "log"])
    else
      ["div", "log"]) ++ ["div"]

/-! ## Closed forms named in the specification -/

/-- Specification (§4.3): `DF·(F·Φ(d1) − K·Φ(d2))` with `DF = exp(−r·T)`,
`F = S·exp((r−q)·T)`, `d1 = (ln(F/K) + ½·σ²·T)/(σ√T)`, `d2 = d1 − σ√T`,
where `Φ` is `Phi_real`. -/
noncomputable def spec_call_price (c : Consts) (S K r q sigma T : ℝ) : ℝ :=
  let DF := Real.exp (-r * T)
  let F := S * Real.exp ((r - q) * T)
  let d1 := (Real.log (F / K) + 0.5 * sigma ^ 2 * T) / (sigma * √T)
  let d2 := d1 - sigma * √T
  DF * (F * Phi_real c d1 - K * Phi_real c d2)

/-! ## Auxiliary functions of the analysis -/

/-- The derivative of `Phi_real c`: `(INV_SQRT_2/√π)·exp(−(z·INV_SQRT_2)²)`. -/
noncomputable def Phi_deriv (c : Consts) (z : ℝ) : ℝ :=
  c.INV_SQRT_2 / √π * Real.exp (-(z * c.INV_SQRT_2) ^ 2)

/-- The real `d1` of the pricer as a function of the spot,
`(ln(s·exp((r−q)T)/K) + ½σ²T)/(σ√T)`. -/
noncomputable def d1_real (s K r q sigma T : ℝ) : ℝ :=
  (Real.log (s * Real.exp ((r - q) * T) / K) + 0.5 * sigma ^ 2 * T) / (sigma * √T)

/-- The `d1` of `bs_price_call_t` at a complex spot `s`, the other parameters
being real numbers promoted by `cplx`. -/
noncomputable def d1_cplx (s : ℂ) (K r q sigma T : ℝ) : ℂ :=
  (Complex.log (s * Complex.exp (((r : ℂ) - (q : ℂ)) * (T : ℂ)) / (K : ℂ))
    + 0.5 * (sigma : ℂ) * (sigma : ℂ) * (T : ℂ)) / ((sigma : ℂ) * csqrt (T : ℂ))

/-! ### The pricer along a line `t ↦ S + t·w` in the complex spot plane

`line_a`, `line_b` are the real and imaginary parts of the complex `d1`;
`line_a1`, `line_b1` those of its derivative in `t`. The imaginary part of
the pricer is `line_b·line_U + (t·w.im)·line_V` and its real part
`line_W − (t·w.im)·(line_b·line_Z)`. -/

/-- Real part of the complex `d1` at the spot `S + t·w`. -/
noncomputable def line_a (S K r q sigma T : ℝ) (w : ℂ) (t : ℝ) : ℝ :=
  (d1_cplx ((S : ℂ) + (t : ℂ) * w) K r q sigma T).re

/-- Imaginary part of the complex `d1` at the spot `S + t·w`. -/
noncomputable def line_b (S K r q sigma T : ℝ) (w : ℂ) (t : ℝ) : ℝ :=
  (d1_cplx ((S : ℂ) + (t : ℂ) * w) K r q sigma T).im

/-- The derivative in `t` of the complex `d1` at the spot `S + t·w`. -/
noncomputable def line_d1_deriv (S sigma T : ℝ) (w : ℂ) (t : ℝ) : ℂ :=
  w / (((S : ℂ) + (t : ℂ) * w) * ((sigma : ℂ) * csqrt (T : ℂ)))

/-- Derivative of `line_a`. -/
noncomputable def line_a1 (S sigma T : ℝ) (w : ℂ) (t : ℝ) : ℝ :=
  (line_d1_deriv S sigma T w t).re

/-- Derivative of `line_b`. -/
noncomputable def line_b1 (S sigma T : ℝ) (w : ℂ) (t : ℝ) : ℝ :=
  (line_d1_deriv S sigma T w t).im

/-- Cofactor of `line_b` in the imaginary part of the pricer. -/
noncomputable def line_U (c : Consts) (S K r q sigma T : ℝ) (w : ℂ) (t : ℝ) : ℝ :=
  Real.exp (-r * T) * (Real.exp ((r - q) * T) * (S + t * w.re)
      * phi c (line_a S K r q sigma T w t)
    - K * phi c (line_a S K r q sigma T w t - sigma * √T))

/-- Derivative of `line_U`. -/
noncomputable def line_U1 (c : Consts) (S K r q sigma T : ℝ) (w : ℂ) (t : ℝ) : ℝ :=
  Real.exp (-r * T) * (Real.exp ((r - q) * T)
      * (w.re * phi c (line_a S K r q sigma T w t)
        + (S + t * w.re) * (-(line_a S K r q sigma T w t)
            * phi c (line_a S K r q sigma T w t) * line_a1 S sigma T w t))
    - K * (-(line_a S K r q sigma T w t - sigma * √T)
            * phi c (line_a S K r q sigma T w t - sigma * √T) * line_a1 S sigma T w t))

/-- Cofactor of the imaginary part of the spot in the imaginary part of the pricer. -/
noncomputable def line_V (c : Consts) (S K r q sigma T : ℝ) (w : ℂ) (t : ℝ) : ℝ :=
  Real.exp (-r * T) * Real.exp ((r - q) * T) * Phi_real c (line_a S K r q sigma T w t)

/-- Derivative of `line_V`. -/
noncomputable def line_V1 (c : Consts) (S K r q sigma T : ℝ) (w : ℂ) (t : ℝ) : ℝ :=
  Real.exp (-r * T) * Real.exp ((r - q) * T)
    * (Phi_deriv c (line_a S K r q sigma T w t) * line_a1 S sigma T w t)

/-- Imaginary part of the pricer at the spot `S + t·w`. -/
noncomputable def line_im (c : Consts) (S K r q sigma T : ℝ) (w : ℂ) (t : ℝ) : ℝ :=
  line_b S K r q sigma T w t * line_U c S K r q sigma T w t
    + t * w.im * line_V c S K r q sigma T w t

/-- Derivative of `line_im`. -/
noncomputable def line_im1 (c : Consts) (S K r q sigma T : ℝ) (w : ℂ) (t : ℝ) : ℝ :=
  line_b1 S sigma T w t * line_U c S K r q sigma T w t
    + line_b S K r q sigma T w t * line_U1 c S K r q sigma T w t
    + (w.im * line_V c S K r q sigma T w t + t * w.im * line_V1 c S K r q sigma T w t)

/-- The part of the real part of the pricer that does not carry the factor
`line_b`. -/
noncomputable def line_W (c : Consts) (S K r q sigma T : ℝ) (w : ℂ) (t : ℝ) : ℝ :=
  Real.exp (-r * T) * (Real.exp ((r - q) * T) * (S + t * w.re)
      * Phi_real c (line_a S K r q sigma T w t)
    - K * Phi_real c (line_a S K r q sigma T w t - sigma * √T))

/-- Cofactor of `line_a1` in the derivative of `line_W`. -/
noncomputable def line_Q (c : Consts) (S K r q sigma T : ℝ) (w : ℂ) (t : ℝ) : ℝ :=
  Real.exp (-r * T) * (Real.exp ((r - q) * T) * (S + t * w.re)
      * Phi_deriv c (line_a S K r q sigma T w t)
    - K * Phi_deriv c (line_a S K r q sigma T w t - sigma * √T))

/-- Derivative of `line_W`. -/
noncomputable def line_W1 (c : Consts) (S K r q sigma T : ℝ) (w : ℂ) (t : ℝ) : ℝ :=
  w.re * line_V c S K r q sigma T w t
    + line_a1 S sigma T w t * line_Q c S K r q sigma T w t

/-- Cofactor of `(t·w.im)·line_b` in the real part of the pricer. -/
noncomputable def line_Z (c : Consts) (S K r q sigma T : ℝ) (w : ℂ) (t : ℝ) : ℝ :=
  Real.exp (-r * T) * Real.exp ((r - q) * T) * phi c (line_a S K r q sigma T w t)

/-- Derivative of `line_Z`. -/
noncomputable def line_Z1 (c : Consts) (S K r q sigma T : ℝ) (w : ℂ) (t : ℝ) : ℝ :=
  Real.exp (-r * T) * Real.exp ((r - q) * T)
    * (-(line_a S K r q sigma T w t) * phi c (line_a S K r q sigma T w t)
        * line_a1 S sigma T w t)

/-- Real part of the pricer at the spot `S + t·w`. -/
noncomputable def line_re (c : Consts) (S K r q sigma T : ℝ) (w : ℂ) (t : ℝ) : ℝ :=
  line_W c S K r q sigma T w t
    - t * w.im * (line_b S K r q sigma T w t * line_Z c S K r q sigma T w t)

/-- Derivative of `line_re`. -/
noncomputable def line_re1 (c : Consts) (S K r q sigma T : ℝ) (w : ℂ) (t : ℝ) : ℝ :=
  line_W1 c S K r q sigma T w t
    - (w.im * (line_b S K r q sigma T w t * line_Z c S K r q sigma T w t)
      + t * w.im * (line_b1 S sigma T w t * line_Z c S K r q sigma T w t
          + line_b S K r q sigma T w t * line_Z1 c S K r q sigma T w t))

/-! ## main.cpp -/

/-- Source: the body of the `for` loop of `run_validation`, at loop index `i`,
for the scenario with fields `S, K, r, q, sigma, T` (its `name` only forms the
file name): the data row written, as the list of its fourteen columns in the
order of the header line `h_rel, h, Delta_analytic, Delta_fd, Delta_cs,
err_D_fd, err_D_cs, Gamma_analytic, Gamma_fd, Gamma_cs_real, Gamma_cs_45,
err_G_fd, err_G_cs_real, err_G_cs_45`. -/
noncomputable def run_validation_row (c : Consts) (S K r q sigma T : ℝ) (steps : ℕ) (i : ℕ) :
    List ℝ :=
  let delta_true := analytic_delta c S K r q sigma T
  let gamma_true := analytic_gamma c S K r q sigma T
  let h_rel := (10.0 : ℝ) ^ ((-16.0 : ℝ) + (12.0 * (i : ℝ) / (steps : ℝ)))
  let h := h_rel * S
  let delta_fd := ffd_delta c S K r q sigma T h
  let gamma_fd := ffd_gamma c S K r q sigma T h
  let delta_cs := csd_delta c S K r q sigma T h
  let gamma_cs_real := csd_gamma_real c S K r q sigma T h
  let gamma_cs_45 := csd_gamma_45 c S K r q sigma T h
  let err_D_fd := |delta_fd - delta_true|
  let err_D_cs := |delta_cs - delta_true|
  let err_G_fd := |gamma_fd - gamma_true|
  let err_G_cs_real := |gamma_cs_real - gamma_true|
  let err_G_cs_45 := |gamma_cs_45 - gamma_true|
  [h_rel, h, delta_true, delta_fd, delta_cs, err_D_fd, err_D_cs,
    gamma_true, gamma_fd, gamma_cs_real, gamma_cs_45, err_G_fd, err_G_cs_real, err_G_cs_45]

/-- Source: `run_validation` of `main.cpp`, as the list of data rows it writes
after the header: `steps = 24` and the loop `for (i = 0; i <= steps; ++i)`. -/
noncomputable def run_validation (c : Consts) (S K r q sigma T : ℝ) : List (List ℝ) :=
  let steps := 24
  (List.range (steps + 1)).map (run_validation_row c S K r q sigma T steps)

/-! ## IEEE-754 binary64 rounding of a constant -/

/-- The normal binary64 number `m/2^e`, with `2^52 < m < 2^53`, is the double
nearest to `x`, without a tie: `x` is at less than half a unit in the last
place, `1/2^e`, from it. The neighbours of such a number are `(m ± 1)/2^e`. -/
def nearest_binary64 (m e : ℕ) (x : ℝ) : Prop :=
  2 ^ 52 < m ∧ m < 2 ^ 53 ∧ |x - (m : ℝ) / 2 ^ e| < 1 / 2 ^ e / 2

/-! ## Side conditions of the divisions and logarithms -/

/-- The divisions and the logarithm of `bs_price_call_t` are defined: the divisor
`K` of `F / K`, the argument `F / K` of `std::log` and the divisor `sigmaT` of
`d1` are non-zero. -/
noncomputable def bs_price_call_t_defined (S K r q sigma Tmat : ℂ) : Prop :=
  let F := S * Complex.exp ((r - q) * Tmat)
  let sigmaT := sigma * csqrt Tmat
  K ≠ 0 ∧ F / K ≠ 0 ∧ sigmaT ≠ 0

/-- The divisions and the logarithm of `bs_price_call` are defined, along the
branch it takes: nothing is required before the early return; otherwise the
argument of `std::log1p` is above `−1`, the argument of `std::log` is positive,
and the divisor `K` is non-zero (the divisor `sigmaT` is non-zero on this
branch). -/
noncomputable def bs_price_call_defined (S K r q sigma T : ℝ) : Prop :=
  let F := S * Real.exp ((r - q) * T)
  let sigmaT := sigma * √(max T 0)
  if sigmaT = 0 then True
  else
    (if K > 0 then
      (if |(F - K) / K| ≤ 1e-12 then -1 < (F - K) / K else 0 < F / K)
    else
      K ≠ 0 ∧ 0 < F / K)

/-- Algebraic facts about the library functions and the real pricer: the closed forms of the price
and of the Greeks in terms of `d1_real`, the Black–Scholes identity, the derivatives of `phi`,
and the limits of difference quotients. -/
theorem real_pricer_facts :
    (∀ (x : ℝ),
        cplx x = (x : ℂ)) ∧
    (∀ {x : ℝ},
        0 ≤ x →
        csqrt (x : ℂ) = ((√x : ℝ) : ℂ)) ∧
    (∀ (F K : ℝ),
        K ≠ 0 →
        log1p ((F - K) / K) = Real.log (F / K)) ∧
    (∀ (F K : ℝ),
        0 < K →
        ln_F_over_K F K = Real.log (F / K)) ∧
    (∀ {T : ℝ},
        0 ≤ T →
        max T 0 = T) ∧
    (∀ (sigma T : ℝ),
        sigma * √(max T 0) = 0 ↔ sigma = 0 ∨ T ≤ 0) ∧
    (∀ {sigma T : ℝ},
        0 < sigma →
        0 < T →
        0 < sigma * √T) ∧
    (∀ (c : Consts) (S K r q sigma T : ℝ),
        0 < K →
        0 < sigma →
        0 < T →
        bs_price_call c S K r q sigma T = spec_call_price c S K r q sigma T) ∧
    (∀ (c : Consts) (S K r q sigma T : ℝ),
        0 < S →
        0 < K →
        0 < T →
        bs_price_call_t c (cplx S) (cplx K) (cplx r) (cplx q) (cplx sigma) (cplx T)
        = ((spec_call_price c S K r q sigma T : ℝ) : ℂ)) ∧
    (∀ (c : Consts) (z : ℝ),
        HasDerivAt (phi c) (-z * phi c z) z) ∧
    (∀ (c : Consts) (z : ℝ),
        HasDerivAt (Phi_deriv c) (Phi_deriv c z * (-2 * z * c.INV_SQRT_2 ^ 2)) z) ∧
    (√(2 * π) = √2 * √π) ∧
    (∀ (z : ℝ),
        Phi_deriv exactConsts z = phi exactConsts z) ∧
    (∀ (z : ℝ),
        Real.exp (-0.5 * z * z - exactConsts.LOG_SQRT_2PI) = phi exactConsts z) ∧
    (∀ {M : ℝ → ℝ} {L : ℝ},
        M 0 = 0 →
        HasDerivAt M L 0 →
        Tendsto (fun h => M h / h) (𝓝[>] 0) (𝓝 L)) ∧
    (∀ {N N1 : ℝ → ℝ} {L : ℝ},
        (∀ᶠ h in 𝓝 0, HasDerivAt N (N1 h) h) →
        N 0 = 0 →
        N1 0 = 0 →
        HasDerivAt N1 L 0 →
        Tendsto (fun h => N h / (h * h)) (𝓝[>] 0) (𝓝 (L / 2))) ∧
    (∀ {f f1 : ℝ → ℝ} {a f2 : ℝ},
        (∀ᶠ x in 𝓝 a, HasDerivAt f (f1 x) x) →
        HasDerivAt f1 f2 a →
        Tendsto (fun h => (f (a + 2 * h) - 2 * f (a + h) + f a) / (h * h)) (𝓝[>] 0) (𝓝 f2)) ∧
    (∀ (sigma : ℝ) {T : ℝ},
        0 ≤ T →
        (sigma * √T) ^ 2 = sigma ^ 2 * T) ∧
    (∀ (c : Consts) (s K r q sigma T : ℝ),
        0 < s →
        0 < K →
        0 < sigma →
        0 < T →
        K * phi c (d1_real s K r q sigma T - sigma * √T)
        = s * Real.exp ((r - q) * T) * phi c (d1_real s K r q sigma T)) ∧
    (∀ (c : Consts) (s K r q sigma T : ℝ),
        0 < K →
        0 < sigma →
        0 < T →
        bs_price_call c s K r q sigma T
        = Real.exp (-r * T) * (s * Real.exp ((r - q) * T) * Phi_real c (d1_real s K r q sigma T)
        - K * Phi_real c (d1_real s K r q sigma T - sigma * √T))) ∧
    (∀ (c : Consts) (s K r q sigma T : ℝ),
        0 < K →
        0 < sigma →
        0 < T →
        analytic_delta c s K r q sigma T
        = Real.exp (-q * T) * Phi_real c (d1_real s K r q sigma T)) ∧
    (∀ (c : Consts) (s K r q sigma T : ℝ),
        0 < K →
        0 < sigma →
        0 < T →
        analytic_gamma c s K r q sigma T
        = Real.exp (-q * T)
        * Real.exp (-0.5 * d1_real s K r q sigma T * d1_real s K r q sigma T - c.LOG_SQRT_2PI)
        / (s * (sigma * √T))) ∧
    (∀ (r q T : ℝ),
        Real.exp (-r * T) * Real.exp ((r - q) * T) = Real.exp (-q * T)) ∧
    (∀ {f : ℝ → ℝ} {a f1 : ℝ},
        HasDerivAt f f1 a →
        Tendsto (fun h => (f (a + h) - f a) / h) (𝓝[>] 0) (𝓝 f1)) := by
  have cplx_eq (x : ℝ) :
      cplx x = (x : ℂ) := rfl
  have csqrt_ofReal {x : ℝ} (hx : 0 ≤ x) :
      csqrt (x : ℂ) = ((√x : ℝ) : ℂ) := by
    delta csqrt
    rw [Real.sqrt_eq_rpow, Complex.ofReal_cpow hx]
    norm_num
  have log1p_eq (F K : ℝ) (hK : K ≠ 0) :
      log1p ((F - K) / K) = Real.log (F / K) := by
    delta log1p
    congr 1
    field_simp
  have ln_F_over_K_eq (F K : ℝ) (hK : 0 < K) :
      ln_F_over_K F K = Real.log (F / K) := by
    delta ln_F_over_K
    rw [if_pos hK]
    split_ifs
    · exact log1p_eq F K hK.ne'
    · rfl
  have max_eq_of_nonneg {T : ℝ} (hT : 0 ≤ T) :
      max T 0 = T := max_eq_left hT
  -- The degenerate test of the real pricer: `σ·√(max T 0) = 0` exactly when
  -- `σ = 0` or `T ≤ 0`.
  have sigmaT_eq_zero_iff (sigma T : ℝ) :
      sigma * √(max T 0) = 0 ↔ sigma = 0 ∨ T ≤ 0 := by
    rw [mul_eq_zero, Real.sqrt_eq_zero', max_le_iff]
    simp
  have sigmaT_pos {sigma T : ℝ} (hs : 0 < sigma) (hT : 0 < T) :
      0 < sigma * √T :=
    mul_pos hs (Real.sqrt_pos.mpr hT)
  -- The real pricer on the non-degenerate branch.
  have bs_price_call_eq_spec
      (c : Consts) (S K r q sigma T : ℝ) (hK : 0 < K) (hs : 0 < sigma) (hT : 0 < T) :
      bs_price_call c S K r q sigma T = spec_call_price c S K r q sigma T := by
    have hv : sigma * √T ≠ 0 := (sigmaT_pos hs hT).ne'
    delta bs_price_call spec_call_price
    simp only [max_eq_of_nonneg hT.le, if_neg hv, ln_F_over_K_eq _ _ hK]
    ring_nf
  have Phi_t_complex_ofReal (c : Consts) (x : ℝ) :
      Phi_t_complex c (x : ℂ) = ((Phi_real c x : ℝ) : ℂ) := by
    delta Phi_t_complex
    apply Complex.ext <;> simp
  -- The templated pricer at real arguments is the closed form, as a real number.
  have bs_price_call_t_ofReal
      (c : Consts) (S K r q sigma T : ℝ) (hS : 0 < S) (hK : 0 < K) (hT : 0 < T) :
      bs_price_call_t c (cplx S) (cplx K) (cplx r) (cplx q) (cplx sigma) (cplx T)
        = ((spec_call_price c S K r q sigma T : ℝ) : ℂ) := by
    have hFK : 0 ≤ S * Real.exp ((r - q) * T) / K := by positivity
    have hlog : Complex.log ((S : ℂ) * Complex.exp (((r : ℂ) - q) * T) / K)
        = ((Real.log (S * Real.exp ((r - q) * T) / K) : ℝ) : ℂ) := by
      rw [Complex.ofReal_log hFK]
      push_cast
      rfl
    have hd1 : (Complex.log ((S : ℂ) * Complex.exp (((r : ℂ) - q) * T) / K)
        + 0.5 * (sigma : ℂ) * sigma * T) / ((sigma : ℂ) * csqrt (T : ℂ))
        = (((Real.log (S * Real.exp ((r - q) * T) / K) + 0.5 * sigma ^ 2 * T)
            / (sigma * √T) : ℝ) : ℂ) := by
      have h05 : (0.5 : ℂ) = ((0.5 : ℝ) : ℂ) := by norm_num
      rw [hlog, csqrt_ofReal hT.le, h05]
      push_cast
      ring
    delta bs_price_call_t spec_call_price
    simp only [cplx_eq]
    rw [hd1, csqrt_ofReal hT.le]
    rw [← Complex.ofReal_mul sigma, ← Complex.ofReal_sub _ (sigma * √T), Phi_t_complex_ofReal,
      Phi_t_complex_ofReal]
    push_cast
    ring
  have hasDerivAt_phi (c : Consts) (z : ℝ) :
      HasDerivAt (phi c) (-z * phi c z) z := by
    have hin : HasDerivAt (fun z : ℝ => -0.5 * z * z) (-z) z := by
      have := ((hasDerivAt_id z).const_mul (-0.5 : ℝ)).mul (hasDerivAt_id z)
      convert this using 1
      simp only [id]
      ring
    have h := (hin.exp).const_mul c.INV_SQRT_2PI
    convert h using 1
    delta phi
    ring
  have hasDerivAt_Phi_deriv (c : Consts) (z : ℝ) :
      HasDerivAt (Phi_deriv c) (Phi_deriv c z * (-2 * z * c.INV_SQRT_2 ^ 2)) z := by
    have hin : HasDerivAt (fun z : ℝ => -(z * c.INV_SQRT_2) ^ 2) (-2 * z * c.INV_SQRT_2 ^ 2) z := by
      have := ((((hasDerivAt_id z).mul_const c.INV_SQRT_2).pow 2)).neg
      convert this using 1
      simp only [id]
      ring
    have h := (hin.exp).const_mul (c.INV_SQRT_2 / √π)
    convert h using 1
    delta Phi_deriv
    ring
  have sqrt_two_pi :
      √(2 * π) = √2 * √π := Real.sqrt_mul (by norm_num) π
  -- With the exact constants, the derivative of `Phi_real` is `phi`.
  have Phi_deriv_exact (z : ℝ) :
      Phi_deriv exactConsts z = phi exactConsts z := by
    have h2pos : (0 : ℝ) < √2 := Real.sqrt_pos.mpr (by norm_num)
    have hpi : (0 : ℝ) < √π := Real.sqrt_pos.mpr Real.pi_pos
    delta Phi_deriv phi exactConsts
    simp only [sqrt_two_pi]
    have he : -(z * (1 / √2)) ^ 2 = -0.5 * z * z := by
      field_simp
      ring
    rw [he]
    field_simp
  -- With the exact constants, `exp(−½z² − LOG_SQRT_2PI)` is `phi z`.
  have exp_log_phi_exact (z : ℝ) :
      Real.exp (-0.5 * z * z - exactConsts.LOG_SQRT_2PI) = phi exactConsts z := by
    have hpos : (0 : ℝ) < √(2 * π) := Real.sqrt_pos.mpr (by positivity)
    delta phi exactConsts
    simp only []
    rw [Real.exp_sub, Real.exp_log hpos]
    field_simp
  -- Limits of difference quotients
  -- A function with value `0` and derivative `L` at `0`, divided by its
  -- argument, tends to `L` from the right.
  have tendsto_div_self_of_hasDerivAt {M : ℝ → ℝ} {L : ℝ} (hM0 : M 0 = 0) (hM : HasDerivAt M L 0) :
      Tendsto (fun h => M h / h) (𝓝[>] 0) (𝓝 L) := by
    have h1 := hasDerivAt_iff_tendsto_slope_zero.mp hM
    have h2 : Tendsto (fun t : ℝ => t⁻¹ • (M (0 + t) - M 0)) (𝓝[>] 0) (𝓝 L) :=
      h1.mono_left (nhdsWithin_mono _ (fun x hx => ne_of_gt hx))
    refine h2.congr (fun t => ?_)
    simp only [zero_add, hM0, sub_zero, smul_eq_mul]
    field_simp
  -- Quotient by `h²` of a function vanishing to first order at `0`.
  have tendsto_div_sq
      {N N1 : ℝ → ℝ} {L : ℝ} (hN : ∀ᶠ h in 𝓝 0, HasDerivAt N (N1 h) h) (hN0 : N 0 = 0) (hN10 : N1 0 = 0) (hN1 : HasDerivAt N1 L 0) :
      Tendsto (fun h => N h / (h * h)) (𝓝[>] 0) (𝓝 (L / 2)) := by
    have hsub : 𝓝[>] (0 : ℝ) ≤ 𝓝 0 := nhdsWithin_le_nhds
    have hg : ∀ᶠ h in 𝓝[>] (0 : ℝ), HasDerivAt (fun h : ℝ => h * h) (2 * h) h := by
      refine Eventually.of_forall (fun h => ?_)
      have := (hasDerivAt_id h).mul (hasDerivAt_id h)
      convert this using 1
      simp only [id]
      ring
    have hg0 : ∀ᶠ h in 𝓝[>] (0 : ℝ), 2 * h ≠ 0 := by
      filter_upwards [self_mem_nhdsWithin] with h hh
      exact mul_ne_zero two_ne_zero (ne_of_gt hh)
    have hNc : Tendsto N (𝓝[>] 0) (𝓝 0) := by
      have := (hN.self_of_nhds).continuousAt.tendsto
      rw [hN0] at this
      exact this.mono_left hsub
    have hgc : Tendsto (fun h : ℝ => h * h) (𝓝[>] 0) (𝓝 0) := by
      have : Tendsto (fun h : ℝ => h * h) (𝓝 0) (𝓝 (0 * 0)) := tendsto_id.mul tendsto_id
      rw [mul_zero] at this
      exact this.mono_left hsub
    have hdiv : Tendsto (fun h => N1 h / (2 * h)) (𝓝[>] 0) (𝓝 (L / 2)) := by
      have := (tendsto_div_self_of_hasDerivAt hN10 hN1).div_const 2
      refine this.congr (fun h => ?_)
      rw [div_div, mul_comm]
    exact HasDerivAt.lhopital_zero_nhds_right (hN.filter_mono hsub) hg hg0 hNc hgc hdiv
  -- The second forward difference quotient of a function that is
  -- differentiable near `a` with a derivative differentiable at `a`.
  have tendsto_second_forward_diff
      {f f1 : ℝ → ℝ} {a f2 : ℝ} (hf : ∀ᶠ x in 𝓝 a, HasDerivAt f (f1 x) x) (hf1 : HasDerivAt f1 f2 a) :
      Tendsto (fun h => (f (a + 2 * h) - 2 * f (a + h) + f a) / (h * h)) (𝓝[>] 0) (𝓝 f2) := by
    have hl1 : HasDerivAt (fun h : ℝ => a + h) 1 0 := by
      simpa using (hasDerivAt_id (0 : ℝ)).const_add a
    have hl2 : HasDerivAt (fun h : ℝ => a + 2 * h) 2 0 := by
      simpa using ((hasDerivAt_id (0 : ℝ)).const_mul 2).const_add a
    have ht1 : Tendsto (fun h : ℝ => a + h) (𝓝 0) (𝓝 a) := by
      simpa using hl1.continuousAt.tendsto
    have ht2 : Tendsto (fun h : ℝ => a + 2 * h) (𝓝 0) (𝓝 a) := by
      simpa using hl2.continuousAt.tendsto
    have hN : ∀ᶠ h in 𝓝 (0 : ℝ), HasDerivAt (fun h => f (a + 2 * h) - 2 * f (a + h) + f a)
        (2 * f1 (a + 2 * h) - 2 * f1 (a + h)) h := by
      filter_upwards [ht1.eventually hf, ht2.eventually hf] with h h1 h2
      have d1 : HasDerivAt (fun h : ℝ => a + h) 1 h := by
        simpa using (hasDerivAt_id h).const_add a
      have d2 : HasDerivAt (fun h : ℝ => a + 2 * h) 2 h := by
        simpa using ((hasDerivAt_id h).const_mul 2).const_add a
      have e1 := h1.comp h d1
      have e2 := h2.comp h d2
      have := ((e2.sub (e1.const_mul 2)).add_const (f a))
      convert this using 1
      ring
    have hf1a : HasDerivAt f1 f2 (a + 0) := by simpa using hf1
    have hf1b : HasDerivAt f1 f2 (a + 2 * 0) := by simpa using hf1
    have hN1 : HasDerivAt (fun h => 2 * f1 (a + 2 * h) - 2 * f1 (a + h)) (2 * f2) 0 := by
      have e1 := hf1a.comp 0 hl1
      have e2 := hf1b.comp 0 hl2
      have := (e2.const_mul 2).sub (e1.const_mul 2)
      convert this using 1
      ring
    have := tendsto_div_sq hN (by simp; ring) (by simp) hN1
    simpa using this
  -- The Black–Scholes identity `F·φ(d1) = K·φ(d2)`
  have sigmaT_sq (sigma : ℝ) {T : ℝ} (hT : 0 ≤ T) :
      (sigma * √T) ^ 2 = sigma ^ 2 * T := by
    rw [mul_pow, Real.sq_sqrt hT]
  -- For `d1 = (L + ½σ²T)/(σ√T)` and `d2 = d1 − σ√T`:
  -- `−½·d2² = −½·d1² + L`.
  have half_sq_d2 (L sigma T : ℝ) (hs : 0 < sigma) (hT : 0 < T) :
      -0.5 * ((L + 0.5 * sigma ^ 2 * T) / (sigma * √T) - sigma * √T)
        * ((L + 0.5 * sigma ^ 2 * T) / (sigma * √T) - sigma * √T)
        = -0.5 * ((L + 0.5 * sigma ^ 2 * T) / (sigma * √T))
        * ((L + 0.5 * sigma ^ 2 * T) / (sigma * √T)) + L := by
    have hv : sigma * √T ≠ 0 := (sigmaT_pos hs hT).ne'
    have hv2 := sigmaT_sq sigma hT.le
    field_simp
    ring_nf
    have h4 : (sigma * √T) ^ 4 = (sigma ^ 2 * T) ^ 2 := by rw [← hv2]; ring
    have h4' : sigma ^ 4 * √T ^ 4 = sigma ^ 4 * T ^ 2 := by
      have : sigma ^ 4 * √T ^ 4 = (sigma * √T) ^ 4 := by ring
      rw [this, h4]; ring
    have h2' : sigma ^ 2 * √T ^ 2 = sigma ^ 2 * T := by rw [← hv2]; ring
    nlinarith [h4', h2']
  have exp_d2_identity
      (s K r q sigma T : ℝ) (hS : 0 < s) (hK : 0 < K) (hs : 0 < sigma) (hT : 0 < T) :
      K * Real.exp (-0.5 * (d1_real s K r q sigma T - sigma * √T)
        * (d1_real s K r q sigma T - sigma * √T))
        = s * Real.exp ((r - q) * T)
        * Real.exp (-0.5 * d1_real s K r q sigma T * d1_real s K r q sigma T) := by
    have hFK : 0 < s * Real.exp ((r - q) * T) / K := by positivity
    delta d1_real
    rw [half_sq_d2 _ sigma T hs hT, Real.exp_add, Real.exp_log hFK]
    field_simp
    ring
  -- The registered identity for the source's `phi`, with any value of
  -- `INV_SQRT_2PI`.
  have phi_d2_identity
      (c : Consts) (s K r q sigma T : ℝ) (hS : 0 < s) (hK : 0 < K) (hs : 0 < sigma) (hT : 0 < T) :
      K * phi c (d1_real s K r q sigma T - sigma * √T)
        = s * Real.exp ((r - q) * T) * phi c (d1_real s K r q sigma T) := by
    delta phi
    have := exp_d2_identity s K r q sigma T hS hK hs hT
    linear_combination c.INV_SQRT_2PI * this
  have bs_price_call_eq_d1
      (c : Consts) (s K r q sigma T : ℝ) (hK : 0 < K) (hs : 0 < sigma) (hT : 0 < T) :
      bs_price_call c s K r q sigma T
        = Real.exp (-r * T) * (s * Real.exp ((r - q) * T) * Phi_real c (d1_real s K r q sigma T)
        - K * Phi_real c (d1_real s K r q sigma T - sigma * √T)) := by
    rw [bs_price_call_eq_spec c s K r q sigma T hK hs hT]
    rfl
  have analytic_delta_eq_d1
      (c : Consts) (s K r q sigma T : ℝ) (hK : 0 < K) (hs : 0 < sigma) (hT : 0 < T) :
      analytic_delta c s K r q sigma T
        = Real.exp (-q * T) * Phi_real c (d1_real s K r q sigma T) := by
    have hv : sigma * √T ≠ 0 := (sigmaT_pos hs hT).ne'
    delta analytic_delta d1_real
    simp only [max_eq_of_nonneg hT.le, if_neg hv, ln_F_over_K_eq _ _ hK]
    ring_nf
  have analytic_gamma_eq_d1
      (c : Consts) (s K r q sigma T : ℝ) (hK : 0 < K) (hs : 0 < sigma) (hT : 0 < T) :
      analytic_gamma c s K r q sigma T
        = Real.exp (-q * T)
        * Real.exp (-0.5 * d1_real s K r q sigma T * d1_real s K r q sigma T - c.LOG_SQRT_2PI)
        / (s * (sigma * √T)) := by
    have hv : sigma * √T ≠ 0 := (sigmaT_pos hs hT).ne'
    delta analytic_gamma d1_real
    simp only [max_eq_of_nonneg hT.le, if_neg hv, ln_F_over_K_eq _ _ hK]
    ring_nf
  have exp_discount (r q T : ℝ) :
      Real.exp (-r * T) * Real.exp ((r - q) * T) = Real.exp (-q * T) := by
    rw [← Real.exp_add]
    congr 1
    ring
  -- The forward difference quotient of a differentiable function.
  have tendsto_forward_diff {f : ℝ → ℝ} {a f1 : ℝ} (hf : HasDerivAt f f1 a) :
      Tendsto (fun h => (f (a + h) - f a) / h) (𝓝[>] 0) (𝓝 f1) := by
    have hl : HasDerivAt (fun h : ℝ => a + h) 1 0 := by
      simpa using (hasDerivAt_id (0 : ℝ)).const_add a
    have hfa : HasDerivAt f f1 (a + 0) := by simpa using hf
    have hM : HasDerivAt (fun h => f (a + h) - f a) f1 0 := by
      have := (hfa.comp 0 hl).sub_const (f a)
      convert this using 1
      ring
    exact tendsto_div_self_of_hasDerivAt (by simp) hM
  exact ⟨cplx_eq, csqrt_ofReal, log1p_eq, ln_F_over_K_eq, max_eq_of_nonneg, sigmaT_eq_zero_iff,
    sigmaT_pos, bs_price_call_eq_spec, bs_price_call_t_ofReal, hasDerivAt_phi,
    hasDerivAt_Phi_deriv, sqrt_two_pi, Phi_deriv_exact, exp_log_phi_exact,
    tendsto_div_self_of_hasDerivAt, tendsto_div_sq, tendsto_second_forward_diff, sigmaT_sq,
    phi_d2_identity, bs_price_call_eq_d1, analytic_delta_eq_d1, analytic_gamma_eq_d1,
    exp_discount, tendsto_forward_diff⟩

/-! ## Algebra of the templated pricer at a complex spot -/

/-- Algebraic facts about the templated pricer at a complex spot: its real and imaginary parts, the
line functions at the real spot, and the complex-step estimators in terms of the line functions. -/
theorem complex_spot_facts :
    (∀ (x y : ℝ),
        Complex.exp ((x : ℂ) * (y : ℂ)) = ((Real.exp (x * y) : ℝ) : ℂ)) ∧
    (∀ (S t : ℝ) (w : ℂ),
        ((S : ℂ) + (t : ℂ) * w).re = S + t * w.re) ∧
    (∀ (S t : ℝ) (w : ℂ),
        HasDerivAt (fun t : ℝ => (S : ℂ) + (t : ℂ) * w) w t) ∧
    (∀ {f : ℝ → ℂ} {f1 : ℂ} {t : ℝ},
        HasDerivAt f f1 t →
        HasDerivAt (fun t => (f t).re) f1.re t) ∧
    (∀ {f : ℝ → ℂ} {f1 : ℂ} {t : ℝ},
        HasDerivAt f f1 t →
        HasDerivAt (fun t => (f t).im) f1.im t) ∧
    (∀ {f g : ℝ → ℝ} {f1 t : ℝ},
        HasDerivAt f f1 t →
        DifferentiableAt ℝ g t →
        f t = 0 →
        HasDerivAt (fun s => f s * g s) (f1 * g t) t) ∧
    (∀ (S : ℝ) (w : ℂ),
        0 < S →
        ∀ᶠ t in 𝓝 (0 : ℝ), 0 < S + t * w.re) ∧
    (∀ (S K r q sigma T : ℝ) (w : ℂ),
        0 < S →
        0 < K →
        0 ≤ T →
        line_a S K r q sigma T w 0 = d1_real S K r q sigma T) ∧
    (∀ (S K r q sigma T : ℝ) (w : ℂ),
        0 < S →
        0 < K →
        0 ≤ T →
        line_b S K r q sigma T w 0 = 0) ∧
    (∀ (S sigma T : ℝ) (w : ℂ),
        0 ≤ T →
        line_a1 S sigma T w 0 = w.re / (S * (sigma * √T))) ∧
    (∀ (S sigma T : ℝ) (w : ℂ),
        0 ≤ T →
        line_b1 S sigma T w 0 = w.im / (S * (sigma * √T))) ∧
    (∀ (S sigma T : ℝ) (w : ℂ),
        0 < S →
        0 < sigma →
        0 < T →
        HasDerivAt (line_a1 S sigma T w)
        (-(w.re * w.re - w.im * w.im) / (S ^ 2 * (sigma * √T))) 0) ∧
    (∀ (S sigma T : ℝ) (w : ℂ),
        0 < S →
        0 < sigma →
        0 < T →
        HasDerivAt (line_b1 S sigma T w)
        (-(w.re * w.im + w.im * w.re) / (S ^ 2 * (sigma * √T))) 0) ∧
    (∀ (S t : ℝ) (w : ℂ),
        HasDerivAt (fun t : ℝ => S + t * w.re) w.re t) ∧
    (∀ (t : ℝ) (w : ℂ),
        HasDerivAt (fun t : ℝ => t * w.im) w.im t) ∧
    (∀ (S sigma T : ℝ) (w : ℂ),
        0 < S →
        0 < sigma →
        0 < T →
        DifferentiableAt ℝ (line_a1 S sigma T w) 0) ∧
    (∀ (c : Consts) (S K r q sigma T : ℝ) (w : ℂ),
        0 < S →
        0 < K →
        0 < sigma →
        0 < T →
        line_U c S K r q sigma T w 0 = 0) ∧
    (∀ (c : Consts) (S K r q sigma T : ℝ) (w : ℂ),
        0 < S →
        0 < K →
        0 < sigma →
        0 < T →
        line_U1 c S K r q sigma T w 0 = 0) ∧
    (∀ (c : Consts) (S K r q sigma T : ℝ) (w : ℂ),
        0 < S →
        0 < K →
        0 ≤ T →
        line_im c S K r q sigma T w 0 = 0) ∧
    (∀ (c : Consts) (S K r q sigma T h : ℝ),
        0 ≤ T →
        csd_delta c S K r q sigma T h = line_im c S K r q sigma T Complex.I h / h) ∧
    (∀ (c : Consts) (S K r q sigma T h : ℝ),
        0 ≤ T →
        csd_gamma_45 c S K r q sigma T h
        = (line_im c S K r q sigma T ⟨c.INV_SQRT_2, c.INV_SQRT_2⟩ h
        + line_im c S K r q sigma T ⟨c.INV_SQRT_2, c.INV_SQRT_2⟩ (-h)) / (h * h)) ∧
    (∀ (S K r q sigma T h : ℝ),
        0 < S →
        0 < K →
        0 ≤ T →
        line_a S K r q sigma T Complex.I h
        = d1_real S K r q sigma T + Real.log (1 + (h / S) ^ 2) / 2 / (sigma * √T)) ∧
    (∀ (S K r q sigma T h : ℝ),
        0 < K →
        0 ≤ T →
        line_b S K r q sigma T Complex.I h
        = Complex.arg ((S : ℂ) + (h : ℂ) * Complex.I) / (sigma * √T)) ∧
    (∀ (c : Consts) (x y : ℝ),
        |phi c y - phi c x| ≤ |c.INV_SQRT_2PI| * |y - x|) ∧
    (|exactConsts.INV_SQRT_2PI| ≤ 1 ∧ |exactConsts.INV_SQRT_2| / √π ≤ 1) ∧
    ((⟨exactConsts.INV_SQRT_2, exactConsts.INV_SQRT_2⟩ : ℂ) = (1 + Complex.I) / ((√2 : ℝ) : ℂ)) ∧
    (∀ (c : Consts) (S K r q sigma T h : ℝ),
        0 < S →
        0 < K →
        0 < sigma →
        0 < T →
        csd_gamma_real c S K r q sigma T h
        = -2 * ((line_re c S K r q sigma T Complex.I h - line_re c S K r q sigma T Complex.I 0)
        / (h * h))) ∧
    (∀ (c : Consts) (S K r q sigma T : ℝ),
        0 < S →
        0 < K →
        0 < sigma →
        0 < T →
        0 < analytic_gamma c S K r q sigma T) := by
  obtain ⟨cplx_eq, csqrt_ofReal, -, -, -, -, sigmaT_pos, -, -, hasDerivAt_phi, -, sqrt_two_pi, -,
      -, -, -, -, -, phi_d2_identity, bs_price_call_eq_d1, -, analytic_gamma_eq_d1, -, -
      ⟩ := real_pricer_facts
  have bs_price_call_t_eq_d1 (c : Consts) (s : ℂ) (K r q sigma T : ℝ) :
      bs_price_call_t c s (cplx K) (cplx r) (cplx q) (cplx sigma) (cplx T)
        = Complex.exp (-(r : ℂ) * (T : ℂ)) * (s * Complex.exp (((r : ℂ) - (q : ℂ)) * (T : ℂ))
        * Phi_t_complex c (d1_cplx s K r q sigma T)
        - (K : ℂ) * Phi_t_complex c (d1_cplx s K r q sigma T - (sigma : ℂ) * csqrt (T : ℂ))) :=
    rfl
  have exp_ofReal_mul (x y : ℝ) :
      Complex.exp ((x : ℂ) * (y : ℂ)) = ((Real.exp (x * y) : ℝ) : ℂ) := by
    push_cast
    rfl
  -- Imaginary part of the templated pricer at a complex spot.
  have bs_price_call_t_im (c : Consts) (s : ℂ) (K r q sigma T : ℝ) (hT : 0 ≤ T) :
      (bs_price_call_t c s (cplx K) (cplx r) (cplx q) (cplx sigma) (cplx T)).im
        = (d1_cplx s K r q sigma T).im
        * (Real.exp (-r * T) * (Real.exp ((r - q) * T) * s.re
        * phi c (d1_cplx s K r q sigma T).re
        - K * phi c ((d1_cplx s K r q sigma T).re - sigma * √T)))
        + s.im * (Real.exp (-r * T) * Real.exp ((r - q) * T)
        * Phi_real c (d1_cplx s K r q sigma T).re) := by
    rw [bs_price_call_t_eq_d1, csqrt_ofReal hT, ← Complex.ofReal_sub r q, ← Complex.ofReal_neg r,
      exp_ofReal_mul, exp_ofReal_mul, ← Complex.ofReal_mul sigma]
    delta Phi_t_complex
    simp only [Complex.mul_re, Complex.mul_im, Complex.sub_re, Complex.sub_im, Complex.ofReal_re, Complex.ofReal_im]
    ring
  -- Real part of the templated pricer at a complex spot.
  have bs_price_call_t_re (c : Consts) (s : ℂ) (K r q sigma T : ℝ) (hT : 0 ≤ T) :
      (bs_price_call_t c s (cplx K) (cplx r) (cplx q) (cplx sigma) (cplx T)).re
        = Real.exp (-r * T) * (Real.exp ((r - q) * T) * s.re
        * Phi_real c (d1_cplx s K r q sigma T).re
        - K * Phi_real c ((d1_cplx s K r q sigma T).re - sigma * √T))
        - s.im * ((d1_cplx s K r q sigma T).im
        * (Real.exp (-r * T) * Real.exp ((r - q) * T)
        * phi c (d1_cplx s K r q sigma T).re)) := by
    rw [bs_price_call_t_eq_d1, csqrt_ofReal hT, ← Complex.ofReal_sub r q, ← Complex.ofReal_neg r,
      exp_ofReal_mul, exp_ofReal_mul, ← Complex.ofReal_mul sigma]
    delta Phi_t_complex
    simp only [Complex.mul_re, Complex.mul_im, Complex.sub_re, Complex.sub_im, Complex.ofReal_re, Complex.ofReal_im]
    ring
  -- At a real spot the complex `d1` is the real `d1`.
  have d1_cplx_ofReal (S K r q sigma T : ℝ) (hS : 0 < S) (hK : 0 < K) (hT : 0 ≤ T) :
      d1_cplx (S : ℂ) K r q sigma T = ((d1_real S K r q sigma T : ℝ) : ℂ) := by
    have hFK : 0 ≤ S * Real.exp ((r - q) * T) / K := by positivity
    have h05 : (0.5 : ℂ) = ((0.5 : ℝ) : ℂ) := by norm_num
    delta d1_cplx d1_real
    rw [csqrt_ofReal hT, ← Complex.ofReal_sub r q, exp_ofReal_mul, h05]
    rw [Complex.ofReal_div, Complex.ofReal_add, Complex.ofReal_log hFK]
    push_cast
    ring
  -- The complex `d1` along a line `t ↦ S + t·w` through a real spot
  have spot_line_re (S t : ℝ) (w : ℂ) :
      ((S : ℂ) + (t : ℂ) * w).re = S + t * w.re := by
    simp
  have spot_line_im (S t : ℝ) (w : ℂ) :
      ((S : ℂ) + (t : ℂ) * w).im = t * w.im := by
    simp
  have hasDerivAt_spot_line (S t : ℝ) (w : ℂ) :
      HasDerivAt (fun t : ℝ => (S : ℂ) + (t : ℂ) * w) w t := by
    simpa using (((hasDerivAt_id t).ofReal_comp).mul_const w).const_add (S : ℂ)
  have hasDerivAt_re_comp {f : ℝ → ℂ} {f1 : ℂ} {t : ℝ} (h : HasDerivAt f f1 t) :
      HasDerivAt (fun t => (f t).re) f1.re t := by
    have := (Complex.reCLM.hasFDerivAt (x := f t)).comp_hasDerivAt t h
    simpa using this
  have hasDerivAt_im_comp {f : ℝ → ℂ} {f1 : ℂ} {t : ℝ} (h : HasDerivAt f f1 t) :
      HasDerivAt (fun t => (f t).im) f1.im t := by
    have := (Complex.imCLM.hasFDerivAt (x := f t)).comp_hasDerivAt t h
    simpa using this
  have hasDerivAt_mul_of_eq_zero
      {f g : ℝ → ℝ} {f1 t : ℝ} (hf : HasDerivAt f f1 t) (hg : DifferentiableAt ℝ g t) (h0 : f t = 0) :
      HasDerivAt (fun s => f s * g s) (f1 * g t) t := by
    have := hf.mul hg.hasDerivAt
    simpa [h0] using this
  have eventually_spot_re_pos (S : ℝ) (w : ℂ) (hS : 0 < S) :
      ∀ᶠ t in 𝓝 (0 : ℝ), 0 < S + t * w.re := by
    have hc : ContinuousAt (fun t : ℝ => S + t * w.re) 0 := by fun_prop
    have h0 : (0 : ℝ) < S + 0 * w.re := by simpa using hS
    exact hc.eventually (lt_mem_nhds h0)
  have spot_line_ne_zero {S t : ℝ} {w : ℂ} (hre : 0 < S + t * w.re) :
      (S : ℂ) + (t : ℂ) * w ≠ 0 := by
    intro h0
    have := congrArg Complex.re h0
    rw [spot_line_re] at this
    simp only [Complex.zero_re] at this
    linarith
  -- Second derivative of the complex `d1` along the line.
  have hasDerivAt_line_d1_deriv
      (S sigma T t : ℝ) (w : ℂ) (hs : 0 < sigma) (hT : 0 < T) (hre : 0 < S + t * w.re) :
      HasDerivAt (line_d1_deriv S sigma T w)
        (-(w * w) / (((S : ℂ) + (t : ℂ) * w) ^ 2 * ((sigma * √T : ℝ) : ℂ))) t := by
    have hne := spot_line_ne_zero (w := w) hre
    have hv : ((sigma * √T : ℝ) : ℂ) ≠ 0 := Complex.ofReal_ne_zero.mpr (sigmaT_pos hs hT).ne'
    have hden := (hasDerivAt_spot_line S t w).mul_const ((sigma * √T : ℝ) : ℂ)
    have h := (hasDerivAt_const t w).div hden (mul_ne_zero hne hv)
    have hfun : line_d1_deriv S sigma T w
        = fun t : ℝ => w / (((S : ℂ) + (t : ℂ) * w) * ((sigma * √T : ℝ) : ℂ)) := by
      funext u
      delta line_d1_deriv
      simp only [csqrt_ofReal hT.le, Complex.ofReal_mul]
    have hcs : (sigma : ℂ) ≠ 0 := Complex.ofReal_ne_zero.mpr hs.ne'
    have hcT : ((√T : ℝ) : ℂ) ≠ 0 := Complex.ofReal_ne_zero.mpr (Real.sqrt_pos.mpr hT).ne'
    rw [hfun]
    convert h using 1
    push_cast
    field_simp
    ring
  -- Values at the real spot (`t = 0`)
  have line_a_zero (S K r q sigma T : ℝ) (w : ℂ) (hS : 0 < S) (hK : 0 < K) (hT : 0 ≤ T) :
      line_a S K r q sigma T w 0 = d1_real S K r q sigma T := by
    delta line_a
    simp only [Complex.ofReal_zero, zero_mul, add_zero, d1_cplx_ofReal S K r q sigma T hS hK hT, Complex.ofReal_re]
  have line_b_zero (S K r q sigma T : ℝ) (w : ℂ) (hS : 0 < S) (hK : 0 < K) (hT : 0 ≤ T) :
      line_b S K r q sigma T w 0 = 0 := by
    delta line_b
    simp only [Complex.ofReal_zero, zero_mul, add_zero, d1_cplx_ofReal S K r q sigma T hS hK hT, Complex.ofReal_im]
  have line_d1_deriv_zero (S sigma T : ℝ) (w : ℂ) (hT : 0 ≤ T) :
      line_d1_deriv S sigma T w 0 = w / ((S * (sigma * √T) : ℝ) : ℂ) := by
    delta line_d1_deriv
    simp only [Complex.ofReal_zero, zero_mul, add_zero, csqrt_ofReal hT]
    push_cast
    rfl
  have line_a1_zero (S sigma T : ℝ) (w : ℂ) (hT : 0 ≤ T) :
      line_a1 S sigma T w 0 = w.re / (S * (sigma * √T)) := by
    delta line_a1
    rw [line_d1_deriv_zero S sigma T w hT, Complex.div_ofReal_re]
  have line_b1_zero (S sigma T : ℝ) (w : ℂ) (hT : 0 ≤ T) :
      line_b1 S sigma T w 0 = w.im / (S * (sigma * √T)) := by
    delta line_b1
    rw [line_d1_deriv_zero S sigma T w hT, Complex.div_ofReal_im]
  have hasDerivAt_line_a1_zero (S sigma T : ℝ) (w : ℂ) (hS : 0 < S) (hs : 0 < sigma) (hT : 0 < T) :
      HasDerivAt (line_a1 S sigma T w)
        (-(w.re * w.re - w.im * w.im) / (S ^ 2 * (sigma * √T))) 0 := by
    have hre : 0 < S + 0 * w.re := by simpa using hS
    have h := hasDerivAt_re_comp (hasDerivAt_line_d1_deriv S sigma T 0 w hs hT hre)
    convert h using 1
    rw [show (-(w * w) / (((S : ℂ) + ((0 : ℝ) : ℂ) * w) ^ 2 * ((sigma * √T : ℝ) : ℂ)))
        = -(w * w) / ((S ^ 2 * (sigma * √T) : ℝ) : ℂ) by push_cast; simp]
    rw [Complex.div_ofReal_re, Complex.neg_re, Complex.mul_re]
  have hasDerivAt_line_b1_zero (S sigma T : ℝ) (w : ℂ) (hS : 0 < S) (hs : 0 < sigma) (hT : 0 < T) :
      HasDerivAt (line_b1 S sigma T w)
        (-(w.re * w.im + w.im * w.re) / (S ^ 2 * (sigma * √T))) 0 := by
    have hre : 0 < S + 0 * w.re := by simpa using hS
    have h := hasDerivAt_im_comp (hasDerivAt_line_d1_deriv S sigma T 0 w hs hT hre)
    convert h using 1
    rw [show (-(w * w) / (((S : ℂ) + ((0 : ℝ) : ℂ) * w) ^ 2 * ((sigma * √T : ℝ) : ℂ)))
        = -(w * w) / ((S ^ 2 * (sigma * √T) : ℝ) : ℂ) by push_cast; simp]
    rw [Complex.div_ofReal_im, Complex.neg_im, Complex.mul_im]
  -- Derivatives of the cofactors
  have hasDerivAt_line_x (S t : ℝ) (w : ℂ) :
      HasDerivAt (fun t : ℝ => S + t * w.re) w.re t := by
    simpa using ((hasDerivAt_id t).mul_const w.re).const_add S
  have hasDerivAt_line_y (t : ℝ) (w : ℂ) :
      HasDerivAt (fun t : ℝ => t * w.im) w.im t := by
    simpa using (hasDerivAt_id t).mul_const w.im
  have differentiableAt_line_a1 (S sigma T : ℝ) (w : ℂ) (hS : 0 < S) (hs : 0 < sigma) (hT : 0 < T) :
      DifferentiableAt ℝ (line_a1 S sigma T w) 0 :=
    (hasDerivAt_line_a1_zero S sigma T w hS hs hT).differentiableAt
  -- The imaginary part of the pricer along the line
  have bs_price_call_t_im_line (c : Consts) (S K r q sigma T t : ℝ) (w : ℂ) (hT : 0 ≤ T) :
      (bs_price_call_t c ((S : ℂ) + (t : ℂ) * w) (cplx K) (cplx r) (cplx q) (cplx sigma)
        (cplx T)).im = line_im c S K r q sigma T w t := by
    rw [bs_price_call_t_im c _ K r q sigma T hT, spot_line_re, spot_line_im]
    delta line_im line_U line_V line_a line_b
    simp only []
  have line_U_zero
      (c : Consts) (S K r q sigma T : ℝ) (w : ℂ) (hS : 0 < S) (hK : 0 < K) (hs : 0 < sigma) (hT : 0 < T) :
      line_U c S K r q sigma T w 0 = 0 := by
    have hid := phi_d2_identity c S K r q sigma T hS hK hs hT
    delta line_U
    simp only [line_a_zero S K r q sigma T w hS hK hT.le, zero_mul, add_zero]
    linear_combination (-Real.exp (-r * T)) * hid
  have line_U1_zero
      (c : Consts) (S K r q sigma T : ℝ) (w : ℂ) (hS : 0 < S) (hK : 0 < K) (hs : 0 < sigma) (hT : 0 < T) :
      line_U1 c S K r q sigma T w 0 = 0 := by
    have hid := phi_d2_identity c S K r q sigma T hS hK hs hT
    have hv : sigma * √T ≠ 0 := (sigmaT_pos hs hT).ne'
    delta line_U1
    simp only [line_a_zero S K r q sigma T w hS hK hT.le, line_a1_zero S sigma T w hT.le, zero_mul, add_zero]
    generalize Real.exp (-r * T) = DF
    field_simp
    linear_combination (DF * w.re * (d1_real S K r q sigma T - sigma * √T)) * hid
  -- The CSD estimators in terms of the line functions
  have line_im_zero
      (c : Consts) (S K r q sigma T : ℝ) (w : ℂ) (hS : 0 < S) (hK : 0 < K) (hT : 0 ≤ T) :
      line_im c S K r q sigma T w 0 = 0 := by
    delta line_im
    simp only [line_b_zero S K r q sigma T w hS hK hT, zero_mul, add_zero]
  have csd_delta_eq_line (c : Consts) (S K r q sigma T h : ℝ) (hT : 0 ≤ T) :
      csd_delta c S K r q sigma T h = line_im c S K r q sigma T Complex.I h / h := by
    delta csd_delta
    simp only []
    rw [Complex.mk_eq_add_mul_I, bs_price_call_t_im_line c S K r q sigma T h Complex.I hT]
  have csd_gamma_45_eq_line (c : Consts) (S K r q sigma T h : ℝ) (hT : 0 ≤ T) :
      csd_gamma_45 c S K r q sigma T h
        = (line_im c S K r q sigma T ⟨c.INV_SQRT_2, c.INV_SQRT_2⟩ h
        + line_im c S K r q sigma T ⟨c.INV_SQRT_2, c.INV_SQRT_2⟩ (-h)) / (h * h) := by
    have hminus : cplx S - (h : ℂ) * (⟨c.INV_SQRT_2, c.INV_SQRT_2⟩ : ℂ)
        = (S : ℂ) + ((-h : ℝ) : ℂ) * (⟨c.INV_SQRT_2, c.INV_SQRT_2⟩ : ℂ) := by
      rw [cplx_eq]
      push_cast
      ring
    delta csd_gamma_45
    simp only [Complex.add_im]
    rw [hminus, cplx_eq S, bs_price_call_t_im_line c S K r q sigma T h _ hT,
      bs_price_call_t_im_line c S K r q sigma T (-h) _ hT]
  -- Closed forms and bounds along the imaginary direction
  have d1_cplx_eq_div (s : ℂ) (K r q sigma T : ℝ) (hT : 0 ≤ T) :
      d1_cplx s K r q sigma T
        = (Complex.log (s * ((Real.exp ((r - q) * T) / K : ℝ) : ℂ))
        + ((0.5 * sigma ^ 2 * T : ℝ) : ℂ)) / ((sigma * √T : ℝ) : ℂ) := by
    have h05 : (0.5 : ℂ) = ((0.5 : ℝ) : ℂ) := by norm_num
    delta d1_cplx
    rw [csqrt_ofReal hT, ← Complex.ofReal_sub r q, exp_ofReal_mul, h05]
    push_cast
    ring_nf
  have d1_cplx_re (s : ℂ) (K r q sigma T : ℝ) (hK : 0 < K) (hT : 0 ≤ T) :
      (d1_cplx s K r q sigma T).re
        = (Real.log (Complex.abs s * (Real.exp ((r - q) * T) / K)) + 0.5 * sigma ^ 2 * T)
        / (sigma * √T) := by
    have hEK : 0 < Real.exp ((r - q) * T) / K := by positivity
    rw [d1_cplx_eq_div s K r q sigma T hT, Complex.div_ofReal_re, Complex.add_re,
      Complex.ofReal_re, Complex.log_re, map_mul, Complex.abs_of_nonneg hEK.le]
  have d1_cplx_im (s : ℂ) (K r q sigma T : ℝ) (hK : 0 < K) (hT : 0 ≤ T) :
      (d1_cplx s K r q sigma T).im = Complex.arg s / (sigma * √T) := by
    have hEK : 0 < Real.exp ((r - q) * T) / K := by positivity
    rw [d1_cplx_eq_div s K r q sigma T hT, Complex.div_ofReal_im, Complex.add_im,
      Complex.ofReal_im, Complex.log_im, Complex.arg_mul_real hEK, add_zero]
  -- Along `S + i·h` the real part of `d1` exceeds the real `d1` by
  -- `ln(1 + (h/S)²)/(2σ√T)`.
  have line_a_I (S K r q sigma T h : ℝ) (hS : 0 < S) (hK : 0 < K) (hT : 0 ≤ T) :
      line_a S K r q sigma T Complex.I h
        = d1_real S K r q sigma T + Real.log (1 + (h / S) ^ 2) / 2 / (sigma * √T) := by
    have hEK : 0 < Real.exp ((r - q) * T) / K := by positivity
    have h1 : 0 < 1 + (h / S) ^ 2 := by positivity
    have habs : Complex.abs ((S : ℂ) + (h : ℂ) * Complex.I) = S * √(1 + (h / S) ^ 2) := by
      rw [Complex.abs_add_mul_I]
      have : S ^ 2 + h ^ 2 = S ^ 2 * (1 + (h / S) ^ 2) := by
        field_simp
      rw [this, Real.sqrt_mul (sq_nonneg S), Real.sqrt_sq hS.le]
    have hsq : 0 < √(1 + (h / S) ^ 2) := Real.sqrt_pos.mpr h1
    delta line_a
    rw [d1_cplx_re _ K r q sigma T hK hT, habs]
    delta d1_real
    have hlog : Real.log (S * √(1 + (h / S) ^ 2) * (Real.exp ((r - q) * T) / K))
        = Real.log (S * Real.exp ((r - q) * T) / K) + Real.log (1 + (h / S) ^ 2) / 2 := by
      rw [show S * √(1 + (h / S) ^ 2) * (Real.exp ((r - q) * T) / K)
          = S * Real.exp ((r - q) * T) / K * √(1 + (h / S) ^ 2) by ring,
        Real.log_mul (by positivity) hsq.ne', Real.log_sqrt h1.le]
    rw [hlog]
    ring
  have line_b_I (S K r q sigma T h : ℝ) (hK : 0 < K) (hT : 0 ≤ T) :
      line_b S K r q sigma T Complex.I h
        = Complex.arg ((S : ℂ) + (h : ℂ) * Complex.I) / (sigma * √T) := by
    delta line_b
    rw [d1_cplx_im _ K r q sigma T hK hT]
  -- `|z|·exp(−½z²) ≤ 1`.
  have abs_mul_exp_le_one (z : ℝ) :
      |z| * Real.exp (-0.5 * z * z) ≤ 1 := by
    have h1 : 0.5 * z * z + 1 ≤ Real.exp (0.5 * z * z) := Real.add_one_le_exp _
    have h2 : |z| ≤ 0.5 * z * z + 1 := by
      have : 0.5 * z * z = 0.5 * |z| * |z| := by rw [mul_assoc, mul_assoc, abs_mul_abs_self]
      rw [this]
      nlinarith [sq_nonneg (|z| - 1)]
    have h3 : Real.exp (-0.5 * z * z) = (Real.exp (0.5 * z * z))⁻¹ := by
      rw [← Real.exp_neg]
      congr 1
      ring
    have hpos := Real.exp_pos (0.5 * z * z)
    rw [h3, ← div_eq_mul_inv, div_le_one hpos]
    linarith
  -- The source's `phi` is Lipschitz with constant `|INV_SQRT_2PI|`.
  have phi_lipschitz (c : Consts) (x y : ℝ) :
      |phi c y - phi c x| ≤ |c.INV_SQRT_2PI| * |y - x| := by
    have hd : ∀ z ∈ (Set.univ : Set ℝ), DifferentiableAt ℝ (phi c) z :=
      fun z _ => (hasDerivAt_phi c z).differentiableAt
    have hb : ∀ z ∈ (Set.univ : Set ℝ), ‖deriv (phi c) z‖ ≤ |c.INV_SQRT_2PI| := by
      intro z _
      rw [(hasDerivAt_phi c z).deriv, Real.norm_eq_abs]
      delta phi
      rw [abs_mul, abs_neg, abs_mul, abs_of_pos (Real.exp_pos _)]
      calc |z| * (|c.INV_SQRT_2PI| * Real.exp (-0.5 * z * z))
          = |c.INV_SQRT_2PI| * (|z| * Real.exp (-0.5 * z * z)) := by ring
        _ ≤ |c.INV_SQRT_2PI| * 1 :=
            mul_le_mul_of_nonneg_left (abs_mul_exp_le_one z) (abs_nonneg _)
        _ = |c.INV_SQRT_2PI| := mul_one _
    have := Convex.norm_image_sub_le_of_norm_deriv_le hd hb convex_univ (Set.mem_univ x)
      (Set.mem_univ y)
    simpa [Real.norm_eq_abs] using this
  have exactConsts_abs_le_one :
      |exactConsts.INV_SQRT_2PI| ≤ 1 ∧ |exactConsts.INV_SQRT_2| / √π ≤ 1 := by
    have h2 : (1 : ℝ) ≤ √2 := by
      rw [show (1 : ℝ) = √1 by simp]
      exact Real.sqrt_le_sqrt (by norm_num)
    have hpi : (1 : ℝ) ≤ √π := by
      rw [show (1 : ℝ) = √1 by simp]
      exact Real.sqrt_le_sqrt (by linarith [Real.pi_gt_three])
    have h2pi : (1 : ℝ) ≤ √(2 * π) := by
      rw [sqrt_two_pi]
      nlinarith
    delta exactConsts
    simp only []
    constructor
    · rw [abs_of_pos (by positivity), div_le_one (by positivity)]
      exact h2pi
    · rw [abs_of_pos (by positivity), div_div, div_le_one (by positivity)]
      nlinarith
  have exact_omega :
      (⟨exactConsts.INV_SQRT_2, exactConsts.INV_SQRT_2⟩ : ℂ) = (1 + Complex.I) / ((√2 : ℝ) : ℂ) := by
    have h2 : (√2 : ℝ) ≠ 0 := (Real.sqrt_pos.mpr (by norm_num)).ne'
    apply Complex.ext
    · delta exactConsts
      simp [Complex.div_ofReal_re]
    · delta exactConsts
      simp [Complex.div_ofReal_im]
  -- The real part of the pricer along the line
  have bs_price_call_t_re_line (c : Consts) (S K r q sigma T t : ℝ) (w : ℂ) (hT : 0 ≤ T) :
      (bs_price_call_t c ((S : ℂ) + (t : ℂ) * w) (cplx K) (cplx r) (cplx q) (cplx sigma)
        (cplx T)).re = line_re c S K r q sigma T w t := by
    rw [bs_price_call_t_re c _ K r q sigma T hT, spot_line_re, spot_line_im]
    delta line_re line_W line_Z line_a line_b
    simp only []
  have line_re_zero
      (c : Consts) (S K r q sigma T : ℝ) (hS : 0 < S) (hK : 0 < K) (hs : 0 < sigma) (hT : 0 < T) :
      line_re c S K r q sigma T Complex.I 0 = bs_price_call c S K r q sigma T := by
    rw [bs_price_call_eq_d1 c S K r q sigma T hK hs hT]
    delta line_re line_W
    simp only [line_a_zero S K r q sigma T _ hS hK hT.le, zero_mul, add_zero, sub_zero]
    ring
  have csd_gamma_real_eq_line
      (c : Consts) (S K r q sigma T h : ℝ) (hS : 0 < S) (hK : 0 < K) (hs : 0 < sigma) (hT : 0 < T) :
      csd_gamma_real c S K r q sigma T h
        = -2 * ((line_re c S K r q sigma T Complex.I h - line_re c S K r q sigma T Complex.I 0)
        / (h * h)) := by
    delta csd_gamma_real
    simp only []
    rw [Complex.mk_eq_add_mul_I, bs_price_call_t_re_line c S K r q sigma T h Complex.I hT.le,
      line_re_zero c S K r q sigma T hS hK hs hT]
    norm_num
    ring
  have analytic_gamma_pos
      (c : Consts) (S K r q sigma T : ℝ) (hS : 0 < S) (hK : 0 < K) (hs : 0 < sigma) (hT : 0 < T) :
      0 < analytic_gamma c S K r q sigma T := by
    have hv := sigmaT_pos hs hT
    rw [analytic_gamma_eq_d1 c S K r q sigma T hK hs hT]
    positivity
  exact ⟨exp_ofReal_mul, spot_line_re, hasDerivAt_spot_line, hasDerivAt_re_comp,
    hasDerivAt_im_comp, hasDerivAt_mul_of_eq_zero, eventually_spot_re_pos, line_a_zero,
    line_b_zero, line_a1_zero, line_b1_zero, hasDerivAt_line_a1_zero, hasDerivAt_line_b1_zero,
    hasDerivAt_line_x, hasDerivAt_line_y, differentiableAt_line_a1, line_U_zero, line_U1_zero,
    line_im_zero, csd_delta_eq_line, csd_gamma_45_eq_line, line_a_I, line_b_I, phi_lipschitz,
    exactConsts_abs_le_one, exact_omega, csd_gamma_real_eq_line, analytic_gamma_pos⟩

/-! ## Scenarios, driver grid, decimal literals and side conditions -/

/-- Facts used for the scenarios and the driver: the guard of `analytic_gamma`, the step-size grid,
the symmetry of `erfc`, put–call symmetry, the distance of the decimal literals from the exact
constants, the side conditions of the divisions and logarithms, and second-order bounds on a
forward difference quotient. -/
theorem scenario_facts :
    (∀ {sigma T : ℝ},
        0 ≤ sigma →
        (0 ≤ T →
        (sigma * √T ≠ 0 ↔ 0 < sigma ∧ 0 < T))) ∧
    (∀ (z : ℝ),
        phi exactConsts z = 1 / √(2 * π) * Real.exp (-z ^ 2 / 2)) ∧
    (∀ (S K r q sigma T : ℝ),
        0 < K →
        0 < sigma →
        0 < T →
        S * Real.exp ((r - q) * T) = K →
        d1_real S K r q sigma T = 0.5 * (sigma * √T)) ∧
    (∀ (c : Consts) (S K r q sigma T : ℝ) (steps i : ℕ),
        (run_validation_row c S K r q sigma T steps i).take 2
        = [(10 : ℝ) ^ ((-16 : ℝ) + 12 * (i : ℝ) / (steps : ℝ)),
        (10 : ℝ) ^ ((-16 : ℝ) + 12 * (i : ℝ) / (steps : ℝ)) * S]) ∧
    (∀ (i j : ℕ),
        i < j →
        (10 : ℝ) ^ ((-16 : ℝ) + 12 * (i : ℝ) / ((24 : ℕ) : ℝ))
        < (10 : ℝ) ^ ((-16 : ℝ) + 12 * (j : ℝ) / ((24 : ℕ) : ℝ))) ∧
    (∀ (x : ℝ),
        erfc (-x) = 2 - erfc x) ∧
    (0 < exactConsts.INV_SQRT_2) ∧
    (∀ (K r q sigma T : ℝ),
        0 < K →
        0 < sigma →
        0 < T →
        Tendsto (fun s => d1_real s K r q sigma T) (𝓝[>] 0) atBot) ∧
    (∀ (c : Consts) (S K r q sigma T : ℝ),
        0 < S →
        0 < K →
        0 < sigma →
        0 < T →
        bs_price_call c S K r q sigma T
        - (S * Real.exp (-q * T) - K * Real.exp (-r * T))
        = Real.exp (-r * T)
        * bs_price_call c K (S * Real.exp ((r - q) * T)) 0 0 sigma T) ∧
    (∀ (c : Consts) (S K r q sigma T : ℝ),
        0 ≤ T →
        sigma * √T = 0 →
        bs_price_call c S K r q sigma T
        = max (S * Real.exp (-q * T) - K * Real.exp (-r * T)) 0) ∧
    (|literalConsts.INV_SQRT_2 - 1 / √2| < 1e-19) ∧
    (|literalConsts.INV_SQRT_2PI - 1 / √(2 * π)| < 1e-19) ∧
    (|literalConsts.LOG_SQRT_2PI - Real.log (√(2 * π))| < 1e-19) ∧
    (∀ (s : ℂ) (K r q sigma T : ℝ),
        s ≠ 0 →
        0 < K →
        0 < sigma →
        0 < T →
        bs_price_call_t_defined s (cplx K) (cplx r) (cplx q) (cplx sigma) (cplx T)) ∧
    (∀ (S K r q sigma T : ℝ),
        0 < S →
        0 < K →
        bs_price_call_defined S K r q sigma T) ∧
    (∀ (S h a : ℝ),
        0 < S →
        cplx S + (h : ℂ) * (⟨a, a⟩ : ℂ) ≠ 0) ∧
    (∀ (S h a : ℝ),
        0 < S →
        cplx S - (h : ℂ) * (⟨a, a⟩ : ℂ) ≠ 0) ∧
    (∀ {m e : ℕ} {x y d : ℝ},
        2 ^ 52 < m →
        m < 2 ^ 53 →
        |x - y| < d →
        |x - (m : ℝ) / 2 ^ e| < 1 / 2 ^ e / 2 - d →
        nearest_binary64 m e x ∧ nearest_binary64 m e y) ∧
    (∀ {f f1 f2 : ℝ → ℝ} {a h M : ℝ},
        0 < h →
        (∀ x ∈ Set.Icc a (a + h), HasDerivAt f (f1 x) x) →
        (∀ x ∈ Set.Icc a (a + h), HasDerivAt f1 (f2 x) x) →
        (∀ x ∈ Set.Icc a (a + h), f2 x ≤ M) →
        (f (a + h) - f a) / h - f1 a ≤ M * h / 2) ∧
    (∀ {f f1 f2 : ℝ → ℝ} {a h m : ℝ},
        0 < h →
        (∀ x ∈ Set.Icc a (a + h), HasDerivAt f (f1 x) x) →
        (∀ x ∈ Set.Icc a (a + h), HasDerivAt f1 (f2 x) x) →
        (∀ x ∈ Set.Icc a (a + h), m ≤ f2 x) →
        m * h / 2 ≤ (f (a + h) - f a) / h - f1 a) ∧
    (∀ (x : ℝ),
        x ∈ Set.Icc (100 : ℝ) (100 + 0.01) →
        0.01 ≤ analytic_gamma exactConsts x 100 0 0 0.20 1 ∧
        analytic_gamma exactConsts x 100 0 0 0.20 1 ≤ 0.02) := by
  obtain ⟨cplx_eq, csqrt_ofReal, -, -, max_eq_of_nonneg, -, sigmaT_pos, -, -, -, -, -, -,
      exp_log_phi_exact, -, -, -, sigmaT_sq, -, bs_price_call_eq_d1, -, analytic_gamma_eq_d1,
      exp_discount, -⟩ := real_pricer_facts
  have sigmaT_ne_zero_iff {sigma T : ℝ} (hs : 0 ≤ sigma) (hT : 0 ≤ T) :
      sigma * √T ≠ 0 ↔ 0 < sigma ∧ 0 < T := by
    constructor
    · intro h
      have h1 : sigma ≠ 0 := left_ne_zero_of_mul h
      have h2 : √T ≠ 0 := right_ne_zero_of_mul h
      refine ⟨lt_of_le_of_ne hs (Ne.symm h1), ?_⟩
      rcases hT.eq_or_lt with h0 | h0
      · exact absurd (by rw [← h0, Real.sqrt_zero]) h2
      · exact h0
    · rintro ⟨h1, h2⟩
      exact (sigmaT_pos h1 h2).ne'
  have phi_exact_eq (z : ℝ) :
      phi exactConsts z = 1 / √(2 * π) * Real.exp (-z ^ 2 / 2) := by
    delta phi exactConsts
    simp only []
    congr 2
    ring
  have d1_real_atm
      (S K r q sigma T : ℝ) (hK : 0 < K) (hs : 0 < sigma) (hT : 0 < T) (hF : S * Real.exp ((r - q) * T) = K) :
      d1_real S K r q sigma T = 0.5 * (sigma * √T) := by
    have hv : sigma * √T ≠ 0 := (sigmaT_pos hs hT).ne'
    have hv2 := sigmaT_sq sigma hT.le
    delta d1_real
    rw [hF, div_self hK.ne', Real.log_one, zero_add, div_eq_iff hv]
    linear_combination (-0.5 : ℝ) * hv2
  have run_validation_row_take (c : Consts) (S K r q sigma T : ℝ) (steps i : ℕ) :
      (run_validation_row c S K r q sigma T steps i).take 2
        = [(10 : ℝ) ^ ((-16 : ℝ) + 12 * (i : ℝ) / (steps : ℝ)),
        (10 : ℝ) ^ ((-16 : ℝ) + 12 * (i : ℝ) / (steps : ℝ)) * S] := by
    delta run_validation_row
    norm_num
  have h_rel_strictMono (i j : ℕ) (hij : i < j) :
      (10 : ℝ) ^ ((-16 : ℝ) + 12 * (i : ℝ) / ((24 : ℕ) : ℝ))
        < (10 : ℝ) ^ ((-16 : ℝ) + 12 * (j : ℝ) / ((24 : ℕ) : ℝ)) := by
    apply Real.rpow_lt_rpow_of_exponent_lt (by norm_num)
    have : (i : ℝ) < (j : ℝ) := by exact_mod_cast hij
    push_cast
    linarith
  -- Range, symmetry and limit of `erfc`
  have erfc_neg (x : ℝ) :
      erfc (-x) = 2 - erfc x := by
    have h :
        (tsum fun n : ℕ => (-1) ^ n * (-x) ^ (2 * n + 1) / ((n.factorial : ℝ) * (2 * n + 1)))
        = -tsum fun n : ℕ => (-1) ^ n * x ^ (2 * n + 1) / ((n.factorial : ℝ) * (2 * n + 1)) := by
      rw [← tsum_neg]
      refine tsum_congr fun n => ?_
      rw [Odd.neg_pow ⟨n, rfl⟩]
      ring
    delta erfc
    rw [h]
    ring
  have Phi_real_neg (c : Consts) (z : ℝ) :
      Phi_real c (-z) = 1 - Phi_real c z := by
    delta Phi_real
    rw [show -(-z) * c.INV_SQRT_2 = -(-z * c.INV_SQRT_2) by ring, erfc_neg]
    ring
  have exactConsts_INV_SQRT_2_pos :
      0 < exactConsts.INV_SQRT_2 := by
    delta exactConsts
    simp only []
    positivity
  have tendsto_d1_real_zero (K r q sigma T : ℝ) (hK : 0 < K) (hs : 0 < sigma) (hT : 0 < T) :
      Tendsto (fun s => d1_real s K r q sigma T) (𝓝[>] 0) atBot := by
    have hv := sigmaT_pos hs hT
    have hEK : 0 < Real.exp ((r - q) * T) / K := by positivity
    have h1 : Tendsto (fun s : ℝ => s * (Real.exp ((r - q) * T) / K)) (𝓝[>] 0) (𝓝[>] 0) := by
      apply tendsto_nhdsWithin_of_tendsto_nhds_of_eventually_within
      · have : Tendsto (fun s : ℝ => s * (Real.exp ((r - q) * T) / K)) (𝓝 0)
            (𝓝 (0 * (Real.exp ((r - q) * T) / K))) := tendsto_id.mul_const _
        rw [zero_mul] at this
        exact this.mono_left nhdsWithin_le_nhds
      · filter_upwards [self_mem_nhdsWithin] with s hs0
        exact mul_pos hs0 hEK
    have h2 := Real.tendsto_log_nhdsWithin_zero_right.comp h1
    have h3 := (tendsto_atBot_add_const_right _ (0.5 * sigma ^ 2 * T) h2).atBot_div_const hv
    refine h3.congr (fun s => ?_)
    delta d1_real
    simp only [Function.comp, mul_div_assoc]
  -- The price above the forward intrinsic value is a price with spot and
  -- strike exchanged (put–call symmetry of the closed form).
  have bs_price_call_sub_forward
      (c : Consts) (S K r q sigma T : ℝ) (hS : 0 < S) (hK : 0 < K) (hs : 0 < sigma) (hT : 0 < T) :
      bs_price_call c S K r q sigma T
        - (S * Real.exp (-q * T) - K * Real.exp (-r * T))
        = Real.exp (-r * T)
        * bs_price_call c K (S * Real.exp ((r - q) * T)) 0 0 sigma T := by
    have hv : sigma * √T ≠ 0 := (sigmaT_pos hs hT).ne'
    have hv2 := sigmaT_sq sigma hT.le
    have hF : 0 < S * Real.exp ((r - q) * T) := by positivity
    have hlog : Real.log (K * Real.exp ((0 - 0) * T) / (S * Real.exp ((r - q) * T)))
        = -Real.log (S * Real.exp ((r - q) * T) / K) := by
      rw [sub_zero, zero_mul, Real.exp_zero, mul_one, ← Real.log_inv, inv_div]
    have hd1 : d1_real K (S * Real.exp ((r - q) * T)) 0 0 sigma T
        = -(d1_real S K r q sigma T - sigma * √T) := by
      delta d1_real d1_real
      rw [hlog]
      field_simp
      linear_combination (-1 : ℝ) * hv2
    rw [bs_price_call_eq_d1 c S K r q sigma T hK hs hT,
      bs_price_call_eq_d1 c K _ 0 0 sigma T hF hs hT, hd1,
      show -(d1_real S K r q sigma T - sigma * √T) - sigma * √T = -(d1_real S K r q sigma T) by ring,
      Phi_real_neg, Phi_real_neg, ← exp_discount r q T]
    simp only [sub_zero, zero_mul, neg_zero, Real.exp_zero, mul_one, one_mul]
    ring
  have bs_price_call_degenerate_eq
      (c : Consts) (S K r q sigma T : ℝ) (hT : 0 ≤ T) (hv : sigma * √T = 0) :
      bs_price_call c S K r q sigma T
        = max (S * Real.exp (-q * T) - K * Real.exp (-r * T)) 0 := by
    have hDF : 0 < Real.exp (-r * T) := Real.exp_pos _
    delta bs_price_call
    simp only [max_eq_of_nonneg hT, if_pos hv]
    rw [mul_max_of_nonneg _ _ hDF.le, mul_zero, ← exp_discount r q T]
    congr 1
    ring
  -- Precision of the decimal literals
  have literal_INV_SQRT_2_near :
      |literalConsts.INV_SQRT_2 - 1 / √2| < 1e-19 := by
    have h2 : (1 : ℝ) / √2 = √(1 / 2) := by
      rw [Real.sqrt_div zero_le_one, Real.sqrt_one]
    rw [h2, abs_lt]
    delta literalConsts
    simp only []
    constructor
    · have : √(1 / 2) < (0.70710678118654752440 : ℝ) + 1e-19 := by
        rw [Real.sqrt_lt' (by norm_num)]
        norm_num
      linarith
    · have : (0.70710678118654752440 : ℝ) - 1e-19 < √(1 / 2) := by
        rw [Real.lt_sqrt (by norm_num)]
        norm_num
      linarith
  have literal_INV_SQRT_2PI_near :
      |literalConsts.INV_SQRT_2PI - 1 / √(2 * π)| < 1e-19 := by
    have hpos : (0 : ℝ) < 2 * π := by positivity
    have h2 : (1 : ℝ) / √(2 * π) = √(1 / (2 * π)) := by
      rw [Real.sqrt_div zero_le_one, Real.sqrt_one]
    have hlo := Real.pi_gt_d20
    have hhi := Real.pi_lt_d20
    rw [h2, abs_lt]
    delta literalConsts
    simp only []
    constructor
    · have : √(1 / (2 * π)) < (0.39894228040143267794 : ℝ) + 1e-19 := by
        rw [Real.sqrt_lt' (by norm_num), div_lt_iff₀ hpos]
        have : (1 : ℝ) < ((0.39894228040143267794 : ℝ) + 1e-19) ^ 2
            * (2 * 3.14159265358979323846) := by norm_num
        nlinarith
      linarith
    · have : (0.39894228040143267794 : ℝ) - 1e-19 < √(1 / (2 * π)) := by
        rw [Real.lt_sqrt (by norm_num), lt_div_iff₀ hpos]
        have : ((0.39894228040143267794 : ℝ) - 1e-19) ^ 2
            * (2 * 3.14159265358979323847) < 1 := by norm_num
        nlinarith
      linarith
  have exp_literal_lo :
      Real.exp (0.91893853320467274168 : ℝ) < 2.5066282746310005024 := by
    have hb := Real.exp_bound (x := (0.91893853320467274168 : ℝ))
      (by rw [abs_of_pos (by norm_num)]; norm_num) (n := 22) (by norm_num)
    rw [abs_of_pos (by norm_num : (0 : ℝ) < 0.91893853320467274168)] at hb
    have hup := (abs_le.mp hb).2
    have hP : (∑ m ∈ Finset.range 22, (0.91893853320467274168 : ℝ) ^ m / (m.factorial : ℝ))
        + (0.91893853320467274168 : ℝ) ^ 22
          * ((Nat.succ 22 : ℕ) / ((Nat.factorial 22 : ℕ) * (22 : ℕ)))
        < 2.5066282746310005024 := by
      simp only [Finset.sum_range_succ, Finset.sum_range_zero, Nat.factorial]
      norm_num
    linarith
  have exp_literal_hi :
      2.5066282746310005025 < Real.exp (0.91893853320467274188 : ℝ) := by
    have hb := Real.exp_bound (x := (0.91893853320467274188 : ℝ))
      (by rw [abs_of_pos (by norm_num)]; norm_num) (n := 22) (by norm_num)
    rw [abs_of_pos (by norm_num : (0 : ℝ) < 0.91893853320467274188)] at hb
    have hlo := (abs_le.mp hb).1
    have hP : (2.5066282746310005025 : ℝ)
        < (∑ m ∈ Finset.range 22, (0.91893853320467274188 : ℝ) ^ m / (m.factorial : ℝ))
        - (0.91893853320467274188 : ℝ) ^ 22
          * ((Nat.succ 22 : ℕ) / ((Nat.factorial 22 : ℕ) * (22 : ℕ))) := by
      simp only [Finset.sum_range_succ, Finset.sum_range_zero, Nat.factorial]
      norm_num
    linarith
  have literal_LOG_SQRT_2PI_near :
      |literalConsts.LOG_SQRT_2PI - Real.log (√(2 * π))| < 1e-19 := by
    have hpos : (0 : ℝ) < √(2 * π) := Real.sqrt_pos.mpr (by positivity)
    have hlo := Real.pi_gt_d20
    have hhi := Real.pi_lt_d20
    have h1 : (2.5066282746310005024 : ℝ) < √(2 * π) := by
      rw [Real.lt_sqrt (by norm_num)]
      have : (2.5066282746310005024 : ℝ) ^ 2 < 2 * 3.14159265358979323846 := by norm_num
      linarith
    have h2 : √(2 * π) < (2.5066282746310005025 : ℝ) := by
      rw [Real.sqrt_lt' (by norm_num)]
      have : 2 * 3.14159265358979323847 < (2.5066282746310005025 : ℝ) ^ 2 := by norm_num
      linarith
    rw [abs_lt]
    delta literalConsts
    simp only []
    constructor
    · have : Real.log (√(2 * π)) < (0.91893853320467274188 : ℝ) := by
        rw [Real.log_lt_iff_lt_exp hpos]
        exact h2.trans exp_literal_hi
      linarith
    · have : (0.91893853320467274168 : ℝ) < Real.log (√(2 * π)) := by
        rw [Real.lt_log_iff_exp_lt hpos]
        exact exp_literal_lo.trans h1
      linarith
  have bs_price_call_t_defined_of_ne_zero
      (s : ℂ) (K r q sigma T : ℝ) (hs0 : s ≠ 0) (hK : 0 < K) (hs : 0 < sigma) (hT : 0 < T) :
      bs_price_call_t_defined s (cplx K) (cplx r) (cplx q) (cplx sigma) (cplx T) := by
    have hcK : (K : ℂ) ≠ 0 := Complex.ofReal_ne_zero.mpr hK.ne'
    have hcs : (sigma : ℂ) ≠ 0 := Complex.ofReal_ne_zero.mpr hs.ne'
    have hcT : ((√T : ℝ) : ℂ) ≠ 0 := Complex.ofReal_ne_zero.mpr (Real.sqrt_pos.mpr hT).ne'
    delta bs_price_call_t_defined
    simp only [cplx_eq, csqrt_ofReal hT.le]
    exact ⟨hcK, div_ne_zero (mul_ne_zero hs0 (Complex.exp_ne_zero _)) hcK, mul_ne_zero hcs hcT⟩
  have bs_price_call_defined_of_pos (S K r q sigma T : ℝ) (hS : 0 < S) (hK : 0 < K) :
      bs_price_call_defined S K r q sigma T := by
    have hFK : 0 < S * Real.exp ((r - q) * T) / K := by positivity
    have hx : (S * Real.exp ((r - q) * T) - K) / K = S * Real.exp ((r - q) * T) / K - 1 := by
      field_simp
    delta bs_price_call_defined
    simp only [if_pos hK]
    split_ifs
    · rw [hx]
      linarith
    · exact hFK
  have spot_plus_ne_zero (S h a : ℝ) (hS : 0 < S) :
      cplx S + (h : ℂ) * (⟨a, a⟩ : ℂ) ≠ 0 := by
    intro h0
    have hre := congrArg Complex.re h0
    have him := congrArg Complex.im h0
    simp [cplx_eq] at hre him
    rcases him with h1 | h1 <;> rw [h1] at hre <;> simp at hre <;> linarith
  have spot_minus_ne_zero (S h a : ℝ) (hS : 0 < S) :
      cplx S - (h : ℂ) * (⟨a, a⟩ : ℂ) ≠ 0 := by
    intro h0
    have hre := congrArg Complex.re h0
    have him := congrArg Complex.im h0
    simp [cplx_eq] at hre him
    rcases him with h1 | h1 <;> rw [h1] at hre <;> simp at hre <;> linarith
  have nearest_binary64_of_near
      {m e : ℕ} {x y d : ℝ} (hm1 : 2 ^ 52 < m) (hm2 : m < 2 ^ 53) (hxy : |x - y| < d) (hx : |x - (m : ℝ) / 2 ^ e| < 1 / 2 ^ e / 2 - d) :
      nearest_binary64 m e x ∧ nearest_binary64 m e y := by
    have hd : 0 < d := lt_of_le_of_lt (abs_nonneg _) hxy
    refine ⟨⟨hm1, hm2, by linarith⟩, hm1, hm2, ?_⟩
    have : |y - (m : ℝ) / 2 ^ e| ≤ |y - x| + |x - (m : ℝ) / 2 ^ e| := by
      have := abs_add (y - x) (x - (m : ℝ) / 2 ^ e)
      simpa using this
    rw [abs_sub_comm y x] at this
    linarith
  -- Second-order bounds on a forward difference quotient
  -- If `f' = f1` and `f1' = f2 ≤ M` on `[a, a+h]`, the forward difference
  -- quotient exceeds `f1 a` by at most `M·h/2`.
  have forward_diff_sub_le
      {f f1 f2 : ℝ → ℝ} {a h M : ℝ} (hh : 0 < h) (hf : ∀ x ∈ Set.Icc a (a + h), HasDerivAt f (f1 x) x) (hf1 : ∀ x ∈ Set.Icc a (a + h), HasDerivAt f1 (f2 x) x) (hM : ∀ x ∈ Set.Icc a (a + h), f2 x ≤ M) :
      (f (a + h) - f a) / h - f1 a ≤ M * h / 2 := by
    have hsub : interior (Set.Icc a (a + h)) ⊆ Set.Icc a (a + h) := interior_subset
    have ha : a ∈ Set.Icc a (a + h) := ⟨le_refl a, by linarith⟩
    have hah : a + h ∈ Set.Icc a (a + h) := ⟨by linarith, le_refl _⟩
    -- first derivative of the remainder
    have hg1 : ∀ x ∈ Set.Icc a (a + h),
        HasDerivAt (fun x => f1 x - f1 a - M * (x - a)) (f2 x - M) x := by
      intro x hx
      have := ((hf1 x hx).sub_const (f1 a)).sub (((hasDerivAt_id x).sub_const a).const_mul M)
      simpa using this
    have hanti1 : AntitoneOn (fun x => f1 x - f1 a - M * (x - a)) (Set.Icc a (a + h)) := by
      apply antitoneOn_of_deriv_nonpos (convex_Icc a (a + h))
      · exact fun x hx => (hg1 x hx).continuousAt.continuousWithinAt
      · exact fun x hx => (hg1 x (hsub hx)).differentiableAt.differentiableWithinAt
      · intro x hx
        rw [(hg1 x (hsub hx)).deriv]
        linarith [hM x (hsub hx)]
    have hg1le : ∀ x ∈ Set.Icc a (a + h), f1 x - f1 a - M * (x - a) ≤ 0 := by
      intro x hx
      have := hanti1 ha hx hx.1
      simpa using this
    -- the remainder itself
    have hg : ∀ x ∈ Set.Icc a (a + h),
        HasDerivAt (fun x => f x - f1 a * x - M * (x - a) ^ 2 / 2)
          (f1 x - f1 a - M * (x - a)) x := by
      intro x hx
      have h2 := ((((hasDerivAt_id x).sub_const a).pow 2).const_mul M).div_const 2
      have := ((hf x hx).sub ((hasDerivAt_id x).const_mul (f1 a))).sub h2
      convert this using 1
      simp only [id]
      ring
    have hanti : AntitoneOn (fun x => f x - f1 a * x - M * (x - a) ^ 2 / 2)
        (Set.Icc a (a + h)) := by
      apply antitoneOn_of_deriv_nonpos (convex_Icc a (a + h))
      · exact fun x hx => (hg x hx).continuousAt.continuousWithinAt
      · exact fun x hx => (hg x (hsub hx)).differentiableAt.differentiableWithinAt
      · intro x hx
        rw [(hg x (hsub hx)).deriv]
        exact hg1le x (hsub hx)
    have hfin := hanti ha hah (by linarith)
    simp only [sub_self, add_sub_cancel_left] at hfin
    rw [sub_le_iff_le_add, div_le_iff₀ hh]
    nlinarith
  -- If `f' = f1` and `f1' = f2 ≥ m` on `[a, a+h]`, the forward difference
  -- quotient exceeds `f1 a` by at least `m·h/2`.
  have le_forward_diff_sub
      {f f1 f2 : ℝ → ℝ} {a h m : ℝ} (hh : 0 < h) (hf : ∀ x ∈ Set.Icc a (a + h), HasDerivAt f (f1 x) x) (hf1 : ∀ x ∈ Set.Icc a (a + h), HasDerivAt f1 (f2 x) x) (hm : ∀ x ∈ Set.Icc a (a + h), m ≤ f2 x) :
      m * h / 2 ≤ (f (a + h) - f a) / h - f1 a := by
    have hneg : ∀ x ∈ Set.Icc a (a + h), (fun x => -f2 x) x ≤ -m := by
      intro x hx
      show -f2 x ≤ -m
      linarith [hm x hx]
    have hb := @forward_diff_sub_le (fun x => -f x) (fun x => -f1 x) (fun x => -f2 x) a h (-m) hh
      (fun x hx => (hf x hx).neg) (fun x hx => (hf1 x hx).neg) hneg
    have e : (-f (a + h) - -f a) / h - -f1 a = -((f (a + h) - f a) / h - f1 a) := by ring
    simp only [e] at hb
    linarith
  have exact_INV_SQRT_2PI_bounds :
      0.39 ≤ exactConsts.INV_SQRT_2PI ∧ exactConsts.INV_SQRT_2PI ≤ 0.4 := by
    have hlo := Real.pi_gt_d2
    have hhi := Real.pi_lt_d2
    have hpos : (0 : ℝ) < √(2 * π) := Real.sqrt_pos.mpr (by positivity)
    have h1 : (2.5 : ℝ) ≤ √(2 * π) := by
      apply Real.le_sqrt_of_sq_le
      norm_num
      linarith
    have h2 : √(2 * π) ≤ (2.56 : ℝ) := by
      rw [Real.sqrt_le_iff]
      refine ⟨by norm_num, ?_⟩
      norm_num
      linarith
    delta exactConsts
    simp only []
    constructor
    · rw [le_div_iff₀ hpos]
      nlinarith
    · rw [div_le_iff₀ hpos]
      nlinarith
  -- Bounds on `analytic_gamma` for scenario1 with the spot in `[100, 100.01]`.
  have analytic_gamma_scenario1_bounds (x : ℝ) (hx : x ∈ Set.Icc (100 : ℝ) (100 + 0.01)) :
      0.01 ≤ analytic_gamma exactConsts x 100 0 0 0.20 1 ∧
        analytic_gamma exactConsts x 100 0 0 0.20 1 ≤ 0.02 := by
    obtain ⟨hx1, hx2⟩ := hx
    have hxpos : 0 < x := by linarith
    obtain ⟨hc1, hc2⟩ := exact_INV_SQRT_2PI_bounds
    have hlog0 : 0 ≤ Real.log (x / 100) := Real.log_nonneg (by rw [le_div_iff₀ (by norm_num)]; linarith)
    have hlog1 : Real.log (x / 100) ≤ 0.0001 := by
      have := Real.log_le_sub_one_of_pos (show 0 < x / 100 by positivity)
      have h2 : x / 100 ≤ 1.0001 := by rw [div_le_iff₀ (by norm_num)]; linarith
      linarith
    have hd : d1_real x 100 0 0 0.20 1 = (Real.log (x / 100) + 0.02) / 0.2 := by
      delta d1_real
      simp only [sub_zero, zero_mul, Real.exp_zero, mul_one, Real.sqrt_one]
      norm_num
    have hd0 : 0.1 ≤ d1_real x 100 0 0 0.20 1 := by
      rw [hd, le_div_iff₀ (by norm_num)]
      linarith
    have hd1 : d1_real x 100 0 0 0.20 1 ≤ 0.1005 := by
      rw [hd, div_le_iff₀ (by norm_num)]
      linarith
    have hgam : analytic_gamma exactConsts x 100 0 0 0.20 1
        = phi exactConsts (d1_real x 100 0 0 0.20 1) / (x * 0.2) := by
      rw [analytic_gamma_eq_d1 exactConsts x 100 0 0 0.20 1 (by norm_num) (by norm_num)
        (by norm_num), exp_log_phi_exact]
      simp only [neg_zero, zero_mul, Real.exp_zero, one_mul, Real.sqrt_one, mul_one]
      norm_num
    have hexp1 : Real.exp (-0.5 * d1_real x 100 0 0 0.20 1 * d1_real x 100 0 0 0.20 1) ≤ 1 := by
      rw [Real.exp_le_one_iff]
      nlinarith
    have hexp0 : 0.9 ≤ Real.exp (-0.5 * d1_real x 100 0 0 0.20 1 * d1_real x 100 0 0 0.20 1) := by
      have := Real.add_one_le_exp (-0.5 * d1_real x 100 0 0 0.20 1 * d1_real x 100 0 0 0.20 1)
      nlinarith
    have hphi0 : 0.351 ≤ phi exactConsts (d1_real x 100 0 0 0.20 1) := by
      delta phi
      nlinarith
    have hphi1 : phi exactConsts (d1_real x 100 0 0 0.20 1) ≤ 0.4 := by
      delta phi
      nlinarith
    rw [hgam]
    constructor
    · rw [le_div_iff₀ (by positivity)]
      nlinarith
    · rw [div_le_iff₀ (by positivity)]
      nlinarith
  exact ⟨sigmaT_ne_zero_iff, phi_exact_eq, d1_real_atm, run_validation_row_take,
    h_rel_strictMono, erfc_neg, exactConsts_INV_SQRT_2_pos, tendsto_d1_real_zero,
    bs_price_call_sub_forward, bs_price_call_degenerate_eq, literal_INV_SQRT_2_near,
    literal_INV_SQRT_2PI_near, literal_LOG_SQRT_2PI_near, bs_price_call_t_defined_of_ne_zero,
    bs_price_call_defined_of_pos, spot_plus_ne_zero, spot_minus_ne_zero,
    nearest_binary64_of_near, forward_diff_sub_le, le_forward_diff_sub,
    analytic_gamma_scenario1_bounds⟩

/-! ## Calculus of the pricer -/

/-- Calculus of the pricer: the derivatives of `erfc` and of `Phi_real`, the spot derivatives of the
real pricer, the derivatives of the templated pricer along a line through a real spot, and the
limits and error bounds of the complex-step estimators. -/
theorem pricer_calculus_facts :
    (∀ (x : ℝ),
        HasDerivAt erfc (-(2 / √π * Real.exp (-x ^ 2))) x) ∧
    (∀ (S K r q sigma T : ℝ),
        0 < S →
        0 < K →
        0 < sigma →
        0 < T →
        HasDerivAt (fun s => bs_price_call exactConsts s K r q sigma T)
        (analytic_delta exactConsts S K r q sigma T) S) ∧
    (∀ (S K r q sigma T : ℝ),
        0 < S →
        0 < K →
        0 < sigma →
        0 < T →
        HasDerivAt (fun s => analytic_delta exactConsts s K r q sigma T)
        (analytic_gamma exactConsts S K r q sigma T) S) ∧
    (∀ (c : Consts) (S K r q sigma T : ℝ),
        0 < S →
        0 < K →
        0 < sigma →
        0 < T →
        Tendsto (fun h => csd_delta c S K r q sigma T h) (𝓝[>] 0)
        (𝓝 (analytic_delta c S K r q sigma T))) ∧
    (|csd_delta exactConsts 100 100 0 0 0.20 1 1e-20
        - analytic_delta exactConsts 100 100 0 0 0.20 1| ≤ 1e-14) ∧
    (∀ (S K r q sigma T : ℝ),
        0 < S →
        0 < K →
        0 < sigma →
        0 < T →
        Tendsto (fun h => csd_gamma_45 exactConsts S K r q sigma T h) (𝓝[>] 0)
        (𝓝 (analytic_gamma exactConsts S K r q sigma T))) ∧
    (∀ (S K r q sigma T : ℝ),
        0 < S →
        0 < K →
        0 < sigma →
        0 < T →
        Tendsto (fun h => csd_gamma_real exactConsts S K r q sigma T h) (𝓝[>] 0)
        (𝓝 (2 * analytic_gamma exactConsts S K r q sigma T))) ∧
    (Antitone erfc) := by
  obtain ⟨-, -, -, -, -, -, sigmaT_pos, -, -, hasDerivAt_phi, hasDerivAt_Phi_deriv, -,
      Phi_deriv_exact, exp_log_phi_exact, tendsto_div_self_of_hasDerivAt, tendsto_div_sq, -, -,
      phi_d2_identity, bs_price_call_eq_d1, analytic_delta_eq_d1, analytic_gamma_eq_d1,
      exp_discount, -⟩ := real_pricer_facts
  obtain ⟨exp_ofReal_mul, spot_line_re, hasDerivAt_spot_line, hasDerivAt_re_comp,
      hasDerivAt_im_comp, hasDerivAt_mul_of_eq_zero, eventually_spot_re_pos, line_a_zero,
      line_b_zero, line_a1_zero, line_b1_zero, hasDerivAt_line_a1_zero, hasDerivAt_line_b1_zero,
      hasDerivAt_line_x, hasDerivAt_line_y, differentiableAt_line_a1, line_U_zero, line_U1_zero,
      line_im_zero, csd_delta_eq_line, csd_gamma_45_eq_line, line_a_I, line_b_I, phi_lipschitz,
      exactConsts_abs_le_one, -, csd_gamma_real_eq_line, -⟩ := complex_spot_facts
  -- Termwise differentiation of the series of `erfc`.
  have hasDerivAt_erfc (x : ℝ) :
      HasDerivAt erfc (-(2 / √π * Real.exp (-x ^ 2))) x := by
    have hser : HasDerivAt
        (fun z : ℝ =>
          tsum fun n : ℕ => (-1) ^ n * z ^ (2 * n + 1) / ((n.factorial : ℝ) * (2 * n + 1)))
        (tsum fun n : ℕ => (-1) ^ n * x ^ (2 * n) / (n.factorial : ℝ)) x := by
      have hR : x ∈ Set.Ioo (-(|x| + 1)) (|x| + 1) := by
        constructor
        · linarith [neg_abs_le x]
        · linarith [le_abs_self x]
      have h0 : (0 : ℝ) ∈ Set.Ioo (-(|x| + 1)) (|x| + 1) := by
        constructor <;> linarith [abs_nonneg x]
      have hg : ∀ (n : ℕ) (y : ℝ), y ∈ Set.Ioo (-(|x| + 1)) (|x| + 1) →
          HasDerivAt (fun z : ℝ => (-1) ^ n * z ^ (2 * n + 1) / ((n.factorial : ℝ) * (2 * n + 1)))
            ((-1) ^ n * y ^ (2 * n) / (n.factorial : ℝ)) y := by
        intro n y _
        have hn : ((n.factorial : ℝ) * (2 * n + 1)) ≠ 0 := by positivity
        have h := ((hasDerivAt_pow (2 * n + 1) y).const_mul ((-1 : ℝ) ^ n)).div_const
          ((n.factorial : ℝ) * (2 * n + 1))
        convert h using 1
        simp only [Nat.add_sub_cancel]
        field_simp
        ring
      have hb : ∀ (n : ℕ) (y : ℝ), y ∈ Set.Ioo (-(|x| + 1)) (|x| + 1) →
          ‖(-1) ^ n * y ^ (2 * n) / (n.factorial : ℝ)‖ ≤ ((|x| + 1) ^ 2) ^ n / (n.factorial : ℝ) := by
        intro n y hy
        have hy2 : y ^ 2 ≤ (|x| + 1) ^ 2 := by
          rw [← sq_abs y]
          have : |y| ≤ |x| + 1 := abs_le.mpr ⟨hy.1.le, hy.2.le⟩
          exact pow_le_pow_left₀ (abs_nonneg y) this 2
        rw [norm_div, norm_mul, norm_pow, norm_pow, norm_neg, norm_one, one_pow, one_mul,
          Real.norm_natCast, Real.norm_eq_abs, pow_mul, ← abs_pow, abs_of_nonneg (sq_nonneg y)]
        exact div_le_div_of_nonneg_right (pow_le_pow_left₀ (sq_nonneg y) hy2 n) (by positivity)
      have hs0 : Summable fun n : ℕ =>
          (-1 : ℝ) ^ n * (0 : ℝ) ^ (2 * n + 1) / ((n.factorial : ℝ) * (2 * n + 1)) := by
        simpa using (summable_zero : Summable fun _ : ℕ => (0 : ℝ))
      exact hasDerivAt_tsum_of_isPreconnected
        (Real.summable_pow_div_factorial ((|x| + 1) ^ 2)) isOpen_Ioo
        (convex_Ioo _ _).isPreconnected hg hb h0 hs0 hR
    have hexp : (tsum fun n : ℕ => (-1) ^ n * x ^ (2 * n) / (n.factorial : ℝ))
        = Real.exp (-x ^ 2) := by
      rw [Real.exp_eq_exp_ℝ, NormedSpace.exp_eq_tsum_div]
      refine tsum_congr fun n => ?_
      rw [neg_pow (x ^ 2) n, pow_mul]
    rw [hexp] at hser
    exact (hser.const_mul (2 / √π)).const_sub 1
  have hasDerivAt_Phi_real (c : Consts) (z : ℝ) :
      HasDerivAt (Phi_real c) (Phi_deriv c z) z := by
    have hin : HasDerivAt (fun z : ℝ => -z * c.INV_SQRT_2) (-c.INV_SQRT_2) z := by
      simpa using ((hasDerivAt_id z).neg).mul_const c.INV_SQRT_2
    have h := ((hasDerivAt_erfc (-z * c.INV_SQRT_2)).comp z hin).const_mul (0.5 : ℝ)
    have heq : (0.5 : ℝ) * (-(2 / √π * Real.exp (-(-z * c.INV_SQRT_2) ^ 2)) * -c.INV_SQRT_2)
        = Phi_deriv c z := by
      delta Phi_deriv
      have : (-z * c.INV_SQRT_2) ^ 2 = (z * c.INV_SQRT_2) ^ 2 := by ring
      rw [this]
      ring
    rw [← heq]
    exact h
  -- Derivatives of the real pricer in the spot
  have hasDerivAt_d1_real (S K r q sigma T : ℝ) (hS : 0 < S) (hK : 0 < K) :
      HasDerivAt (fun s => d1_real s K r q sigma T) (1 / (S * (sigma * √T))) S := by
    have hE : 0 < Real.exp ((r - q) * T) := Real.exp_pos _
    have hlin : HasDerivAt (fun s : ℝ => s * Real.exp ((r - q) * T) / K)
        (Real.exp ((r - q) * T) / K) S := by
      simpa using ((hasDerivAt_id S).mul_const (Real.exp ((r - q) * T))).div_const K
    have hne : S * Real.exp ((r - q) * T) / K ≠ 0 := by positivity
    have h := ((hlin.log hne).add_const (0.5 * sigma ^ 2 * T)).div_const (sigma * √T)
    convert h using 1
    rw [show Real.exp ((r - q) * T) / K / (S * Real.exp ((r - q) * T) / K) = 1 / S by
        field_simp; ring, div_div]
  -- The price is differentiable in the spot with derivative `analytic_delta`
  -- (exact constants).
  have hasDerivAt_bs_price_call
      (S K r q sigma T : ℝ) (hS : 0 < S) (hK : 0 < K) (hs : 0 < sigma) (hT : 0 < T) :
      HasDerivAt (fun s => bs_price_call exactConsts s K r q sigma T)
        (analytic_delta exactConsts S K r q sigma T) S := by
    have hd := hasDerivAt_d1_real S K r q sigma T hS hK
    have hP1 := (hasDerivAt_Phi_real exactConsts (d1_real S K r q sigma T)).comp S hd
    have hP2 := (hasDerivAt_Phi_real exactConsts (d1_real S K r q sigma T - sigma * √T)).comp S
      (hd.sub_const (sigma * √T))
    have hF : HasDerivAt (fun s : ℝ => s * Real.exp ((r - q) * T)) (Real.exp ((r - q) * T)) S := by
      simpa using (hasDerivAt_id S).mul_const (Real.exp ((r - q) * T))
    have h := ((hF.mul hP1).sub (hP2.const_mul K)).const_mul (Real.exp (-r * T))
    have hfun : (fun s => bs_price_call exactConsts s K r q sigma T)
        = fun s => Real.exp (-r * T) * (s * Real.exp ((r - q) * T)
            * Phi_real exactConsts (d1_real s K r q sigma T)
            - K * Phi_real exactConsts (d1_real s K r q sigma T - sigma * √T)) :=
      funext fun s => bs_price_call_eq_d1 exactConsts s K r q sigma T hK hs hT
    rw [hfun, analytic_delta_eq_d1 exactConsts S K r q sigma T hK hs hT]
    convert h using 1
    have hid := phi_d2_identity exactConsts S K r q sigma T hS hK hs hT
    have hv : sigma * √T ≠ 0 := (sigmaT_pos hs hT).ne'
    simp only [Phi_deriv_exact, Function.comp]
    rw [← exp_discount r q T]
    simp only [neg_mul]
    field_simp
    linear_combination (Real.exp (-(r * T))) * hid
  -- The map `s ↦ analytic_delta(s, …)` is differentiable with derivative
  -- `analytic_gamma` (exact constants).
  have hasDerivAt_analytic_delta
      (S K r q sigma T : ℝ) (hS : 0 < S) (hK : 0 < K) (hs : 0 < sigma) (hT : 0 < T) :
      HasDerivAt (fun s => analytic_delta exactConsts s K r q sigma T)
        (analytic_gamma exactConsts S K r q sigma T) S := by
    have hd := hasDerivAt_d1_real S K r q sigma T hS hK
    have hP1 := ((hasDerivAt_Phi_real exactConsts (d1_real S K r q sigma T)).comp S hd).const_mul
      (Real.exp (-q * T))
    have hfun : (fun s => analytic_delta exactConsts s K r q sigma T)
        = fun s => Real.exp (-q * T) * Phi_real exactConsts (d1_real s K r q sigma T) :=
      funext fun s => analytic_delta_eq_d1 exactConsts s K r q sigma T hK hs hT
    rw [hfun, analytic_gamma_eq_d1 exactConsts S K r q sigma T hK hs hT, exp_log_phi_exact]
    convert hP1 using 1
    rw [Phi_deriv_exact]
    field_simp
  -- Derivative of the complex `d1` along the line, wherever the spot has
  -- positive real part.
  have hasDerivAt_d1_cplx (S K r q sigma T t : ℝ) (w : ℂ) (hK : 0 < K) (hre : 0 < S + t * w.re) :
      HasDerivAt (fun t : ℝ => d1_cplx ((S : ℂ) + (t : ℂ) * w) K r q sigma T)
        (w / (((S : ℂ) + (t : ℂ) * w) * ((sigma : ℂ) * csqrt (T : ℂ)))) t := by
    have hEK : 0 < Real.exp ((r - q) * T) / K := by positivity
    have hne : (S : ℂ) + (t : ℂ) * w ≠ 0 := by
      intro h0
      have := congrArg Complex.re h0
      rw [spot_line_re] at this
      simp only [Complex.zero_re] at this
      linarith
    have hcE : Complex.exp (((r : ℂ) - (q : ℂ)) * (T : ℂ)) ≠ 0 := Complex.exp_ne_zero _
    have hcK : (K : ℂ) ≠ 0 := Complex.ofReal_ne_zero.mpr hK.ne'
    have hlin := ((hasDerivAt_spot_line S t w).mul_const
      (Complex.exp (((r : ℂ) - (q : ℂ)) * (T : ℂ)))).div_const (K : ℂ)
    have hslit : ((S : ℂ) + (t : ℂ) * w) * Complex.exp (((r : ℂ) - (q : ℂ)) * (T : ℂ)) / (K : ℂ)
        ∈ Complex.slitPlane := by
      rw [Complex.mem_slitPlane_iff]
      left
      rw [← Complex.ofReal_sub r q, exp_ofReal_mul, mul_div_assoc, ← Complex.ofReal_div,
        Complex.re_mul_ofReal, spot_line_re]
      exact mul_pos hre hEK
    have h := ((hlin.clog_real hslit).add_const
      (0.5 * (sigma : ℂ) * (sigma : ℂ) * (T : ℂ))).div_const ((sigma : ℂ) * csqrt (T : ℂ))
    delta d1_cplx
    convert h using 1
    rw [show w * Complex.exp (((r : ℂ) - (q : ℂ)) * (T : ℂ)) / (K : ℂ)
        / (((S : ℂ) + (t : ℂ) * w) * Complex.exp (((r : ℂ) - (q : ℂ)) * (T : ℂ)) / (K : ℂ))
        = w / ((S : ℂ) + (t : ℂ) * w) by
      field_simp
      ring, div_div]
  have hasDerivAt_line_a (S K r q sigma T t : ℝ) (w : ℂ) (hK : 0 < K) (hre : 0 < S + t * w.re) :
      HasDerivAt (line_a S K r q sigma T w) (line_a1 S sigma T w t) t :=
    hasDerivAt_re_comp (hasDerivAt_d1_cplx S K r q sigma T t w hK hre)
  have hasDerivAt_line_b (S K r q sigma T t : ℝ) (w : ℂ) (hK : 0 < K) (hre : 0 < S + t * w.re) :
      HasDerivAt (line_b S K r q sigma T w) (line_b1 S sigma T w t) t :=
    hasDerivAt_im_comp (hasDerivAt_d1_cplx S K r q sigma T t w hK hre)
  have hasDerivAt_line_U
      (c : Consts) (S K r q sigma T t : ℝ) (w : ℂ) (hK : 0 < K) (hre : 0 < S + t * w.re) :
      HasDerivAt (line_U c S K r q sigma T w) (line_U1 c S K r q sigma T w t) t := by
    have ha := hasDerivAt_line_a S K r q sigma T t w hK hre
    have hp1 := (hasDerivAt_phi c (line_a S K r q sigma T w t)).comp t ha
    have hp2 := (hasDerivAt_phi c (line_a S K r q sigma T w t - sigma * √T)).comp t
      (ha.sub_const (sigma * √T))
    have h := ((((hasDerivAt_line_x S t w).const_mul (Real.exp ((r - q) * T))).mul hp1).sub
      (hp2.const_mul K)).const_mul (Real.exp (-r * T))
    convert h using 1
    delta line_U1
    simp only [Function.comp]
    ring
  have hasDerivAt_line_V
      (c : Consts) (S K r q sigma T t : ℝ) (w : ℂ) (hK : 0 < K) (hre : 0 < S + t * w.re) :
      HasDerivAt (line_V c S K r q sigma T w) (line_V1 c S K r q sigma T w t) t := by
    have ha := hasDerivAt_line_a S K r q sigma T t w hK hre
    have hp1 := (hasDerivAt_Phi_real c (line_a S K r q sigma T w t)).comp t ha
    exact hp1.const_mul (Real.exp (-r * T) * Real.exp ((r - q) * T))
  have differentiableAt_line_U1
      (c : Consts) (S K r q sigma T : ℝ) (w : ℂ) (hS : 0 < S) (hK : 0 < K) (hs : 0 < sigma) (hT : 0 < T) :
      DifferentiableAt ℝ (line_U1 c S K r q sigma T w) 0 := by
    have hre : 0 < S + 0 * w.re := by simpa using hS
    have ha := (hasDerivAt_line_a S K r q sigma T 0 w hK hre).differentiableAt
    have ha1 := differentiableAt_line_a1 S sigma T w hS hs hT
    have hx := (hasDerivAt_line_x S 0 w).differentiableAt
    have hp1 := ((hasDerivAt_phi c (line_a S K r q sigma T w 0)).differentiableAt).comp 0 ha
    have hp2 := ((hasDerivAt_phi c (line_a S K r q sigma T w 0 - sigma * √T)).differentiableAt).comp
      0 (ha.sub_const (sigma * √T))
    have h1 := (hp1.const_mul w.re).add (hx.mul ((ha.neg.mul hp1).mul ha1))
    have h2 := (((ha.sub_const (sigma * √T)).neg.mul hp2).mul ha1).const_mul K
    exact ((h1.const_mul (Real.exp ((r - q) * T))).sub h2).const_mul (Real.exp (-r * T))
  have differentiableAt_line_V1
      (c : Consts) (S K r q sigma T : ℝ) (w : ℂ) (hS : 0 < S) (hK : 0 < K) (hs : 0 < sigma) (hT : 0 < T) :
      DifferentiableAt ℝ (line_V1 c S K r q sigma T w) 0 := by
    have hre : 0 < S + 0 * w.re := by simpa using hS
    have ha := (hasDerivAt_line_a S K r q sigma T 0 w hK hre).differentiableAt
    have ha1 := differentiableAt_line_a1 S sigma T w hS hs hT
    have hp1 := ((hasDerivAt_Phi_deriv c (line_a S K r q sigma T w 0)).differentiableAt).comp 0 ha
    exact (hp1.mul ha1).const_mul (Real.exp (-r * T) * Real.exp ((r - q) * T))
  have hasDerivAt_line_im
      (c : Consts) (S K r q sigma T t : ℝ) (w : ℂ) (hK : 0 < K) (hre : 0 < S + t * w.re) :
      HasDerivAt (line_im c S K r q sigma T w) (line_im1 c S K r q sigma T w t) t := by
    have hb := hasDerivAt_line_b S K r q sigma T t w hK hre
    have hU := hasDerivAt_line_U c S K r q sigma T t w hK hre
    have hV := hasDerivAt_line_V c S K r q sigma T t w hK hre
    exact (hb.mul hU).add ((hasDerivAt_line_y t w).mul hV)
  -- The second derivative at `0` of the imaginary part of the pricer along the
  -- line: only the term `2·w.im·V1(0)` survives.
  have hasDerivAt_line_im1_zero
      (c : Consts) (S K r q sigma T : ℝ) (w : ℂ) (hS : 0 < S) (hK : 0 < K) (hs : 0 < sigma) (hT : 0 < T) :
      HasDerivAt (line_im1 c S K r q sigma T w)
        (2 * w.im * line_V1 c S K r q sigma T w 0) 0 := by
    have hre : 0 < S + 0 * w.re := by simpa using hS
    have hb := hasDerivAt_line_b S K r q sigma T 0 w hK hre
    have hb1 := hasDerivAt_line_b1_zero S sigma T w hS hs hT
    have hU := hasDerivAt_line_U c S K r q sigma T 0 w hK hre
    have hV := hasDerivAt_line_V c S K r q sigma T 0 w hK hre
    have hU1 := differentiableAt_line_U1 c S K r q sigma T w hS hK hs hT
    have hV1 := differentiableAt_line_V1 c S K r q sigma T w hS hK hs hT
    have hy0 : (fun t : ℝ => t * w.im) 0 = 0 := by simp
    have e1 := hb1.mul hU
    have e2 := hasDerivAt_mul_of_eq_zero hb hU1 (line_b_zero S K r q sigma T w hS hK hT.le)
    have e3 := hV.const_mul w.im
    have e4 := hasDerivAt_mul_of_eq_zero (hasDerivAt_line_y 0 w) hV1 hy0
    have h := (e1.add e2).add (e3.add e4)
    convert h using 1
    rw [line_U_zero c S K r q sigma T w hS hK hs hT, line_U1_zero c S K r q sigma T w hS hK hs hT]
    ring
  -- The limit of `csd_delta` as `h → 0+`, for any value of the constants.
  have tendsto_csd_delta
      (c : Consts) (S K r q sigma T : ℝ) (hS : 0 < S) (hK : 0 < K) (hs : 0 < sigma) (hT : 0 < T) :
      Tendsto (fun h => csd_delta c S K r q sigma T h) (𝓝[>] 0)
        (𝓝 (analytic_delta c S K r q sigma T)) := by
    have hre : 0 < S + 0 * Complex.I.re := by simpa using hS
    have hd := hasDerivAt_line_im c S K r q sigma T 0 Complex.I hK hre
    have hval : line_im1 c S K r q sigma T Complex.I 0 = analytic_delta c S K r q sigma T := by
      rw [analytic_delta_eq_d1 c S K r q sigma T hK hs hT, ← exp_discount r q T]
      delta line_im1 line_V
      simp only [line_U_zero c S K r q sigma T _ hS hK hs hT, line_b_zero S K r q sigma T _ hS hK hT.le, line_a_zero S K r q sigma T _ hS hK hT.le, Complex.I_im]
      ring
    rw [hval] at hd
    have h := tendsto_div_self_of_hasDerivAt (line_im_zero c S K r q sigma T _ hS hK hT.le) hd
    refine h.congr (fun t => ?_)
    rw [csd_delta_eq_line c S K r q sigma T t hT.le]
  -- The symmetric second difference quotient of the imaginary part of the
  -- pricer along a line.
  have tendsto_line_im_sym
      (c : Consts) (S K r q sigma T : ℝ) (w : ℂ) (hS : 0 < S) (hK : 0 < K) (hs : 0 < sigma) (hT : 0 < T) :
      Tendsto (fun h => (line_im c S K r q sigma T w h + line_im c S K r q sigma T w (-h))
        / (h * h)) (𝓝[>] 0)
        (𝓝 (2 * w.im * w.re * (Real.exp (-q * T)
        * Phi_deriv c (d1_real S K r q sigma T) / (S * (sigma * √T))))) := by
    have hneg : HasDerivAt (fun h : ℝ => -h) (-1) 0 := by
      simpa using (hasDerivAt_id (0 : ℝ)).neg
    have hnegc : Tendsto (fun h : ℝ => -h) (𝓝 0) (𝓝 0) := by
      simpa using hneg.continuousAt.tendsto
    have hev := eventually_spot_re_pos S w hS
    have hN : ∀ᶠ h in 𝓝 (0 : ℝ),
        HasDerivAt (fun h => line_im c S K r q sigma T w h + line_im c S K r q sigma T w (-h))
          (line_im1 c S K r q sigma T w h - line_im1 c S K r q sigma T w (-h)) h := by
      filter_upwards [hev, hnegc.eventually hev] with h h1 h2
      have d1 := hasDerivAt_line_im c S K r q sigma T h w hK h1
      have d2 := (hasDerivAt_line_im c S K r q sigma T (-h) w hK h2).comp h
        (by simpa using (hasDerivAt_id h).neg : HasDerivAt (fun h : ℝ => -h) (-1) h)
      have := d1.add d2
      convert this using 1
      ring
    have h2 := hasDerivAt_line_im1_zero c S K r q sigma T w hS hK hs hT
    have h2neg : HasDerivAt (line_im1 c S K r q sigma T w)
        (2 * w.im * line_V1 c S K r q sigma T w 0) (-0) := by
      simpa using h2
    have hN1 : HasDerivAt
        (fun h => line_im1 c S K r q sigma T w h - line_im1 c S K r q sigma T w (-h))
        (2 * (2 * w.im * line_V1 c S K r q sigma T w 0)) 0 := by
      have := h2.sub (h2neg.comp 0 hneg)
      convert this using 1
      ring
    have h := tendsto_div_sq hN
      (by simp [line_im_zero c S K r q sigma T w hS hK hT.le]) (by simp) hN1
    have hval : 2 * (2 * w.im * line_V1 c S K r q sigma T w 0) / 2
        = 2 * w.im * w.re * (Real.exp (-q * T)
          * Phi_deriv c (d1_real S K r q sigma T) / (S * (sigma * √T))) := by
      delta line_V1
      simp only [line_a_zero S K r q sigma T w hS hK hT.le, line_a1_zero S sigma T w hT.le, ← exp_discount r q T]
      ring
    rw [hval] at h
    exact h
  -- The limit of `csd_gamma_45` as `h → 0+`, for any value of the constants.
  have tendsto_csd_gamma_45
      (c : Consts) (S K r q sigma T : ℝ) (hS : 0 < S) (hK : 0 < K) (hs : 0 < sigma) (hT : 0 < T) :
      Tendsto (fun h => csd_gamma_45 c S K r q sigma T h) (𝓝[>] 0)
        (𝓝 (2 * c.INV_SQRT_2 * c.INV_SQRT_2 * (Real.exp (-q * T)
        * Phi_deriv c (d1_real S K r q sigma T) / (S * (sigma * √T))))) := by
    have h := tendsto_line_im_sym c S K r q sigma T ⟨c.INV_SQRT_2, c.INV_SQRT_2⟩ hS hK hs hT
    refine h.congr (fun t => ?_)
    rw [csd_gamma_45_eq_line c S K r q sigma T t hT.le]
  have arg_spot_bounds (S h : ℝ) (hS : 0 < S) (hh : 0 ≤ h) :
      0 ≤ Complex.arg ((S : ℂ) + (h : ℂ) * Complex.I)
        ∧ Complex.arg ((S : ℂ) + (h : ℂ) * Complex.I) ≤ h / S := by
    have hre : ((S : ℂ) + (h : ℂ) * Complex.I).re = S := by simp
    have him : ((S : ℂ) + (h : ℂ) * Complex.I).im = h := by simp
    have h0 : 0 ≤ Complex.arg ((S : ℂ) + (h : ℂ) * Complex.I) := by
      rw [Complex.arg_nonneg_iff, him]
      exact hh
    refine ⟨h0, ?_⟩
    have hlt : |Complex.arg ((S : ℂ) + (h : ℂ) * Complex.I)| < π / 2 := by
      rw [Complex.abs_arg_lt_pi_div_two_iff, hre]
      exact Or.inl hS
    have hlt2 : Complex.arg ((S : ℂ) + (h : ℂ) * Complex.I) < π / 2 := (abs_lt.mp hlt).2
    have := Real.le_tan h0 hlt2
    rwa [Complex.tan_arg, hre, him] at this
  -- The source's `Phi_real` is Lipschitz with constant `|INV_SQRT_2|/√π`.
  have Phi_real_lipschitz (c : Consts) (x y : ℝ) :
      |Phi_real c y - Phi_real c x| ≤ |c.INV_SQRT_2| / √π * |y - x| := by
    have hpi : 0 < √π := Real.sqrt_pos.mpr Real.pi_pos
    have hd : ∀ z ∈ (Set.univ : Set ℝ), DifferentiableAt ℝ (Phi_real c) z :=
      fun z _ => (hasDerivAt_Phi_real c z).differentiableAt
    have hb : ∀ z ∈ (Set.univ : Set ℝ), ‖deriv (Phi_real c) z‖ ≤ |c.INV_SQRT_2| / √π := by
      intro z _
      rw [(hasDerivAt_Phi_real c z).deriv, Real.norm_eq_abs]
      delta Phi_deriv
      rw [abs_mul, abs_div, abs_of_pos hpi, abs_of_pos (Real.exp_pos _)]
      have hle : Real.exp (-(z * c.INV_SQRT_2) ^ 2) ≤ 1 := by
        rw [Real.exp_le_one_iff]
        nlinarith [sq_nonneg (z * c.INV_SQRT_2)]
      calc |c.INV_SQRT_2| / √π * Real.exp (-(z * c.INV_SQRT_2) ^ 2)
          ≤ |c.INV_SQRT_2| / √π * 1 := mul_le_mul_of_nonneg_left hle (by positivity)
        _ = |c.INV_SQRT_2| / √π := mul_one _
    have := Convex.norm_image_sub_le_of_norm_deriv_le hd hb convex_univ (Set.mem_univ x)
      (Set.mem_univ y)
    simpa [Real.norm_eq_abs] using this
  -- A bound, quadratic in `h`, on the distance between `csd_delta` and
  -- `analytic_delta`, for any value of the constants.
  have csd_delta_error_bound
      (c : Consts) (S K r q sigma T h : ℝ) (hS : 0 < S) (hK : 0 < K) (hs : 0 < sigma) (hT : 0 < T) (hh : 0 < h) :
      |csd_delta c S K r q sigma T h - analytic_delta c S K r q sigma T|
        ≤ (Real.exp (-r * T) * (Real.exp ((r - q) * T) * S + K) * |c.INV_SQRT_2PI|
        / (S * (sigma * √T))
        + Real.exp (-r * T) * Real.exp ((r - q) * T) * (|c.INV_SQRT_2| / √π))
        * ((h / S) ^ 2 / 2 / (sigma * √T)) := by
    have hv : 0 < sigma * √T := sigmaT_pos hs hT
    have hDF : 0 < Real.exp (-r * T) := Real.exp_pos _
    have hE : 0 < Real.exp ((r - q) * T) := Real.exp_pos _
    have hpi : 0 < √π := Real.sqrt_pos.mpr Real.pi_pos
    -- the shift of the real part of `d1`
    have hx0 : 0 ≤ (h / S) ^ 2 := sq_nonneg _
    have heps0 : 0 ≤ Real.log (1 + (h / S) ^ 2) / 2 / (sigma * √T) := by
      have : 0 ≤ Real.log (1 + (h / S) ^ 2) := Real.log_nonneg (by linarith)
      positivity
    have heps1 : Real.log (1 + (h / S) ^ 2) / 2 / (sigma * √T) ≤ (h / S) ^ 2 / 2 / (sigma * √T) := by
      have : Real.log (1 + (h / S) ^ 2) ≤ (h / S) ^ 2 := by
        have := Real.log_le_sub_one_of_pos (show 0 < 1 + (h / S) ^ 2 by linarith)
        linarith
      gcongr
    have ha := line_a_I S K r q sigma T h hS hK hT.le
    -- the imaginary part of `d1`
    have hb := line_b_I S K r q sigma T h hK hT.le
    obtain ⟨harg0, harg1⟩ := arg_spot_bounds S h hS hh.le
    have hbh0 : 0 ≤ line_b S K r q sigma T Complex.I h / h := by
      rw [hb]
      positivity
    have hbh1 : line_b S K r q sigma T Complex.I h / h ≤ 1 / (S * (sigma * √T)) := by
      rw [hb, div_div, div_le_div_iff₀ (by positivity) (by positivity)]
      have h1 := (le_div_iff₀ hS).mp harg1
      nlinarith [mul_le_mul_of_nonneg_right h1 hv.le]
    -- the two cofactors
    have hid := phi_d2_identity c S K r q sigma T hS hK hs hT
    have hU : |line_U c S K r q sigma T Complex.I h|
        ≤ Real.exp (-r * T) * (Real.exp ((r - q) * T) * S + K) * |c.INV_SQRT_2PI|
            * ((h / S) ^ 2 / 2 / (sigma * √T)) := by
      have e1 := phi_lipschitz c (d1_real S K r q sigma T) (line_a S K r q sigma T Complex.I h)
      have e2 := phi_lipschitz c (d1_real S K r q sigma T - sigma * √T)
        (line_a S K r q sigma T Complex.I h - sigma * √T)
      have hsub : line_a S K r q sigma T Complex.I h - d1_real S K r q sigma T
          = Real.log (1 + (h / S) ^ 2) / 2 / (sigma * √T) := by rw [ha]; ring
      have hsub2 : line_a S K r q sigma T Complex.I h - sigma * √T
          - (d1_real S K r q sigma T - sigma * √T)
          = Real.log (1 + (h / S) ^ 2) / 2 / (sigma * √T) := by rw [ha]; ring
      rw [hsub, abs_of_nonneg heps0] at e1
      rw [hsub2, abs_of_nonneg heps0] at e2
      have e1b := e1.trans (mul_le_mul_of_nonneg_left heps1 (abs_nonneg _))
      have e2b := e2.trans (mul_le_mul_of_nonneg_left heps1 (abs_nonneg _))
      have hrw : line_U c S K r q sigma T Complex.I h
          = Real.exp (-r * T) * (Real.exp ((r - q) * T) * S
              * (phi c (line_a S K r q sigma T Complex.I h) - phi c (d1_real S K r q sigma T))
            - K * (phi c (line_a S K r q sigma T Complex.I h - sigma * √T)
              - phi c (d1_real S K r q sigma T - sigma * √T))) := by
        delta line_U
        simp only [Complex.I_re, mul_zero, add_zero]
        linear_combination (-Real.exp (-r * T)) * hid
      rw [hrw, abs_mul, abs_of_pos hDF]
      have hES : 0 ≤ Real.exp ((r - q) * T) * S := by positivity
      have t1 : |Real.exp ((r - q) * T) * S
          * (phi c (line_a S K r q sigma T Complex.I h) - phi c (d1_real S K r q sigma T))|
          ≤ Real.exp ((r - q) * T) * S * (|c.INV_SQRT_2PI| * ((h / S) ^ 2 / 2 / (sigma * √T))) := by
        rw [abs_mul, abs_of_nonneg hES]
        exact mul_le_mul_of_nonneg_left e1b hES
      have t2 : |K * (phi c (line_a S K r q sigma T Complex.I h - sigma * √T)
          - phi c (d1_real S K r q sigma T - sigma * √T))|
          ≤ K * (|c.INV_SQRT_2PI| * ((h / S) ^ 2 / 2 / (sigma * √T))) := by
        rw [abs_mul, abs_of_pos hK]
        exact mul_le_mul_of_nonneg_left e2b hK.le
      have t3 := (abs_sub _ _).trans (add_le_add t1 t2)
      calc Real.exp (-r * T) * |Real.exp ((r - q) * T) * S
              * (phi c (line_a S K r q sigma T Complex.I h) - phi c (d1_real S K r q sigma T))
            - K * (phi c (line_a S K r q sigma T Complex.I h - sigma * √T)
              - phi c (d1_real S K r q sigma T - sigma * √T))|
          ≤ Real.exp (-r * T) * (Real.exp ((r - q) * T) * S
              * (|c.INV_SQRT_2PI| * ((h / S) ^ 2 / 2 / (sigma * √T)))
            + K * (|c.INV_SQRT_2PI| * ((h / S) ^ 2 / 2 / (sigma * √T)))) :=
            mul_le_mul_of_nonneg_left t3 hDF.le
        _ = Real.exp (-r * T) * (Real.exp ((r - q) * T) * S + K) * |c.INV_SQRT_2PI|
            * ((h / S) ^ 2 / 2 / (sigma * √T)) := by ring
    have hV : |line_V c S K r q sigma T Complex.I h
          - Real.exp (-r * T) * Real.exp ((r - q) * T) * Phi_real c (d1_real S K r q sigma T)|
        ≤ Real.exp (-r * T) * Real.exp ((r - q) * T) * (|c.INV_SQRT_2| / √π)
            * ((h / S) ^ 2 / 2 / (sigma * √T)) := by
      have e1 := Phi_real_lipschitz c (d1_real S K r q sigma T)
        (line_a S K r q sigma T Complex.I h)
      have hsub : line_a S K r q sigma T Complex.I h - d1_real S K r q sigma T
          = Real.log (1 + (h / S) ^ 2) / 2 / (sigma * √T) := by rw [ha]; ring
      rw [hsub, abs_of_nonneg heps0] at e1
      have e1b := e1.trans (mul_le_mul_of_nonneg_left heps1 (by positivity))
      have hDE : 0 ≤ Real.exp (-r * T) * Real.exp ((r - q) * T) := by positivity
      delta line_V
      rw [← mul_sub, abs_mul, abs_of_nonneg hDE, mul_assoc (Real.exp (-r * T) * _)]
      exact mul_le_mul_of_nonneg_left e1b hDE
    -- assembling
    have hsplit : csd_delta c S K r q sigma T h - analytic_delta c S K r q sigma T
        = line_b S K r q sigma T Complex.I h / h * line_U c S K r q sigma T Complex.I h
          + (line_V c S K r q sigma T Complex.I h
            - Real.exp (-r * T) * Real.exp ((r - q) * T) * Phi_real c (d1_real S K r q sigma T)) := by
      rw [csd_delta_eq_line c S K r q sigma T h hT.le, analytic_delta_eq_d1 c S K r q sigma T hK hs hT, ← exp_discount r q T]
      delta line_im
      rw [Complex.I_im]
      field_simp
      ring
    rw [hsplit]
    have hbU : |line_b S K r q sigma T Complex.I h / h * line_U c S K r q sigma T Complex.I h|
        ≤ 1 / (S * (sigma * √T)) * (Real.exp (-r * T) * (Real.exp ((r - q) * T) * S + K)
            * |c.INV_SQRT_2PI| * ((h / S) ^ 2 / 2 / (sigma * √T))) := by
      rw [abs_mul, abs_of_nonneg hbh0]
      exact mul_le_mul hbh1 hU (abs_nonneg _) (by positivity)
    calc |line_b S K r q sigma T Complex.I h / h * line_U c S K r q sigma T Complex.I h
          + (line_V c S K r q sigma T Complex.I h
            - Real.exp (-r * T) * Real.exp ((r - q) * T) * Phi_real c (d1_real S K r q sigma T))|
        ≤ 1 / (S * (sigma * √T)) * (Real.exp (-r * T) * (Real.exp ((r - q) * T) * S + K)
            * |c.INV_SQRT_2PI| * ((h / S) ^ 2 / 2 / (sigma * √T)))
          + Real.exp (-r * T) * Real.exp ((r - q) * T) * (|c.INV_SQRT_2| / √π)
            * ((h / S) ^ 2 / 2 / (sigma * √T)) := (abs_add _ _).trans (add_le_add hbU hV)
      _ = (Real.exp (-r * T) * (Real.exp ((r - q) * T) * S + K) * |c.INV_SQRT_2PI|
              / (S * (sigma * √T))
            + Real.exp (-r * T) * Real.exp ((r - q) * T) * (|c.INV_SQRT_2| / √π))
          * ((h / S) ^ 2 / 2 / (sigma * √T)) := by ring
  -- On scenario1 with `h = 1e-20`, `csd_delta` is within `1e-14` of
  -- `analytic_delta` (exact constants).
  have csd_delta_scenario1_bound :
      |csd_delta exactConsts 100 100 0 0 0.20 1 1e-20
        - analytic_delta exactConsts 100 100 0 0 0.20 1| ≤ 1e-14 := by
    have hb := csd_delta_error_bound exactConsts 100 100 0 0 0.20 1 1e-20
      (by norm_num) (by norm_num) (by norm_num) (by norm_num) (by norm_num)
    refine hb.trans ?_
    obtain ⟨hc2, hc1⟩ := exactConsts_abs_le_one
    have hc2' := abs_nonneg exactConsts.INV_SQRT_2PI
    have hc1' : 0 ≤ |exactConsts.INV_SQRT_2| / √π := by positivity
    have e1 : Real.exp (-0 * 1) = 1 := by simp
    have e2 : Real.exp ((0 - 0) * 1) = 1 := by simp
    rw [e1, e2, Real.sqrt_one]
    generalize |exactConsts.INV_SQRT_2PI| = A at hc2 hc2'
    generalize |exactConsts.INV_SQRT_2| / √π = B at hc1 hc1'
    norm_num
    nlinarith
  -- The limit of `csd_gamma_45` with the exact constants is `analytic_gamma`.
  have tendsto_csd_gamma_45_exact
      (S K r q sigma T : ℝ) (hS : 0 < S) (hK : 0 < K) (hs : 0 < sigma) (hT : 0 < T) :
      Tendsto (fun h => csd_gamma_45 exactConsts S K r q sigma T h) (𝓝[>] 0)
        (𝓝 (analytic_gamma exactConsts S K r q sigma T)) := by
    have h := tendsto_csd_gamma_45 exactConsts S K r q sigma T hS hK hs hT
    have h2pos : (0 : ℝ) < √2 := Real.sqrt_pos.mpr (by norm_num)
    have hval : 2 * exactConsts.INV_SQRT_2 * exactConsts.INV_SQRT_2 * (Real.exp (-q * T)
          * Phi_deriv exactConsts (d1_real S K r q sigma T) / (S * (sigma * √T)))
        = analytic_gamma exactConsts S K r q sigma T := by
      rw [analytic_gamma_eq_d1 exactConsts S K r q sigma T hK hs hT, exp_log_phi_exact,
        Phi_deriv_exact]
      have hc : 2 * exactConsts.INV_SQRT_2 * exactConsts.INV_SQRT_2 = 1 := by
        delta exactConsts
        simp only []
        field_simp
      rw [hc, one_mul]
    rw [hval] at h
    exact h
  have hasDerivAt_line_W
      (c : Consts) (S K r q sigma T t : ℝ) (w : ℂ) (hK : 0 < K) (hre : 0 < S + t * w.re) :
      HasDerivAt (line_W c S K r q sigma T w) (line_W1 c S K r q sigma T w t) t := by
    have ha := hasDerivAt_line_a S K r q sigma T t w hK hre
    have hp1 := (hasDerivAt_Phi_real c (line_a S K r q sigma T w t)).comp t ha
    have hp2 := (hasDerivAt_Phi_real c (line_a S K r q sigma T w t - sigma * √T)).comp t
      (ha.sub_const (sigma * √T))
    have h := ((((hasDerivAt_line_x S t w).const_mul (Real.exp ((r - q) * T))).mul hp1).sub
      (hp2.const_mul K)).const_mul (Real.exp (-r * T))
    convert h using 1
    delta line_W1 line_V line_Q
    simp only [Function.comp]
    ring
  have hasDerivAt_line_Z
      (c : Consts) (S K r q sigma T t : ℝ) (w : ℂ) (hK : 0 < K) (hre : 0 < S + t * w.re) :
      HasDerivAt (line_Z c S K r q sigma T w) (line_Z1 c S K r q sigma T w t) t := by
    have ha := hasDerivAt_line_a S K r q sigma T t w hK hre
    have hp1 := (hasDerivAt_phi c (line_a S K r q sigma T w t)).comp t ha
    exact hp1.const_mul (Real.exp (-r * T) * Real.exp ((r - q) * T))
  have hasDerivAt_line_re
      (c : Consts) (S K r q sigma T t : ℝ) (w : ℂ) (hK : 0 < K) (hre : 0 < S + t * w.re) :
      HasDerivAt (line_re c S K r q sigma T w) (line_re1 c S K r q sigma T w t) t := by
    have hb := hasDerivAt_line_b S K r q sigma T t w hK hre
    have hW := hasDerivAt_line_W c S K r q sigma T t w hK hre
    have hZ := hasDerivAt_line_Z c S K r q sigma T t w hK hre
    exact hW.sub ((hasDerivAt_line_y t w).mul (hb.mul hZ))
  have differentiableAt_line_Q
      (c : Consts) (S K r q sigma T : ℝ) (w : ℂ) (hS : 0 < S) (hK : 0 < K) :
      DifferentiableAt ℝ (line_Q c S K r q sigma T w) 0 := by
    have hre : 0 < S + 0 * w.re := by simpa using hS
    have ha := (hasDerivAt_line_a S K r q sigma T 0 w hK hre).differentiableAt
    have hx := (hasDerivAt_line_x S 0 w).differentiableAt
    have hp1 := ((hasDerivAt_Phi_deriv c (line_a S K r q sigma T w 0)).differentiableAt).comp 0 ha
    have hp2 := ((hasDerivAt_Phi_deriv c (line_a S K r q sigma T w 0 - sigma * √T)).differentiableAt).comp
      0 (ha.sub_const (sigma * √T))
    exact ((((hx.const_mul (Real.exp ((r - q) * T))).mul hp1).sub (hp2.const_mul K)).const_mul
      (Real.exp (-r * T)))
  have differentiableAt_line_bZ
      (c : Consts) (S K r q sigma T : ℝ) (w : ℂ) (hS : 0 < S) (hK : 0 < K) (hs : 0 < sigma) (hT : 0 < T) :
      DifferentiableAt ℝ (fun t => line_b1 S sigma T w t * line_Z c S K r q sigma T w t
        + line_b S K r q sigma T w t * line_Z1 c S K r q sigma T w t) 0 := by
    have hre : 0 < S + 0 * w.re := by simpa using hS
    have ha := (hasDerivAt_line_a S K r q sigma T 0 w hK hre).differentiableAt
    have ha1 := differentiableAt_line_a1 S sigma T w hS hs hT
    have hb := (hasDerivAt_line_b S K r q sigma T 0 w hK hre).differentiableAt
    have hb1 := (hasDerivAt_line_b1_zero S sigma T w hS hs hT).differentiableAt
    have hZ := (hasDerivAt_line_Z c S K r q sigma T 0 w hK hre).differentiableAt
    have hp1 := ((hasDerivAt_phi c (line_a S K r q sigma T w 0)).differentiableAt).comp 0 ha
    have hZ1 : DifferentiableAt ℝ (line_Z1 c S K r q sigma T w) 0 :=
      ((ha.neg.mul hp1).mul ha1).const_mul (Real.exp (-r * T) * Real.exp ((r - q) * T))
    exact (hb1.mul hZ).add (hb.mul hZ1)
  -- The second derivative at `0` of the real part of the pricer along the
  -- imaginary direction.
  have hasDerivAt_line_re1_zero
      (c : Consts) (S K r q sigma T : ℝ) (hS : 0 < S) (hK : 0 < K) (hs : 0 < sigma) (hT : 0 < T) :
      HasDerivAt (line_re1 c S K r q sigma T Complex.I)
        (1 / (S ^ 2 * (sigma * √T)) * line_Q c S K r q sigma T Complex.I 0
        - 2 * (1 / (S * (sigma * √T)) * line_Z c S K r q sigma T Complex.I 0)) 0 := by
    have hre : 0 < S + 0 * Complex.I.re := by simpa using hS
    have hb := hasDerivAt_line_b S K r q sigma T 0 Complex.I hK hre
    have hZ := hasDerivAt_line_Z c S K r q sigma T 0 Complex.I hK hre
    have hV := hasDerivAt_line_V c S K r q sigma T 0 Complex.I hK hre
    have ha1 := hasDerivAt_line_a1_zero S sigma T Complex.I hS hs hT
    have hQ := differentiableAt_line_Q c S K r q sigma T Complex.I hS hK
    have hbZ := differentiableAt_line_bZ c S K r q sigma T Complex.I hS hK hs hT
    have ha10 : line_a1 S sigma T Complex.I 0 = 0 := by
      rw [line_a1_zero S sigma T Complex.I hT.le]
      simp
    have hy0 : (fun t : ℝ => t * Complex.I.im) 0 = 0 := by simp
    have e1 := hV.const_mul Complex.I.re
    have e2 := hasDerivAt_mul_of_eq_zero ha1 hQ ha10
    have e3 := (hb.mul hZ).const_mul Complex.I.im
    have e4 := hasDerivAt_mul_of_eq_zero (hasDerivAt_line_y 0 Complex.I) hbZ hy0
    have h := (e1.add e2).sub (e3.add e4)
    convert h using 1
    simp only [Complex.I_re, Complex.I_im, line_b_zero S K r q sigma T _ hS hK hT.le,
      line_b1_zero S sigma T _ hT.le]
    ring
  -- The limit of `csd_gamma_real` as `h → 0+`, for any value of the constants.
  have tendsto_csd_gamma_real
      (c : Consts) (S K r q sigma T : ℝ) (hS : 0 < S) (hK : 0 < K) (hs : 0 < sigma) (hT : 0 < T) :
      Tendsto (fun h => csd_gamma_real c S K r q sigma T h) (𝓝[>] 0)
        (𝓝 (2 * (Real.exp (-q * T) * phi c (d1_real S K r q sigma T) / (S * (sigma * √T)))
        - Real.exp (-r * T) * (Real.exp ((r - q) * T) * S * Phi_deriv c (d1_real S K r q sigma T)
        - K * Phi_deriv c (d1_real S K r q sigma T - sigma * √T))
        / (S ^ 2 * (sigma * √T)))) := by
    have hev := eventually_spot_re_pos S Complex.I hS
    have hN : ∀ᶠ h in 𝓝 (0 : ℝ),
        HasDerivAt (fun h => line_re c S K r q sigma T Complex.I h
            - line_re c S K r q sigma T Complex.I 0)
          (line_re1 c S K r q sigma T Complex.I h) h := by
      filter_upwards [hev] with h h1
      exact (hasDerivAt_line_re c S K r q sigma T h Complex.I hK h1).sub_const _
    have hN10 : line_re1 c S K r q sigma T Complex.I 0 = 0 := by
      delta line_re1 line_W1
      simp only [line_b_zero S K r q sigma T _ hS hK hT.le, line_a1_zero S sigma T _ hT.le, Complex.I_re]
      ring
    have h := (tendsto_div_sq hN (by simp) hN10
      (hasDerivAt_line_re1_zero c S K r q sigma T hS hK hs hT)).const_mul (-2)
    have hval : -2 * ((1 / (S ^ 2 * (sigma * √T)) * line_Q c S K r q sigma T Complex.I 0
          - 2 * (1 / (S * (sigma * √T)) * line_Z c S K r q sigma T Complex.I 0)) / 2)
        = 2 * (Real.exp (-q * T) * phi c (d1_real S K r q sigma T) / (S * (sigma * √T)))
          - Real.exp (-r * T) * (Real.exp ((r - q) * T) * S * Phi_deriv c (d1_real S K r q sigma T)
              - K * Phi_deriv c (d1_real S K r q sigma T - sigma * √T))
            / (S ^ 2 * (sigma * √T)) := by
      delta line_Q line_Z
      simp only [line_a_zero S K r q sigma T _ hS hK hT.le, ← exp_discount r q T, zero_mul, add_zero]
      ring
    rw [hval] at h
    refine h.congr (fun t => ?_)
    rw [csd_gamma_real_eq_line c S K r q sigma T t hS hK hs hT]
  -- With the exact constants, `csd_gamma_real` converges to twice
  -- `analytic_gamma`.
  have tendsto_csd_gamma_real_exact
      (S K r q sigma T : ℝ) (hS : 0 < S) (hK : 0 < K) (hs : 0 < sigma) (hT : 0 < T) :
      Tendsto (fun h => csd_gamma_real exactConsts S K r q sigma T h) (𝓝[>] 0)
        (𝓝 (2 * analytic_gamma exactConsts S K r q sigma T)) := by
    have h := tendsto_csd_gamma_real exactConsts S K r q sigma T hS hK hs hT
    have hid := phi_d2_identity exactConsts S K r q sigma T hS hK hs hT
    have hval : 2 * (Real.exp (-q * T) * phi exactConsts (d1_real S K r q sigma T)
            / (S * (sigma * √T)))
          - Real.exp (-r * T) * (Real.exp ((r - q) * T) * S
                * Phi_deriv exactConsts (d1_real S K r q sigma T)
              - K * Phi_deriv exactConsts (d1_real S K r q sigma T - sigma * √T))
            / (S ^ 2 * (sigma * √T))
        = 2 * analytic_gamma exactConsts S K r q sigma T := by
      rw [analytic_gamma_eq_d1 exactConsts S K r q sigma T hK hs hT, exp_log_phi_exact,
        Phi_deriv_exact, Phi_deriv_exact]
      have hz : Real.exp ((r - q) * T) * S * phi exactConsts (d1_real S K r q sigma T)
          - K * phi exactConsts (d1_real S K r q sigma T - sigma * √T) = 0 := by
        linear_combination (-1 : ℝ) * hid
      rw [hz]
      ring
    rw [hval] at h
    exact h
  have erfc_antitone :
      Antitone erfc := by
    apply antitone_of_deriv_nonpos
    · exact fun x => (hasDerivAt_erfc x).differentiableAt
    · intro x
      rw [(hasDerivAt_erfc x).deriv]
      have : 0 ≤ 2 / √π * Real.exp (-x ^ 2) := by positivity
      linarith
  exact ⟨hasDerivAt_erfc, hasDerivAt_bs_price_call, hasDerivAt_analytic_delta, tendsto_csd_delta,
    csd_delta_scenario1_bound, tendsto_csd_gamma_45_exact, tendsto_csd_gamma_real_exact,
    erfc_antitone⟩

/-! ## The integral form of `erfc` and the range of `Phi_real` -/

/-- The integral form of `erfc`, its limit at infinity, the range of `Phi_real`, and the
monotonicity and bounds of the real pricer that follow from them. -/
theorem erfc_integral_facts :
    (∀ (x : ℝ),
        erfc x = 1 - 2 / √π * ∫ t in (0 : ℝ)..x, Real.exp (-t ^ 2)) ∧
    (∀ (c : Consts) (z : ℝ),
        0 ≤ Phi_real c z) ∧
    (∀ (c : Consts) (z : ℝ),
        Phi_real c z ≤ 1) ∧
    (∀ (S K r q sigma T : ℝ),
        0 < S →
        0 < K →
        0 < sigma →
        0 < T →
        0 ≤ bs_price_call exactConsts S K r q sigma T) ∧
    (∀ (c : Consts) (S K r q sigma T : ℝ),
        0 < S →
        0 < K →
        0 ≤ sigma →
        0 ≤ T →
        bs_price_call c S K r q sigma T ≤ S * Real.exp (-q * T)) := by
  obtain ⟨-, -, -, -, -, -, -, -, -, -, -, -, -, -, -, -, -, -, -, bs_price_call_eq_d1,
      analytic_delta_eq_d1, -, exp_discount, -⟩ := real_pricer_facts
  obtain ⟨sigmaT_ne_zero_iff, -, -, -, -, erfc_neg, exactConsts_INV_SQRT_2_pos,
      tendsto_d1_real_zero, -, bs_price_call_degenerate_eq, -, -, -, -, -, -, -, -, -, -, -
      ⟩ := scenario_facts
  obtain ⟨hasDerivAt_erfc, hasDerivAt_bs_price_call, -, -, -, -, -, erfc_antitone
      ⟩ := pricer_calculus_facts
  -- The integral form of `erfc`: both sides have the same derivative and agree at `0`.
  have erfc_eq_integral (x : ℝ) :
      erfc x = 1 - 2 / √π * ∫ t in (0 : ℝ)..x, Real.exp (-t ^ 2) := by
    have hcont : Continuous fun t : ℝ => Real.exp (-t ^ 2) := by fun_prop
    have hd : ∀ y : ℝ, HasDerivAt
        (fun y => erfc y - (1 - 2 / √π * ∫ t in (0 : ℝ)..y, Real.exp (-t ^ 2))) 0 y := by
      intro y
      have hint := (hcont.integral_hasStrictDerivAt 0 y).hasDerivAt
      have h := (hasDerivAt_erfc y).sub ((hint.const_mul (2 / √π)).const_sub 1)
      convert h using 1
      ring
    have hconst := is_const_of_deriv_eq_zero (fun y => (hd y).differentiableAt)
      (fun y => (hd y).deriv) x 0
    have h0 : erfc 0 = 1 := by
      delta erfc
      simp
    simp only [intervalIntegral.integral_same, mul_zero, sub_zero, h0, sub_self] at hconst
    linarith
  have tendsto_erfc_atTop :
      Tendsto erfc atTop (𝓝 0) := by
    have hint : MeasureTheory.IntegrableOn (fun t : ℝ => Real.exp (-t ^ 2)) (Set.Ioi 0) := by
      have := (integrable_exp_neg_mul_sq (b := 1) one_pos).integrableOn (s := Set.Ioi 0)
      simpa using this
    have h := MeasureTheory.intervalIntegral_tendsto_integral_Ioi (0 : ℝ) hint tendsto_id
    have hval : ∫ t in Set.Ioi (0 : ℝ), Real.exp (-t ^ 2) = √π / 2 := by
      have := integral_gaussian_Ioi 1
      simpa using this
    rw [hval] at h
    have hpi : √π ≠ 0 := (Real.sqrt_pos.mpr Real.pi_pos).ne'
    have h2 := (h.const_mul (2 / √π)).const_sub 1
    have h0 : (1 : ℝ) - 2 / √π * (√π / 2) = 0 := by field_simp
    rw [h0] at h2
    have h3 : Tendsto (fun x : ℝ => 1 - 2 / √π * ∫ t in (0 : ℝ)..x, Real.exp (-t ^ 2))
        atTop (𝓝 0) := h2
    exact h3.congr fun x => (erfc_eq_integral x).symm
  have erfc_nonneg (x : ℝ) :
      0 ≤ erfc x :=
    erfc_antitone.le_of_tendsto tendsto_erfc_atTop x
  have erfc_le_two (x : ℝ) :
      erfc x ≤ 2 := by
    have h := erfc_nonneg (-x)
    rw [erfc_neg] at h
    linarith
  have Phi_real_nonneg (c : Consts) (z : ℝ) :
      0 ≤ Phi_real c z := by
    have := erfc_nonneg (-z * c.INV_SQRT_2)
    delta Phi_real
    linarith
  have Phi_real_le_one (c : Consts) (z : ℝ) :
      Phi_real c z ≤ 1 := by
    have := erfc_le_two (-z * c.INV_SQRT_2)
    delta Phi_real
    linarith
  -- No-arbitrage bounds of the real pricer
  have tendsto_Phi_real_atBot (c : Consts) (hc : 0 < c.INV_SQRT_2) :
      Tendsto (Phi_real c) atBot (𝓝 0) := by
    have h1 : Tendsto (fun z : ℝ => -z * c.INV_SQRT_2) atBot atTop := by
      have : Tendsto (fun z : ℝ => -z) atBot atTop := tendsto_neg_atBot_atTop
      exact this.atTop_mul_const hc
    have h2 := (tendsto_erfc_atTop.comp h1).const_mul (0.5 : ℝ)
    rw [mul_zero] at h2
    exact h2
  have tendsto_bs_price_call_zero (K r q sigma T : ℝ) (hK : 0 < K) (hs : 0 < sigma) (hT : 0 < T) :
      Tendsto (fun s => bs_price_call exactConsts s K r q sigma T) (𝓝[>] 0) (𝓝 0) := by
    have hd := tendsto_d1_real_zero K r q sigma T hK hs hT
    have hP := tendsto_Phi_real_atBot exactConsts exactConsts_INV_SQRT_2_pos
    have h1 : Tendsto (fun s => Phi_real exactConsts (d1_real s K r q sigma T)) (𝓝[>] 0) (𝓝 0) :=
      hP.comp hd
    have h2 : Tendsto (fun s => Phi_real exactConsts (d1_real s K r q sigma T - sigma * √T))
        (𝓝[>] 0) (𝓝 0) :=
      hP.comp (tendsto_atBot_add_const_right _ (-(sigma * √T)) hd)
    have hs0 : Tendsto (fun s : ℝ => s * Real.exp ((r - q) * T)) (𝓝[>] 0) (𝓝 0) := by
      have : Tendsto (fun s : ℝ => s * Real.exp ((r - q) * T)) (𝓝 0)
          (𝓝 (0 * Real.exp ((r - q) * T))) := tendsto_id.mul_const _
      rw [zero_mul] at this
      exact this.mono_left nhdsWithin_le_nhds
    have h := ((hs0.mul h1).sub (h2.const_mul K)).const_mul (Real.exp (-r * T))
    simp only [mul_zero, sub_zero] at h
    refine h.congr (fun s => ?_)
    rw [bs_price_call_eq_d1 exactConsts s K r q sigma T hK hs hT]
  have bs_price_call_monotoneOn (K r q sigma T : ℝ) (hK : 0 < K) (hs : 0 < sigma) (hT : 0 < T) :
      MonotoneOn (fun s => bs_price_call exactConsts s K r q sigma T) (Set.Ioi 0) := by
    have hd : ∀ x ∈ Set.Ioi (0 : ℝ),
        HasDerivAt (fun s => bs_price_call exactConsts s K r q sigma T)
          (analytic_delta exactConsts x K r q sigma T) x :=
      fun x hx => hasDerivAt_bs_price_call x K r q sigma T hx hK hs hT
    apply monotoneOn_of_deriv_nonneg (convex_Ioi 0)
    · exact fun x hx => (hd x hx).continuousAt.continuousWithinAt
    · rw [interior_Ioi]
      exact fun x hx => (hd x hx).differentiableAt.differentiableWithinAt
    · rw [interior_Ioi]
      intro x hx
      rw [(hd x hx).deriv, analytic_delta_eq_d1 exactConsts x K r q sigma T hK hs hT]
      exact mul_nonneg (Real.exp_pos _).le (Phi_real_nonneg exactConsts _)
  -- With the exact constants the closed-form price is never negative.
  have bs_price_call_nonneg_exact
      (S K r q sigma T : ℝ) (hS : 0 < S) (hK : 0 < K) (hs : 0 < sigma) (hT : 0 < T) :
      0 ≤ bs_price_call exactConsts S K r q sigma T := by
    have hmono := bs_price_call_monotoneOn K r q sigma T hK hs hT
    have hlim := tendsto_bs_price_call_zero K r q sigma T hK hs hT
    refine le_of_tendsto hlim ?_
    have hmem : Set.Ioo (0 : ℝ) S ∈ 𝓝[>] (0 : ℝ) := Ioo_mem_nhdsWithin_Ioi (by simp [hS])
    filter_upwards [hmem] with s hs0
    exact hmono hs0.1 hS hs0.2.le
  have bs_price_call_le_spot
      (c : Consts) (S K r q sigma T : ℝ) (hS : 0 < S) (hK : 0 < K) (hs : 0 ≤ sigma) (hT : 0 ≤ T) :
      bs_price_call c S K r q sigma T ≤ S * Real.exp (-q * T) := by
    have hDF : 0 < Real.exp (-r * T) := Real.exp_pos _
    have hE : 0 < Real.exp (-q * T) := Real.exp_pos _
    have hF : 0 < S * Real.exp ((r - q) * T) := by positivity
    by_cases hv : sigma * √T = 0
    · rw [bs_price_call_degenerate_eq c S K r q sigma T hT hv]
      apply max_le
      · have : 0 < K * Real.exp (-r * T) := mul_pos hK hDF
        linarith
      · positivity
    · obtain ⟨h1, h2⟩ := (sigmaT_ne_zero_iff hs hT).mp hv
      rw [bs_price_call_eq_d1 c S K r q sigma T hK h1 h2, ← exp_discount r q T]
      have e1 := Phi_real_le_one c (d1_real S K r q sigma T)
      have e2 := Phi_real_nonneg c (d1_real S K r q sigma T - sigma * √T)
      have e3 : S * Real.exp ((r - q) * T) * Phi_real c (d1_real S K r q sigma T)
          ≤ S * Real.exp ((r - q) * T) * 1 := mul_le_mul_of_nonneg_left e1 hF.le
      have e4 : 0 ≤ K * Phi_real c (d1_real S K r q sigma T - sigma * √T) :=
        mul_nonneg hK.le e2
      calc Real.exp (-r * T) * (S * Real.exp ((r - q) * T) * Phi_real c (d1_real S K r q sigma T)
            - K * Phi_real c (d1_real S K r q sigma T - sigma * √T))
          ≤ Real.exp (-r * T) * (S * Real.exp ((r - q) * T) * 1) :=
            mul_le_mul_of_nonneg_left (by linarith) hDF.le
        _ = S * (Real.exp (-r * T) * Real.exp ((r - q) * T)) := by ring
  exact ⟨erfc_eq_integral, Phi_real_nonneg, Phi_real_le_one, bs_price_call_nonneg_exact, bs_price_call_le_spot⟩

/-! ## C1: the typed CDF dispatcher -/

/-- C1. For every complex `z = zr + i·zi`, `Phi_t<complex>(z)` has real part
`Phi_real(zr)` and imaginary part `zi · phi(zr)`; for every real `z`,
`Phi_t<double>(z) = Phi_real(z)`, which is `0.5·erfc(−z·INV_SQRT_2)` and, with
`INV_SQRT_2` at its exact value, `0.5·erfc(−z/√2)`. -/
theorem Phi_t_dispatch :
    (∀ (c : Consts) (z : ℂ), (Phi_t_complex c z).re = Phi_real c z.re ∧
        (Phi_t_complex c z).im = z.im * phi c z.re) ∧
    (∀ (c : Consts) (z : ℝ), Phi_t_double c z = Phi_real c z ∧
        Phi_real c z = 0.5 * erfc (-z * c.INV_SQRT_2)) ∧
    (∀ z : ℝ, Phi_t_double exactConsts z = 0.5 * erfc (-z / √2)) := by
  refine ⟨fun c z => ⟨rfl, rfl⟩, fun c z => ⟨rfl, rfl⟩, fun z => ?_⟩
  delta Phi_t_double Phi_real exactConsts
  simp only []
  congr 2
  ring

/-! ## C2: real/complex consistency of the pricer -/

/-- C2. For `S, K, σ, T > 0` and real `r, q`, `bs_price_call_t` at the inputs
promoted with zero imaginary part has imaginary part `0` and real part
`bs_price_call(S,K,r,q,σ,T)`. -/
theorem bs_price_call_t_real_consistency (c : Consts) (S K r q sigma T : ℝ)
    (hS : 0 < S) (hK : 0 < K) (hs : 0 < sigma) (hT : 0 < T) :
    (bs_price_call_t c (cplx S) (cplx K) (cplx r) (cplx q) (cplx sigma) (cplx T)).im = 0 ∧
    (bs_price_call_t c (cplx S) (cplx K) (cplx r) (cplx q) (cplx sigma) (cplx T)).re
      = bs_price_call c S K r q sigma T := by
  obtain ⟨-, -, -, -, -, -, -, bs_price_call_eq_spec, bs_price_call_t_ofReal, -, -, -, -, -, -,
      -, -, -, -, -, -, -, -, -⟩ := real_pricer_facts
  rw [bs_price_call_t_ofReal c S K r q sigma T hS hK hT,
    bs_price_call_eq_spec c S K r q sigma T hK hs hT]
  exact ⟨Complex.ofReal_im _, Complex.ofReal_re _⟩

/-- C2 at scenario1 (`S = K = 100`, `r = q = 0`, `σ = 0.20`, `T = 1`). -/
theorem bs_price_call_t_real_consistency_scenario1 :
    (bs_price_call_t literalConsts (cplx 100) (cplx 100) (cplx 0) (cplx 0) (cplx 0.20)
        (cplx 1)).im = 0 ∧
    (bs_price_call_t literalConsts (cplx 100) (cplx 100) (cplx 0) (cplx 0) (cplx 0.20)
        (cplx 1)).re = bs_price_call literalConsts 100 100 0 0 0.20 1 :=
  bs_price_call_t_real_consistency literalConsts 100 100 0 0 0.20 1
    (by norm_num) (by norm_num) (by norm_num) (by norm_num)

/-! ## C8: closed form of the real pricer -/

/-- C8. For `S, K, σ, T > 0` and real `r, q`, `bs_price_call` is
`DF·(F·Φ(d1) − K·Φ(d2))` with `DF = exp(−rT)`, `F = S·exp((r−q)T)`,
`d1 = (ln(F/K) + ½σ²T)/(σ√T)`, `d2 = d1 − σ√T`; the near-the-money branch is
taken exactly when `|F/K − 1| ≤ 1e-12`, and its `log1p((F−K)/K)` is the same
number as the `log(F/K)` of the other branch. -/
theorem bs_price_call_closed_form (c : Consts) (S K r q sigma T : ℝ)
    (hS : 0 < S) (hK : 0 < K) (hs : 0 < sigma) (hT : 0 < T) :
    bs_price_call c S K r q sigma T
      = Real.exp (-r * T) * (S * Real.exp ((r - q) * T)
            * Phi_real c ((Real.log (S * Real.exp ((r - q) * T) / K) + 0.5 * sigma ^ 2 * T)
                / (sigma * √T))
          - K * Phi_real c ((Real.log (S * Real.exp ((r - q) * T) / K) + 0.5 * sigma ^ 2 * T)
                / (sigma * √T) - sigma * √T)) ∧
    ln_F_over_K (S * Real.exp ((r - q) * T)) K
      = (if |S * Real.exp ((r - q) * T) / K - 1| ≤ 1e-12
          then log1p ((S * Real.exp ((r - q) * T) - K) / K)
          else Real.log (S * Real.exp ((r - q) * T) / K)) ∧
    log1p ((S * Real.exp ((r - q) * T) - K) / K)
      = Real.log (S * Real.exp ((r - q) * T) / K) ∧
    0 < S * Real.exp ((r - q) * T) / K := by
  obtain ⟨-, -, log1p_eq, -, -, -, -, bs_price_call_eq_spec, -, -, -, -, -, -, -, -, -, -, -, -,
      -, -, -, -⟩ := real_pricer_facts
  refine ⟨?_, ?_, log1p_eq _ _ hK.ne', by positivity⟩
  · rw [bs_price_call_eq_spec c S K r q sigma T hK hs hT]
    rfl
  · have hx : (S * Real.exp ((r - q) * T) - K) / K = S * Real.exp ((r - q) * T) / K - 1 := by
      field_simp
    delta ln_F_over_K
    simp only [if_pos hK, hx]

/-- C8 at scenario1, where `F = K` and the near-the-money branch runs. -/
theorem bs_price_call_closed_form_scenario1 :
    bs_price_call literalConsts 100 100 0 0 0.20 1
      = Real.exp (-0 * 1) * (100 * Real.exp ((0 - 0) * 1)
            * Phi_real literalConsts
                ((Real.log (100 * Real.exp ((0 - 0) * 1) / 100) + 0.5 * 0.20 ^ 2 * 1)
                  / (0.20 * √1))
          - 100 * Phi_real literalConsts
                ((Real.log (100 * Real.exp ((0 - 0) * 1) / 100) + 0.5 * 0.20 ^ 2 * 1)
                  / (0.20 * √1) - 0.20 * √1)) ∧
    ln_F_over_K (100 * Real.exp ((0 - 0) * 1)) 100
      = (if |100 * Real.exp ((0 - 0) * 1) / 100 - 1| ≤ 1e-12
          then log1p ((100 * Real.exp ((0 - 0) * 1) - 100) / 100)
          else Real.log (100 * Real.exp ((0 - 0) * 1) / 100)) ∧
    log1p ((100 * Real.exp ((0 - 0) * 1) - 100) / 100)
      = Real.log (100 * Real.exp ((0 - 0) * 1) / 100) ∧
    0 < (100 : ℝ) * Real.exp ((0 - 0) * 1) / 100 :=
  bs_price_call_closed_form literalConsts 100 100 0 0 0.20 1
    (by norm_num) (by norm_num) (by norm_num) (by norm_num)

/-! ## C9: the degenerate case of the real pricer -/

/-- C9. For all real inputs with `σ·√(max T 0) = 0`, which is the case exactly
when `σ = 0` or `T ≤ 0`, `bs_price_call` returns `exp(−rT)·max(F − K, 0)` with
`F = S·exp((r−q)T)` and executes no division and no logarithm. -/
theorem bs_price_call_degenerate (c : Consts) (S K r q sigma T : ℝ)
    (hdeg : sigma * √(max T 0) = 0) :
    bs_price_call c S K r q sigma T
      = Real.exp (-r * T) * max (S * Real.exp ((r - q) * T) - K) 0 ∧
    bs_price_call_ops S K r q sigma T = [] ∧
    (sigma * √(max T 0) = 0 ↔ sigma = 0 ∨ T ≤ 0) := by
  obtain ⟨-, -, -, -, -, sigmaT_eq_zero_iff, -, -, -, -, -, -, -, -, -, -, -, -, -, -, -, -, -, -
      ⟩ := real_pricer_facts
  refine ⟨?_, ?_, sigmaT_eq_zero_iff sigma T⟩
  · delta bs_price_call
    simp only [if_pos hdeg]
  · delta bs_price_call_ops
    simp only [if_pos hdeg]

/-- C9 at an expired at-the-money option (`T = 0`): the value is the intrinsic
value and no division or logarithm runs. -/
theorem bs_price_call_degenerate_expired :
    bs_price_call literalConsts 100 100 0 0 0.20 0
      = Real.exp (-0 * 0) * max (100 * Real.exp ((0 - 0) * 0) - 100) 0 ∧
    bs_price_call_ops 100 100 0 0 0.20 0 = [] ∧
    ((0.20 : ℝ) * √(max 0 0) = 0 ↔ (0.20 : ℝ) = 0 ∨ (0 : ℝ) ≤ 0) :=
  bs_price_call_degenerate literalConsts 100 100 0 0 0.20 0 (by simp)

/-! ## C10: specification of `analytic_delta` -/

/-- C10. For `S, K > 0`, `σ, T ≥ 0` and real `r, q`: when `σ√T ≠ 0`,
`analytic_delta` returns `exp(−qT)·Φ(d1)` with
`d1 = (ln(F/K) + ½σ²T)/(σ√T)`; when `σ√T = 0` it returns `exp(−qT)` if `F > K`
and `0` otherwise (also when `F = K`), where `F = S·exp((r−q)T)`. -/
theorem analytic_delta_spec (c : Consts) (S K r q sigma T : ℝ)
    (hS : 0 < S) (hK : 0 < K) (hs : 0 ≤ sigma) (hT : 0 ≤ T) :
    (sigma * √T ≠ 0 →
      analytic_delta c S K r q sigma T
        = Real.exp (-q * T) * Phi_real c
            ((Real.log (S * Real.exp ((r - q) * T) / K) + 0.5 * sigma ^ 2 * T)
              / (sigma * √T))) ∧
    (sigma * √T = 0 →
      analytic_delta c S K r q sigma T
        = (if S * Real.exp ((r - q) * T) > K then Real.exp (-q * T) else 0)) ∧
    (sigma * √T = 0 → S * Real.exp ((r - q) * T) = K →
      analytic_delta c S K r q sigma T = 0) ∧
    0 < S * Real.exp ((r - q) * T) / K ∧ 0 ≤ sigma * √T := by
  obtain ⟨-, -, -, ln_F_over_K_eq, max_eq_of_nonneg, -, -, -, -, -, -, -, -, -, -, -, -, -, -, -,
      -, -, -, -⟩ := real_pricer_facts
  refine ⟨fun hv => ?_, fun hv => ?_, fun hv hFK => ?_, by positivity, by positivity⟩
  · delta analytic_delta
    simp only [max_eq_of_nonneg hT, if_neg hv, ln_F_over_K_eq _ _ hK]
    ring_nf
  · delta analytic_delta
    simp only [max_eq_of_nonneg hT, if_pos hv]
  · delta analytic_delta
    simp only [max_eq_of_nonneg hT, if_pos hv, hFK, gt_iff_lt, lt_irrefl, if_false]

/-- C10 at scenario1 (`S = K = 100`, `r = q = 0`, `σ = 0.20`, `T = 1`). -/
theorem analytic_delta_spec_scenario1 :
    ((0.20 : ℝ) * √1 ≠ 0 →
      analytic_delta literalConsts 100 100 0 0 0.20 1
        = Real.exp (-0 * 1) * Phi_real literalConsts
            ((Real.log (100 * Real.exp ((0 - 0) * 1) / 100) + 0.5 * 0.20 ^ 2 * 1)
              / (0.20 * √1))) ∧
    ((0.20 : ℝ) * √1 = 0 →
      analytic_delta literalConsts 100 100 0 0 0.20 1
        = (if 100 * Real.exp ((0 - 0) * 1) > 100 then Real.exp (-0 * 1) else 0)) ∧
    ((0.20 : ℝ) * √1 = 0 → 100 * Real.exp ((0 - 0) * 1) = 100 →
      analytic_delta literalConsts 100 100 0 0 0.20 1 = 0) ∧
    0 < (100 : ℝ) * Real.exp ((0 - 0) * 1) / 100 ∧ 0 ≤ (0.20 : ℝ) * √1 :=
  analytic_delta_spec literalConsts 100 100 0 0 0.20 1
    (by norm_num) (by norm_num) (by norm_num) (by norm_num)

/-! ## C6: `analytic_delta` is the derivative that FFD Delta approximates -/

/-- C6. For `S, K, σ, T > 0` and real `r, q`, with the constants at their exact
values, `s ↦ bs_price_call(s,K,r,q,σ,T)` is differentiable at `S` with derivative
`analytic_delta(S,K,r,q,σ,T)`, and `ffd_delta(S,…,h) = (C(S+h) − C(S))/h`
converges to `analytic_delta(S,…)` as `h → 0+`. -/
theorem analytic_delta_is_spot_derivative (S K r q sigma T : ℝ) (hS : 0 < S) (hK : 0 < K)
    (hs : 0 < sigma) (hT : 0 < T) :
    HasDerivAt (fun s => bs_price_call exactConsts s K r q sigma T)
      (analytic_delta exactConsts S K r q sigma T) S ∧
    Tendsto (fun h => ffd_delta exactConsts S K r q sigma T h) (𝓝[>] 0)
      (𝓝 (analytic_delta exactConsts S K r q sigma T)) := by
  obtain ⟨-, -, -, -, -, -, -, -, -, -, -, -, -, -, -, -, -, -, -, -, -, -, -,
      tendsto_forward_diff⟩ := real_pricer_facts
  obtain ⟨-, hasDerivAt_bs_price_call, -, -, -, -, -, -⟩ := pricer_calculus_facts
  have hd := hasDerivAt_bs_price_call S K r q sigma T hS hK hs hT
  refine ⟨hd, ?_⟩
  have h := tendsto_forward_diff hd
  refine h.congr (fun t => ?_)
  delta ffd_delta
  simp only []

/-- C6 at scenario1 (`S = K = 100`, `r = q = 0`, `σ = 0.20`, `T = 1`). -/
theorem analytic_delta_is_spot_derivative_scenario1 :
    HasDerivAt (fun s => bs_price_call exactConsts s 100 0 0 0.20 1)
      (analytic_delta exactConsts 100 100 0 0 0.20 1) 100 ∧
    Tendsto (fun h => ffd_delta exactConsts 100 100 0 0 0.20 1 h) (𝓝[>] 0)
      (𝓝 (analytic_delta exactConsts 100 100 0 0 0.20 1)) :=
  analytic_delta_is_spot_derivative 100 100 0 0 0.20 1
    (by norm_num) (by norm_num) (by norm_num) (by norm_num)

/-! ## C7: `analytic_gamma` is the derivative that FFD Gamma approximates -/

/-- C7. For `S, K, σ, T > 0` and real `r, q`, with the constants at their exact
values, `s ↦ analytic_delta(s,K,r,q,σ,T)` is differentiable at `S` with derivative
`analytic_gamma(S,K,r,q,σ,T)`, and
`ffd_gamma(S,…,h) = (C(S+2h) − 2·C(S+h) + C(S))/h²` converges to
`analytic_gamma(S,…)` as `h → 0+`. -/
theorem analytic_gamma_is_delta_derivative (S K r q sigma T : ℝ) (hS : 0 < S) (hK : 0 < K)
    (hs : 0 < sigma) (hT : 0 < T) :
    HasDerivAt (fun s => analytic_delta exactConsts s K r q sigma T)
      (analytic_gamma exactConsts S K r q sigma T) S ∧
    Tendsto (fun h => ffd_gamma exactConsts S K r q sigma T h) (𝓝[>] 0)
      (𝓝 (analytic_gamma exactConsts S K r q sigma T)) := by
  obtain ⟨-, -, -, -, -, -, -, -, -, -, -, -, -, -, -, -, tendsto_second_forward_diff, -, -, -,
      -, -, -, -⟩ := real_pricer_facts
  obtain ⟨-, hasDerivAt_bs_price_call, hasDerivAt_analytic_delta, -, -, -, -, -
      ⟩ := pricer_calculus_facts
  refine ⟨hasDerivAt_analytic_delta S K r q sigma T hS hK hs hT, ?_⟩
  have hnear : ∀ᶠ x in 𝓝 S, HasDerivAt (fun s => bs_price_call exactConsts s K r q sigma T)
      (analytic_delta exactConsts x K r q sigma T) x := by
    filter_upwards [eventually_gt_nhds hS] with x hx
    exact hasDerivAt_bs_price_call x K r q sigma T hx hK hs hT
  have h := tendsto_second_forward_diff hnear
    (hasDerivAt_analytic_delta S K r q sigma T hS hK hs hT)
  refine h.congr (fun t => ?_)
  delta ffd_gamma
  simp only []
  norm_num

/-- C7 at scenario1 (`S = K = 100`, `r = q = 0`, `σ = 0.20`, `T = 1`). -/
theorem analytic_gamma_is_delta_derivative_scenario1 :
    HasDerivAt (fun s => analytic_delta exactConsts s 100 0 0 0.20 1)
      (analytic_gamma exactConsts 100 100 0 0 0.20 1) 100 ∧
    Tendsto (fun h => ffd_gamma exactConsts 100 100 0 0 0.20 1 h) (𝓝[>] 0)
      (𝓝 (analytic_gamma exactConsts 100 100 0 0 0.20 1)) :=
  analytic_gamma_is_delta_derivative 100 100 0 0 0.20 1
    (by norm_num) (by norm_num) (by norm_num) (by norm_num)

/-! ## C3: CSD Delta -/

/-- C3. `csd_delta(S,K,r,q,σ,T,h) = Im[bs_price_call_t(S+ih, K, r, q, σ, T)]/h`,
and for `S, K, σ, T > 0` and real `r, q` it converges to
`analytic_delta(S,K,r,q,σ,T)` as `h → 0+` (for any value of the constants, in
particular the exact ones); on scenario1 with `h = 1e-20` it is within `1e-14`
of `analytic_delta` (exact constants). -/
theorem csd_delta_recovers_analytic_delta (S K r q sigma T : ℝ) (hS : 0 < S) (hK : 0 < K)
    (hs : 0 < sigma) (hT : 0 < T) :
    (∀ (c : Consts) (h : ℝ), csd_delta c S K r q sigma T h
        = (bs_price_call_t c ⟨S, h⟩ (cplx K) (cplx r) (cplx q) (cplx sigma) (cplx T)).im / h) ∧
    (∀ c : Consts, Tendsto (fun h => csd_delta c S K r q sigma T h) (𝓝[>] 0)
        (𝓝 (analytic_delta c S K r q sigma T))) ∧
    Tendsto (fun h => csd_delta exactConsts S K r q sigma T h) (𝓝[>] 0)
        (𝓝 (analytic_delta exactConsts S K r q sigma T)) ∧
    |csd_delta exactConsts 100 100 0 0 0.20 1 1e-20
        - analytic_delta exactConsts 100 100 0 0 0.20 1| ≤ 1e-14 := by
  obtain ⟨-, -, -, tendsto_csd_delta, csd_delta_scenario1_bound, -, -, -⟩ := pricer_calculus_facts
  exact ⟨fun _ _ => rfl, fun c => tendsto_csd_delta c S K r q sigma T hS hK hs hT,
    tendsto_csd_delta exactConsts S K r q sigma T hS hK hs hT, csd_delta_scenario1_bound⟩

/-- C3 at scenario1 (`S = K = 100`, `r = q = 0`, `σ = 0.20`, `T = 1`). -/
theorem csd_delta_recovers_analytic_delta_scenario1 :
    (∀ (c : Consts) (h : ℝ), csd_delta c 100 100 0 0 0.20 1 h
        = (bs_price_call_t c ⟨100, h⟩ (cplx 100) (cplx 0) (cplx 0) (cplx 0.20) (cplx 1)).im / h) ∧
    (∀ c : Consts, Tendsto (fun h => csd_delta c 100 100 0 0 0.20 1 h) (𝓝[>] 0)
        (𝓝 (analytic_delta c 100 100 0 0 0.20 1))) ∧
    Tendsto (fun h => csd_delta exactConsts 100 100 0 0 0.20 1 h) (𝓝[>] 0)
        (𝓝 (analytic_delta exactConsts 100 100 0 0 0.20 1)) ∧
    |csd_delta exactConsts 100 100 0 0 0.20 1 1e-20
        - analytic_delta exactConsts 100 100 0 0 0.20 1| ≤ 1e-14 :=
  csd_delta_recovers_analytic_delta 100 100 0 0 0.20 1
    (by norm_num) (by norm_num) (by norm_num) (by norm_num)

/-! ## C5: CSD Gamma, rotated form -/

/-- C5. `csd_gamma_45(S,K,r,q,σ,T,h)` is
`Im[bs_price_call_t(S+hω,…) + bs_price_call_t(S−hω,…)]/h²` with
`ω = (INV_SQRT_2, INV_SQRT_2)`, which is `(1+i)/√2` for the exact constant, the
other parameters promoted with zero imaginary part; for `S, K, σ, T > 0` and
real `r, q`, with the constants at their exact values, it converges to
`analytic_gamma(S,K,r,q,σ,T)` as `h → 0+`. -/
theorem csd_gamma_45_converges (S K r q sigma T : ℝ) (hS : 0 < S) (hK : 0 < K)
    (hs : 0 < sigma) (hT : 0 < T) :
    (∀ (c : Consts) (h : ℝ), csd_gamma_45 c S K r q sigma T h
        = (bs_price_call_t c (cplx S + (h : ℂ) * ⟨c.INV_SQRT_2, c.INV_SQRT_2⟩)
              (cplx K) (cplx r) (cplx q) (cplx sigma) (cplx T)
            + bs_price_call_t c (cplx S - (h : ℂ) * ⟨c.INV_SQRT_2, c.INV_SQRT_2⟩)
              (cplx K) (cplx r) (cplx q) (cplx sigma) (cplx T)).im / (h * h)) ∧
    (⟨exactConsts.INV_SQRT_2, exactConsts.INV_SQRT_2⟩ : ℂ) = (1 + Complex.I) / ((√2 : ℝ) : ℂ) ∧
    Tendsto (fun h => csd_gamma_45 exactConsts S K r q sigma T h) (𝓝[>] 0)
      (𝓝 (analytic_gamma exactConsts S K r q sigma T)) := by
  obtain ⟨-, -, -, -, -, -, -, -, -, -, -, -, -, -, -, -, -, -, -, -, -, -, -, -, -, exact_omega,
      -, -⟩ := complex_spot_facts
  obtain ⟨-, -, -, -, -, tendsto_csd_gamma_45_exact, -, -⟩ := pricer_calculus_facts
  exact ⟨fun _ _ => rfl, exact_omega, tendsto_csd_gamma_45_exact S K r q sigma T hS hK hs hT⟩

/-- C5 at scenario1 (`S = K = 100`, `r = q = 0`, `σ = 0.20`, `T = 1`). -/
theorem csd_gamma_45_converges_scenario1 :
    (∀ (c : Consts) (h : ℝ), csd_gamma_45 c 100 100 0 0 0.20 1 h
        = (bs_price_call_t c (cplx 100 + (h : ℂ) * ⟨c.INV_SQRT_2, c.INV_SQRT_2⟩)
              (cplx 100) (cplx 0) (cplx 0) (cplx 0.20) (cplx 1)
            + bs_price_call_t c (cplx 100 - (h : ℂ) * ⟨c.INV_SQRT_2, c.INV_SQRT_2⟩)
              (cplx 100) (cplx 0) (cplx 0) (cplx 0.20) (cplx 1)).im / (h * h)) ∧
    (⟨exactConsts.INV_SQRT_2, exactConsts.INV_SQRT_2⟩ : ℂ) = (1 + Complex.I) / ((√2 : ℝ) : ℂ) ∧
    Tendsto (fun h => csd_gamma_45 exactConsts 100 100 0 0 0.20 1 h) (𝓝[>] 0)
      (𝓝 (analytic_gamma exactConsts 100 100 0 0 0.20 1)) :=
  csd_gamma_45_converges 100 100 0 0 0.20 1
    (by norm_num) (by norm_num) (by norm_num) (by norm_num)

/-! ## C4: CSD Gamma, real form -/

/-- C4 (the code does not converge to Gamma). On scenario1, with the exact
constants, `csd_gamma_real(…,h) = −2·(Re[bs_price_call_t(S+ih,…)] − bs_price_call(S,…))/h²`
converges as `h → 0+` to `2·analytic_gamma`, which is positive, and so does
not converge to `analytic_gamma`. -/
theorem csd_gamma_real_scenario1_limit :
    (∀ h : ℝ, csd_gamma_real exactConsts 100 100 0 0 0.20 1 h
      = (-2.0 * ((bs_price_call_t exactConsts ⟨100, h⟩ (cplx 100) (cplx 0) (cplx 0) (cplx 0.20)
            (cplx 1)).re - bs_price_call exactConsts 100 100 0 0 0.20 1)) / (h * h)) ∧
    Tendsto (fun h => csd_gamma_real exactConsts 100 100 0 0 0.20 1 h) (𝓝[>] 0)
      (𝓝 (2 * analytic_gamma exactConsts 100 100 0 0 0.20 1)) ∧
    0 < analytic_gamma exactConsts 100 100 0 0 0.20 1 ∧
    ¬ Tendsto (fun h => csd_gamma_real exactConsts 100 100 0 0 0.20 1 h) (𝓝[>] 0)
      (𝓝 (analytic_gamma exactConsts 100 100 0 0 0.20 1)) := by
  obtain ⟨-, -, -, -, -, -, -, -, -, -, -, -, -, -, -, -, -, -, -, -, -, -, -, -, -, -, -,
      analytic_gamma_pos⟩ := complex_spot_facts
  obtain ⟨-, -, -, -, -, -, tendsto_csd_gamma_real_exact, -⟩ := pricer_calculus_facts
  have hlim := tendsto_csd_gamma_real_exact 100 100 0 0 0.20 1
    (by norm_num) (by norm_num) (by norm_num) (by norm_num)
  have hpos := analytic_gamma_pos exactConsts 100 100 0 0 0.20 1
    (by norm_num) (by norm_num) (by norm_num) (by norm_num)
  refine ⟨fun _ => rfl, hlim, hpos, fun hbad => ?_⟩
  have := tendsto_nhds_unique hbad hlim
  linarith

/-! ## C11: specification of `analytic_gamma` -/

/-- C11. For `S, K > 0`, `σ, T ≥ 0` and real `r, q`, `analytic_gamma` returns `0`
when `σ√T = 0` and otherwise `exp(−qT)·exp(−½d1² − LOG_SQRT_2PI)/(S·σ√T)`, which
for the exact constants is `exp(−qT)·φ(d1)/(S·σ√T)` with
`φ(z) = (1/√(2π))·exp(−z²/2)`: the log-space evaluation equals `phi(d1)`. -/
theorem analytic_gamma_spec (S K r q sigma T : ℝ)
    (hS : 0 < S) (hK : 0 < K) (hs : 0 ≤ sigma) (hT : 0 ≤ T) :
    (sigma * √T = 0 → ∀ c : Consts, analytic_gamma c S K r q sigma T = 0) ∧
    (sigma * √T ≠ 0 → ∀ c : Consts,
      analytic_gamma c S K r q sigma T
        = Real.exp (-q * T)
            * Real.exp (-0.5 * d1_real S K r q sigma T * d1_real S K r q sigma T
                - c.LOG_SQRT_2PI)
            / (S * (sigma * √T))) ∧
    (sigma * √T ≠ 0 →
      analytic_gamma exactConsts S K r q sigma T
        = Real.exp (-q * T) * phi exactConsts (d1_real S K r q sigma T) / (S * (sigma * √T))) ∧
    (∀ z : ℝ, Real.exp (-0.5 * z * z - exactConsts.LOG_SQRT_2PI) = phi exactConsts z) ∧
    (∀ z : ℝ, phi exactConsts z = 1 / √(2 * π) * Real.exp (-z ^ 2 / 2)) ∧
    d1_real S K r q sigma T
      = (Real.log (S * Real.exp ((r - q) * T) / K) + 0.5 * sigma ^ 2 * T) / (sigma * √T) ∧
    0 < S * Real.exp ((r - q) * T) / K := by
  obtain ⟨-, -, -, -, max_eq_of_nonneg, -, -, -, -, -, -, -, -, exp_log_phi_exact, -, -, -, -, -,
      -, -, analytic_gamma_eq_d1, -, -⟩ := real_pricer_facts
  obtain ⟨sigmaT_ne_zero_iff, phi_exact_eq, -, -, -, -, -, -, -, -, -, -, -, -, -, -, -, -, -, -,
      -⟩ := scenario_facts
  refine ⟨fun hv c => ?_, fun hv c => ?_, fun hv => ?_, exp_log_phi_exact, phi_exact_eq, rfl,
    by positivity⟩
  · delta analytic_gamma
    simp only [max_eq_of_nonneg hT, if_pos hv]
  · obtain ⟨h1, h2⟩ := (sigmaT_ne_zero_iff hs hT).mp hv
    exact analytic_gamma_eq_d1 c S K r q sigma T hK h1 h2
  · obtain ⟨h1, h2⟩ := (sigmaT_ne_zero_iff hs hT).mp hv
    rw [analytic_gamma_eq_d1 exactConsts S K r q sigma T hK h1 h2, exp_log_phi_exact]

/-- C11 at scenario1 (`S = K = 100`, `r = q = 0`, `σ = 0.20`, `T = 1`). -/
theorem analytic_gamma_spec_scenario1 :
    ((0.20 : ℝ) * √1 = 0 → ∀ c : Consts, analytic_gamma c 100 100 0 0 0.20 1 = 0) ∧
    ((0.20 : ℝ) * √1 ≠ 0 → ∀ c : Consts,
      analytic_gamma c 100 100 0 0 0.20 1
        = Real.exp (-0 * 1)
            * Real.exp (-0.5 * d1_real 100 100 0 0 0.20 1 * d1_real 100 100 0 0 0.20 1
                - c.LOG_SQRT_2PI)
            / (100 * (0.20 * √1))) ∧
    ((0.20 : ℝ) * √1 ≠ 0 →
      analytic_gamma exactConsts 100 100 0 0 0.20 1
        = Real.exp (-0 * 1) * phi exactConsts (d1_real 100 100 0 0 0.20 1)
            / (100 * (0.20 * √1))) ∧
    (∀ z : ℝ, Real.exp (-0.5 * z * z - exactConsts.LOG_SQRT_2PI) = phi exactConsts z) ∧
    (∀ z : ℝ, phi exactConsts z = 1 / √(2 * π) * Real.exp (-z ^ 2 / 2)) ∧
    d1_real 100 100 0 0 0.20 1
      = (Real.log (100 * Real.exp ((0 - 0) * 1) / 100) + 0.5 * 0.20 ^ 2 * 1) / (0.20 * √1) ∧
    0 < (100 : ℝ) * Real.exp ((0 - 0) * 1) / 100 :=
  analytic_gamma_spec 100 100 0 0 0.20 1 (by norm_num) (by norm_num) (by norm_num) (by norm_num)

/-! ## C13: sign of `analytic_gamma` -/

/-- C15. On scenario1 (`S = K = 100`, `r = q = 0`, `σ = 0.20`, `T = 1`) the code
computes `F = 100`, `d1 = 0.10`, `d2 = −0.10`, so that
`bs_price_call = 100·(Φ(0.10) − Φ(−0.10))`, `analytic_delta = Φ(0.10)` and, with the
exact constants, `analytic_gamma = φ(0.10)/(100·0.20)`; in general, when `F = K`
and `σ, T > 0`, `d1 = ½·σ√T` and `d2 = −d1`. -/
theorem atm_scenario1 :
    (100 : ℝ) * Real.exp ((0 - 0) * 1) = 100 ∧
    (ln_F_over_K (100 * Real.exp ((0 - 0) * 1)) 100 + 0.5 * 0.20 * 0.20 * 1)
        / (0.20 * √(max 1 0)) = 0.10 ∧
    (ln_F_over_K (100 * Real.exp ((0 - 0) * 1)) 100 + 0.5 * 0.20 * 0.20 * 1)
        / (0.20 * √(max 1 0)) - 0.20 * √(max 1 0) = -0.10 ∧
    (∀ c : Consts, bs_price_call c 100 100 0 0 0.20 1
        = 100 * (Phi_real c 0.10 - Phi_real c (-0.10))) ∧
    (∀ c : Consts, analytic_delta c 100 100 0 0 0.20 1 = Phi_real c 0.10) ∧
    analytic_gamma exactConsts 100 100 0 0 0.20 1 = phi exactConsts 0.10 / (100 * 0.20) ∧
    (∀ S K r q sigma T : ℝ, 0 < K → 0 < sigma → 0 < T → S * Real.exp ((r - q) * T) = K →
      (ln_F_over_K (S * Real.exp ((r - q) * T)) K + 0.5 * sigma * sigma * T)
          / (sigma * √(max T 0)) = 0.5 * (sigma * √T) ∧
      (ln_F_over_K (S * Real.exp ((r - q) * T)) K + 0.5 * sigma * sigma * T)
          / (sigma * √(max T 0)) - sigma * √(max T 0) = -(0.5 * (sigma * √T))) := by
  obtain ⟨-, -, -, ln_F_over_K_eq, max_eq_of_nonneg, -, -, -, -, -, -, -, -, exp_log_phi_exact,
      -, -, -, -, -, bs_price_call_eq_d1, analytic_delta_eq_d1, analytic_gamma_eq_d1, -, -
      ⟩ := real_pricer_facts
  obtain ⟨-, -, d1_real_atm, -, -, -, -, -, -, -, -, -, -, -, -, -, -, -, -, -, -⟩ := scenario_facts
  have hF : (100 : ℝ) * Real.exp ((0 - 0) * 1) = 100 := by simp
  have hgen : ∀ S K r q sigma T : ℝ, 0 < K → 0 < sigma → 0 < T →
      S * Real.exp ((r - q) * T) = K →
      (ln_F_over_K (S * Real.exp ((r - q) * T)) K + 0.5 * sigma * sigma * T)
          / (sigma * √(max T 0)) = 0.5 * (sigma * √T) := by
    intro S K r q sigma T hK hs hT hFK
    have h := d1_real_atm S K r q sigma T hK hs hT hFK
    rw [← h]
    delta d1_real
    rw [ln_F_over_K_eq _ _ hK, max_eq_of_nonneg hT.le]
    ring_nf
  have hd1 := hgen 100 100 0 0 0.20 1 (by norm_num) (by norm_num) (by norm_num) hF
  have hd1' : d1_real 100 100 0 0 0.20 1 = 0.10 := by
    rw [d1_real_atm 100 100 0 0 0.20 1 (by norm_num) (by norm_num) (by norm_num) hF,
      Real.sqrt_one]
    norm_num
  have hm : max (1 : ℝ) 0 = 1 := max_eq_of_nonneg zero_le_one
  have hval : (0.5 : ℝ) * (0.20 * √1) = 0.10 := by rw [Real.sqrt_one]; norm_num
  refine ⟨hF, ?_, ?_, fun c => ?_, fun c => ?_, ?_, fun S K r q sigma T hK hs hT hFK => ?_⟩
  · rw [hd1, hval]
  · rw [hd1, hval, hm, Real.sqrt_one]
    norm_num
  · rw [bs_price_call_eq_d1 c 100 100 0 0 0.20 1 (by norm_num) (by norm_num) (by norm_num),
      hd1', hF, Real.sqrt_one]
    norm_num
    ring
  · rw [analytic_delta_eq_d1 c 100 100 0 0 0.20 1 (by norm_num) (by norm_num) (by norm_num),
      hd1']
    norm_num
  · rw [analytic_gamma_eq_d1 exactConsts 100 100 0 0 0.20 1 (by norm_num) (by norm_num)
      (by norm_num), exp_log_phi_exact, hd1', Real.sqrt_one]
    norm_num
  · have h := hgen S K r q sigma T hK hs hT hFK
    refine ⟨h, ?_⟩
    rw [h, max_eq_of_nonneg hT.le]
    ring

/-! ## C17: the step-size grid of the driver -/

/-- C17. `run_validation` writes exactly 25 data rows of 14 columns, the row of
index `i` (for `i = 0..24`, in this order) starting with
`h_rel = 10^(−16 + 12·i/24)`, a real division, and `h = h_rel·S`; so the first
`h_rel` is `1e-16`, the last `1e-4`, `h_rel` is strictly increasing in `i`, and
`h > 0` in every row when `S > 0`. -/
theorem run_validation_grid (c : Consts) (S K r q sigma T : ℝ) :
    (run_validation c S K r q sigma T).length = 25 ∧
    (∀ i : ℕ, i < 25 →
      (run_validation c S K r q sigma T)[i]? = some (run_validation_row c S K r q sigma T 24 i)) ∧
    (∀ i : ℕ, (run_validation_row c S K r q sigma T 24 i).length = 14 ∧
      (run_validation_row c S K r q sigma T 24 i).take 2
        = [(10 : ℝ) ^ ((-16 : ℝ) + 12 * (i : ℝ) / 24),
            (10 : ℝ) ^ ((-16 : ℝ) + 12 * (i : ℝ) / 24) * S]) ∧
    (10 : ℝ) ^ ((-16 : ℝ) + 12 * ((0 : ℕ) : ℝ) / 24) = 1e-16 ∧
    (10 : ℝ) ^ ((-16 : ℝ) + 12 * ((24 : ℕ) : ℝ) / 24) = 1e-4 ∧
    (10 : ℝ) ^ ((-16 : ℝ) + 12 * ((1 : ℕ) : ℝ) / 24) = (10 : ℝ) ^ (-15.5 : ℝ) ∧
    (∀ i j : ℕ, i < j →
      (10 : ℝ) ^ ((-16 : ℝ) + 12 * (i : ℝ) / 24) < (10 : ℝ) ^ ((-16 : ℝ) + 12 * (j : ℝ) / 24)) ∧
    (0 < S → ∀ i : ℕ, 0 < (10 : ℝ) ^ ((-16 : ℝ) + 12 * (i : ℝ) / 24) * S) := by
  obtain ⟨-, -, -, run_validation_row_take, h_rel_strictMono, -, -, -, -, -, -, -, -, -, -, -, -,
      -, -, -, -⟩ := scenario_facts
  refine ⟨?_, ?_, fun i => ⟨rfl, ?_⟩, ?_, ?_, ?_, ?_, ?_⟩
  · delta run_validation
    simp
  · intro i hi
    delta run_validation
    simp [List.getElem?_map, List.getElem?_range hi]
  · rw [run_validation_row_take]
    norm_num
  · norm_num
  · rw [show (-16 : ℝ) + 12 * ((24 : ℕ) : ℝ) / 24 = -((4 : ℕ) : ℝ) by norm_num,
      Real.rpow_neg (by norm_num), Real.rpow_natCast]
    norm_num
  · norm_num
  · intro i j hij
    have := h_rel_strictMono i j hij
    norm_num at this ⊢
    exact this
  · intro hS i
    exact mul_pos (Real.rpow_pos_of_pos (by norm_num) _) hS

/-! ## C12: range of `analytic_delta` -/

/-- C12. For `S, K > 0`, `σ, T ≥ 0` and real `r, q` (and any value of the
constants), `0 ≤ analytic_delta(S,K,r,q,σ,T) ≤ exp(−qT)`, on the degenerate
branch (`σ√T = 0`) and on the other one. -/
theorem analytic_delta_range (c : Consts) (S K r q sigma T : ℝ)
    (hS : 0 < S) (hK : 0 < K) (hs : 0 ≤ sigma) (hT : 0 ≤ T) :
    0 ≤ analytic_delta c S K r q sigma T ∧
    analytic_delta c S K r q sigma T ≤ Real.exp (-q * T) ∧
    0 < S * Real.exp ((r - q) * T) / K := by
  obtain ⟨-, -, -, -, max_eq_of_nonneg, -, -, -, -, -, -, -, -, -, -, -, -, -, -, -,
      analytic_delta_eq_d1, -, -, -⟩ := real_pricer_facts
  obtain ⟨sigmaT_ne_zero_iff, -, -, -, -, -, -, -, -, -, -, -, -, -, -, -, -, -, -, -, -
      ⟩ := scenario_facts
  obtain ⟨-, Phi_real_nonneg, Phi_real_le_one, -, -⟩ := erfc_integral_facts
  have hE : 0 < Real.exp (-q * T) := Real.exp_pos _
  refine ⟨?_, ?_, by positivity⟩
  · by_cases hv : sigma * √T = 0
    · delta analytic_delta
      simp only [max_eq_of_nonneg hT, if_pos hv]
      split_ifs
      · exact hE.le
      · exact le_refl 0
    · obtain ⟨h1, h2⟩ := (sigmaT_ne_zero_iff hs hT).mp hv
      rw [analytic_delta_eq_d1 c S K r q sigma T hK h1 h2]
      exact mul_nonneg hE.le (Phi_real_nonneg c _)
  · by_cases hv : sigma * √T = 0
    · delta analytic_delta
      simp only [max_eq_of_nonneg hT, if_pos hv]
      split_ifs
      · exact le_refl _
      · exact hE.le
    · obtain ⟨h1, h2⟩ := (sigmaT_ne_zero_iff hs hT).mp hv
      rw [analytic_delta_eq_d1 c S K r q sigma T hK h1 h2]
      calc Real.exp (-q * T) * Phi_real c (d1_real S K r q sigma T)
          ≤ Real.exp (-q * T) * 1 := mul_le_mul_of_nonneg_left (Phi_real_le_one c _) hE.le
        _ = Real.exp (-q * T) := mul_one _

/-- C12 at scenario1 (`S = K = 100`, `r = q = 0`, `σ = 0.20`, `T = 1`). -/
theorem analytic_delta_range_scenario1 :
    0 ≤ analytic_delta literalConsts 100 100 0 0 0.20 1 ∧
    analytic_delta literalConsts 100 100 0 0 0.20 1 ≤ Real.exp (-0 * 1) ∧
    0 < (100 : ℝ) * Real.exp ((0 - 0) * 1) / 100 :=
  analytic_delta_range literalConsts 100 100 0 0 0.20 1
    (by norm_num) (by norm_num) (by norm_num) (by norm_num)

/-! ## C19: no-arbitrage bounds -/

/-- C18. The literals `0.70710678118654752440`, `0.39894228040143267794` and
`0.91893853320467274178` are at less than `1e-19` from `1/√2`, `1/√(2π)` and
`ln √(2π)`; each literal and its constant have the same nearest binary64 number;
and `Phi_real` and `csd_gamma_45` read the same literal `INV_SQRT_2`. -/
theorem literal_constants_precision :
    |(0.70710678118654752440 : ℝ) - 1 / √2| < 1e-19 ∧
    |(0.39894228040143267794 : ℝ) - 1 / √(2 * π)| < 1e-19 ∧
    |(0.91893853320467274178 : ℝ) - Real.log (√(2 * π))| < 1e-19 ∧
    (literalConsts.INV_SQRT_2 = 0.70710678118654752440 ∧
      literalConsts.INV_SQRT_2PI = 0.39894228040143267794 ∧
      literalConsts.LOG_SQRT_2PI = 0.91893853320467274178) ∧
    (nearest_binary64 6369051672525773 53 0.70710678118654752440 ∧
      nearest_binary64 6369051672525773 53 (1 / √2)) ∧
    (nearest_binary64 7186705221432913 54 0.39894228040143267794 ∧
      nearest_binary64 7186705221432913 54 (1 / √(2 * π))) ∧
    (nearest_binary64 8277062471433909 53 0.91893853320467274178 ∧
      nearest_binary64 8277062471433909 53 (Real.log (√(2 * π)))) ∧
    (∀ z : ℝ, Phi_real literalConsts z = 0.5 * erfc (-z * 0.70710678118654752440)) ∧
    (∀ S K r q sigma T h : ℝ, csd_gamma_45 literalConsts S K r q sigma T h
      = (bs_price_call_t literalConsts
            (cplx S + (h : ℂ) * ⟨0.70710678118654752440, 0.70710678118654752440⟩)
            (cplx K) (cplx r) (cplx q) (cplx sigma) (cplx T)
          + bs_price_call_t literalConsts
            (cplx S - (h : ℂ) * ⟨0.70710678118654752440, 0.70710678118654752440⟩)
            (cplx K) (cplx r) (cplx q) (cplx sigma) (cplx T)).im / (h * h)) := by
  obtain ⟨-, -, -, -, -, -, -, -, -, -, literal_INV_SQRT_2_near, literal_INV_SQRT_2PI_near,
      literal_LOG_SQRT_2PI_near, -, -, -, -, nearest_binary64_of_near, -, -, -⟩ := scenario_facts
  have h1 : |(0.70710678118654752440 : ℝ) - 1 / √2| < 1e-19 := literal_INV_SQRT_2_near
  have h2 : |(0.39894228040143267794 : ℝ) - 1 / √(2 * π)| < 1e-19 := literal_INV_SQRT_2PI_near
  have h3 : |(0.91893853320467274178 : ℝ) - Real.log √(2 * π)| < 1e-19 :=
    literal_LOG_SQRT_2PI_near
  refine ⟨h1, h2, h3, ⟨rfl, rfl, rfl⟩, ?_, ?_, ?_, fun z => rfl, fun _ _ _ _ _ _ _ => rfl⟩
  · refine nearest_binary64_of_near (by norm_num) (by norm_num) h1 ?_
    rw [abs_lt]
    constructor <;> norm_num
  · refine nearest_binary64_of_near (by norm_num) (by norm_num) h2 ?_
    rw [abs_lt]
    constructor <;> norm_num
  · refine nearest_binary64_of_near (by norm_num) (by norm_num) h3 ?_
    rw [abs_lt]
    constructor <;> norm_num

/-! ## C16: the FFD Delta error band on scenario1 -/

/-- C16. On scenario1 (`S = K = 100`, `r = q = 0`, `σ = 0.20`, `T = 1`) with
`h = 1e-4·S = 0.01`, the absolute error `|ffd_delta − analytic_delta|` lies in
`[1e-6, 1e-4]` (exact real arithmetic, constants at their exact values); the
error is positive and at least `5e-5`. -/
theorem ffd_delta_error_band_scenario1 :
    (1e-4 : ℝ) * 100 = 0.01 ∧
    1e-6 ≤ |ffd_delta exactConsts 100 100 0 0 0.20 1 0.01
        - analytic_delta exactConsts 100 100 0 0 0.20 1| ∧
    |ffd_delta exactConsts 100 100 0 0 0.20 1 0.01
        - analytic_delta exactConsts 100 100 0 0 0.20 1| ≤ 1e-4 ∧
    5e-5 ≤ ffd_delta exactConsts 100 100 0 0 0.20 1 0.01
        - analytic_delta exactConsts 100 100 0 0 0.20 1 := by
  obtain ⟨-, -, -, -, -, -, -, -, -, -, -, -, -, -, -, -, -, -, forward_diff_sub_le,
      le_forward_diff_sub, analytic_gamma_scenario1_bounds⟩ := scenario_facts
  obtain ⟨-, hasDerivAt_bs_price_call, hasDerivAt_analytic_delta, -, -, -, -, -
      ⟩ := pricer_calculus_facts
  have hf : ∀ x ∈ Set.Icc (100 : ℝ) (100 + 0.01),
      HasDerivAt (fun s => bs_price_call exactConsts s 100 0 0 0.20 1)
        (analytic_delta exactConsts x 100 0 0 0.20 1) x :=
    fun x hx => hasDerivAt_bs_price_call x 100 0 0 0.20 1 (by linarith [hx.1]) (by norm_num)
      (by norm_num) (by norm_num)
  have hf1 : ∀ x ∈ Set.Icc (100 : ℝ) (100 + 0.01),
      HasDerivAt (fun s => analytic_delta exactConsts s 100 0 0 0.20 1)
        (analytic_gamma exactConsts x 100 0 0 0.20 1) x :=
    fun x hx => hasDerivAt_analytic_delta x 100 0 0 0.20 1 (by linarith [hx.1]) (by norm_num)
      (by norm_num) (by norm_num)
  have hup := forward_diff_sub_le (by norm_num : (0 : ℝ) < 0.01) hf hf1
    (fun x hx => (analytic_gamma_scenario1_bounds x hx).2)
  have hlo := le_forward_diff_sub (by norm_num : (0 : ℝ) < 0.01) hf hf1
    (fun x hx => (analytic_gamma_scenario1_bounds x hx).1)
  have herr : ffd_delta exactConsts 100 100 0 0 0.20 1 0.01
        - analytic_delta exactConsts 100 100 0 0 0.20 1
      = (bs_price_call exactConsts (100 + 0.01) 100 0 0 0.20 1
          - bs_price_call exactConsts 100 100 0 0 0.20 1) / 0.01
        - analytic_delta exactConsts 100 100 0 0 0.20 1 := rfl
  rw [herr]
  have hlo2 : (5e-5 : ℝ) ≤ (bs_price_call exactConsts (100 + 0.01) 100 0 0 0.20 1
          - bs_price_call exactConsts 100 100 0 0 0.20 1) / 0.01
        - analytic_delta exactConsts 100 100 0 0 0.20 1 := by
    norm_num at hlo ⊢
    linarith
  have hup2 : (bs_price_call exactConsts (100 + 0.01) 100 0 0 0.20 1
          - bs_price_call exactConsts 100 100 0 0 0.20 1) / 0.01
        - analytic_delta exactConsts 100 100 0 0 0.20 1 ≤ 1e-4 := by
    norm_num at hup ⊢
    linarith
  have hpos : (0 : ℝ) ≤ (bs_price_call exactConsts (100 + 0.01) 100 0 0 0.20 1
          - bs_price_call exactConsts 100 100 0 0 0.20 1) / 0.01
        - analytic_delta exactConsts 100 100 0 0 0.20 1 := by
    have : (0 : ℝ) ≤ 5e-5 := by norm_num
    linarith
  rw [abs_of_nonneg hpos]
  refine ⟨by norm_num, ?_, hup2, hlo2⟩
  have : (1e-6 : ℝ) ≤ 5e-5 := by norm_num
  linarith

end QuantCloud
